import Mathlib

/-!
Verification of the LLM-output recovery and normalization pipeline of
`src/ai/insights_engine_core.py` (class `AIInsightsEngine`).

The Python functions are shallowly embedded as executable Lean functions over
`List Char` / `String`.  Conventions used throughout:

* Python exceptions are modelled with `Option`: a function that can raise
  returns `none` where the Python code raises, and every call site models the
  corresponding `try/except` by matching on the `Option`.
* Python `json.loads` is embedded as a recursive-descent parser (`parseVal`
  and friends) accepting the same grammar (strict strings, `NaN`/`Infinity`
  constants, last-wins duplicate object keys).  JSON numbers are kept as exact
  scaled decimals (`PyNum.F m e` denotes `m * 10 ^ e`) rather than binary
  floating point; no claim below depends on float rounding.
* The regular expressions used by the pipeline are embedded as hand-rolled
  scanners with the exact matching semantics of the Python `re` module for
  those patterns (leftmost match, greedy `\s*`, lazy captures, alternation
  order, `$` at end of input).
* Wall-clock time (`datetime.utcnow`), randomness (`random.randint`),
  `uuid.uuid4`, `math.sin` and `datetime.fromisoformat` are nondeterministic
  or float-valued effects; they are modelled as fields of an explicit
  environment `Env` threaded through the pipeline, indexed by the number of
  `_attach_examples_and_graph` calls made so far (which is how the Python
  globals advance).
-/

namespace GluCoPilot

/-- Numbers as Python json produces them: `I` for ints, `F m e` for the float
written with mantissa `m` and decimal exponent `e` (value `m * 10 ^ e`), plus
the non-finite constants accepted by Python's json (`NaN`, `Infinity`,
`-Infinity`, the Bool argument of `inf` meaning negated). -/
inductive PyNum where
| I : Int → PyNum
| F : Int → Int → PyNum
| nan : PyNum
| inf : Bool → PyNum
deriving Repr, DecidableEq

/-- The values `json.loads` returns: objects keep their key/value pairs in
source order (Python dict insertion order) and lookups take the last
occurrence of a repeated key, matching dict overwrite semantics. -/
inductive PyJson where
| null : PyJson
| bool : Bool → PyJson
| num : PyNum → PyJson
| str : String → PyJson
| arr : List PyJson → PyJson
| obj : List (String × PyJson) → PyJson
deriving Repr

/-- Dict lookup: the value of the LAST pair with the given key, as in a Python
dict built by repeated insertion. -/
def pyGet (kvs : List (String × PyJson)) (k : String) : Option PyJson :=
  match kvs with
  | [] => none
  | (k1, v1) :: rest => match pyGet rest k with
    | some v => some v
    | none => if k1 = k then some v1 else none

/-- Dict key containment, Python `k in d`. -/
def pyHasKey (kvs : List (String × PyJson)) (k : String) : Bool :=
  kvs.any (fun kv => kv.1 = k)

/-- Whether a value is a dict (`isinstance(item, dict)`). -/
def PyJson.isObjB : PyJson → Bool
| .obj _ => true
| _ => false

/-- Characters `str.strip()` removes: ASCII whitespace as Python classifies
it for `str` (space, tab, newline, carriage return, vertical tab, form feed). -/
def pyWs (c : Char) : Bool :=
  c = ' ' ∨ c = '\t' ∨ c = '\n' ∨ c = '\r' ∨ c = '\x0b' ∨ c = '\x0c'

/-- Whitespace of the JSON grammar (what `json.loads` skips between tokens):
space, tab, newline, carriage return only. -/
def jsonWs (c : Char) : Bool :=
  c = ' ' ∨ c = '\t' ∨ c = '\n' ∨ c = '\r'

/-- Python `str.strip()` on a char list. -/
def pyStripL (cs : List Char) : List Char :=
  ((cs.dropWhile pyWs).reverse.dropWhile pyWs).reverse

/-- Python `str.strip()`. -/
def pyStrip (s : String) : String := String.mk (pyStripL s.toList)

/-- Python `str.lstrip()` on a char list. -/
def pyLstripL (cs : List Char) : List Char := cs.dropWhile pyWs

/-- Python `str.rstrip()` on a char list. -/
def pyRstripL (cs : List Char) : List Char := (cs.reverse.dropWhile pyWs).reverse

/-- Python `str.lower()`.  The engine only lowercases ASCII field labels and
enum words, so ASCII lowercasing is the behaviour exercised. -/
def pyLowerL (cs : List Char) : List Char := cs.map Char.toLower

/-- Python `str.lower()` on `String`. -/
def pyLower (s : String) : String := String.mk (pyLowerL s.toList)

/-- Case-insensitive character comparison (ASCII). -/
def ciEq (a b : Char) : Bool := a.toLower = b.toLower

/-- Whether `pre` is a prefix of `cs` comparing case-insensitively. -/
def ciIsPrefixOf : List Char → List Char → Bool
| [], _ => true
| _ :: _, [] => false
| p :: ps, c :: cs => ciEq p c && ciIsPrefixOf ps cs

/-- Python `str.startswith` (case sensitive) on char lists. -/
def strStarts : List Char → List Char → Bool
| [], _ => true
| _ :: _, [] => false
| p :: ps, c :: cs => (p = c) && strStarts ps cs

/-- Drop a prefix of the given length. -/
def dropN (n : Nat) (cs : List Char) : List Char := cs.drop n

/-- Python `str.find(sub)`: index of the leftmost occurrence, or `-1`.
Returns an `Option Nat` here; `none` models `-1`. -/
def strFindL (cs sub : List Char) : Option Nat :=
  match cs with
  | [] => if sub = [] then some 0 else none
  | _ :: rest =>
    if strStarts sub cs then some 0
    else (strFindL rest sub).map (· + 1)

/-- Python slice `s[a:b]` with the usual clamping, as a char-list operation. -/
def pySlice (cs : List Char) (a b : Nat) : List Char := (cs.take b).drop a

/-- Helper for `splitOnSub`, fuel-driven (fuel bounds the input length, so it
never runs out on the calls made below). -/
def splitOnSubGo (fuel : Nat) (cs sep : List Char) : List (List Char) :=
  match fuel with
  | 0 => [cs]
  | fuel + 1 =>
    match cs with
    | [] => [[]]
    | c :: rest =>
      if strStarts sep cs ∧ sep ≠ [] then
        [] :: splitOnSubGo fuel (dropN sep.length cs) sep
      else
        match splitOnSubGo fuel rest sep with
        | [] => [[c]]
        | chunk :: more => (c :: chunk) :: more

/-- Python `str.split(sep)` for a non-empty separator: split at every
occurrence, keeping empty chunks. -/
def splitOnSub (cs sep : List Char) : List (List Char) :=
  splitOnSubGo (cs.length + 1) cs sep

/-- Python `str.split()` with no argument: split on runs of whitespace,
dropping empty chunks. -/
def pySplitWs (cs : List Char) : List (List Char) :=
  match cs with
  | [] => []
  | c :: rest =>
    if pyWs c then pySplitWs rest
    else
      match pySplitWs rest with
      | [] => [[c]]
      | chunk :: more =>
        match rest with
        | [] => [[c]]
        | r :: _ => if pyWs r then [c] :: chunk :: more else (c :: chunk) :: more

/-- Python `'sep'.join(parts)` on strings. -/
def pyJoin (sep : String) (parts : List String) : String :=
  String.intercalate sep parts

/-! ### Embedding of `json.loads`

A recursive-descent parser over `List Char` for exactly the grammar Python's
`json.loads` accepts: strict strings (raw control characters rejected, the
eight named escapes plus `\uXXXX`), numbers per the scanner's `NUMBER_RE`
(so `01` stops after `0`, a fraction needs a digit after the dot, an exponent
needs a digit), the constants `NaN`, `Infinity`, `-Infinity`, arrays and
objects with no trailing commas, and `space/tab/newline/return` as
whitespace.  Fuel decreases at every recursive call; the top-level entry
supplies fuel larger than the input, which is always enough because every
parser consumes at least one character before re-entering `parseVal`.

Fidelity notes: `\uXXXX` escapes are mapped through `Char.ofNat`, so a lone
surrogate (invalid as a Lean `Char`) becomes `\0` where Python would keep a
surrogate code unit, and surrogate pairs are not combined; no claim below
involves such input. -/

/-- Skip JSON whitespace. -/
def skipWs : List Char → List Char
| [] => []
| c :: cs => if jsonWs c then skipWs cs else c :: cs

/-- Value of a hex digit. -/
def hexVal (c : Char) : Option Nat :=
  if '0' ≤ c ∧ c ≤ '9' then some (c.toNat - '0'.toNat)
  else if 'a' ≤ c ∧ c ≤ 'f' then some (c.toNat - 'a'.toNat + 10)
  else if 'A' ≤ c ∧ c ≤ 'F' then some (c.toNat - 'A'.toNat + 10)
  else none

/-- The body of a JSON string literal, after the opening quote.  `acc` holds
the decoded characters in reverse. -/
def parseStrBody (acc : List Char) : List Char → Option (String × List Char)
| [] => none
| '"' :: rest => some (String.mk acc.reverse, rest)
| '\\' :: rest =>
  match rest with
  | [] => none
  | 'u' :: h1 :: h2 :: h3 :: h4 :: rest2 =>
    match hexVal h1, hexVal h2, hexVal h3, hexVal h4 with
    | some a, some b, some c, some d =>
      parseStrBody (Char.ofNat (((a * 16 + b) * 16 + c) * 16 + d) :: acc) rest2
    | _, _, _, _ => none
  | e :: rest2 =>
    match e with
    | '"' => parseStrBody ('"' :: acc) rest2
    | '\\' => parseStrBody ('\\' :: acc) rest2
    | '/' => parseStrBody ('/' :: acc) rest2
    | 'b' => parseStrBody ('\x08' :: acc) rest2
    | 'f' => parseStrBody ('\x0c' :: acc) rest2
    | 'n' => parseStrBody ('\n' :: acc) rest2
    | 'r' => parseStrBody ('\r' :: acc) rest2
    | 't' => parseStrBody ('\t' :: acc) rest2
    | _ => none
| c :: rest => if c.toNat < 32 then none else parseStrBody (c :: acc) rest

/-- Decimal digit test. -/
def isDig (c : Char) : Bool := '0' ≤ c ∧ c ≤ '9'

/-- Longest digit prefix and the rest. -/
def takeDigits : List Char → List Char × List Char
| [] => ([], [])
| c :: cs =>
  if isDig c then
    let (ds, rest) := takeDigits cs
    (c :: ds, rest)
  else ([], c :: cs)

/-- Numeric value of a digit list (most significant first). -/
def digitsVal (ds : List Char) : Nat :=
  ds.foldl (fun n c => n * 10 + (c.toNat - '0'.toNat)) 0

/-- The integer part of a JSON number per `NUMBER_RE`: either a single `0` or
a nonzero digit followed by digits.  Returns the digit list and the rest. -/
def parseIntPart : List Char → Option (List Char × List Char)
| [] => none
| c :: cs =>
  if c = '0' then some (['0'], cs)
  else if isDig c then
    let (ds, rest) := takeDigits cs
    some (c :: ds, rest)
  else none

/-- Optional fraction `.digits` — taken only when a digit follows the dot,
as in `NUMBER_RE` where an unmatched group is simply absent. -/
def parseFracPart (cs : List Char) : List Char × List Char :=
  match cs with
  | '.' :: c :: rest =>
    if isDig c then
      let (ds, r) := takeDigits rest
      (c :: ds, r)
    else ([], cs)
  | _ => ([], cs)

/-- Optional exponent `[eE][+-]?digits` — taken only when a digit appears. -/
def parseExpPart (cs : List Char) : Option (Bool × List Char) × List Char :=
  match cs with
  | e :: rest =>
    if e = 'e' ∨ e = 'E' then
      match rest with
      | '-' :: c :: r =>
        if isDig c then
          let (ds, r2) := takeDigits r
          (some (true, c :: ds), r2)
        else (none, cs)
      | '+' :: c :: r =>
        if isDig c then
          let (ds, r2) := takeDigits r
          (some (false, c :: ds), r2)
        else (none, cs)
      | c :: r =>
        if isDig c then
          let (ds, r2) := takeDigits r
          (some (false, c :: ds), r2)
        else (none, cs)
      | [] => (none, cs)
    else (none, cs)
  | [] => (none, cs)

/-- The optional leading minus sign of a number token. -/
def parseSign : List Char → Bool × List Char
| '-' :: r => (true, r)
| cs => (false, cs)

/-- A JSON number token: `int` when there is no fraction and no exponent,
else the scaled decimal `F`. -/
def parseNum (cs : List Char) : Option (PyNum × List Char) :=
  let (neg, cs1) := parseSign cs
  match parseIntPart cs1 with
  | none => none
  | some (ids, cs2) =>
    let (fds, cs3) := parseFracPart cs2
    let (ex, cs4) := parseExpPart cs3
    match fds, ex with
    | [], none =>
      let v : Int := Int.ofNat (digitsVal ids)
      some (PyNum.I (if neg then -v else v), cs4)
    | _, _ =>
      let mant : Int := Int.ofNat (digitsVal (ids ++ fds))
      let mant := if neg then -mant else mant
      let e0 : Int := - (Int.ofNat fds.length)
      let e : Int := match ex with
        | none => e0
        | some (eneg, eds) =>
          e0 + (if eneg then - (Int.ofNat (digitsVal eds)) else Int.ofNat (digitsVal eds))
      some (PyNum.F mant e, cs4)

/-- Parsing mode: one value, the elements of a non-empty array, or the
members of a non-empty object.  A single structurally fuel-recursive
function stands in for the three mutually recursive parsers, so that the
kernel can evaluate it. -/
inductive PMode where
| val : PMode
| elems : PMode
| members : PMode

/-- Result of a parse in each mode. -/
inductive PRes where
| v : PyJson → PRes
| vs : List PyJson → PRes
| kvs : List (String × PyJson) → PRes

/-- The recursive-descent parser.  In `val` mode: one JSON value at the
current position (no leading-whitespace skipping — callers skip, as
Python's scanner does).  In `elems` mode: a value, then either `]` or a
comma and more elements, consuming the closing `]`.  In `members` mode: a
string key, `:`, a value, then either `}` or a comma and more members,
consuming the closing `}`. -/
def parseAny : Nat → PMode → List Char → Option (PRes × List Char)
| 0, _, _ => none
| fuel + 1, .val, cs =>
  (match cs with
   | [] => none
   | '"' :: rest => (parseStrBody [] rest).map (fun (s, r) => (PRes.v (PyJson.str s), r))
   | '\x7b' :: rest =>
     (match skipWs rest with
      | '\x7d' :: r2 => some (PRes.v (PyJson.obj []), r2)
      | r1 =>
        match parseAny fuel .members r1 with
        | some (.kvs kvs, r) => some (PRes.v (PyJson.obj kvs), r)
        | _ => none)
   | '[' :: rest =>
     (match skipWs rest with
      | ']' :: r2 => some (PRes.v (PyJson.arr []), r2)
      | r1 =>
        match parseAny fuel .elems r1 with
        | some (.vs vs, r) => some (PRes.v (PyJson.arr vs), r)
        | _ => none)
   | _ =>
     if strStarts ("null".toList) cs then some (PRes.v PyJson.null, cs.drop 4)
     else if strStarts ("true".toList) cs then some (PRes.v (PyJson.bool true), cs.drop 4)
     else if strStarts ("false".toList) cs then some (PRes.v (PyJson.bool false), cs.drop 5)
     else
       match parseNum cs with
       | some (n, r) => some (PRes.v (PyJson.num n), r)
       | none =>
         if strStarts ("NaN".toList) cs then some (PRes.v (PyJson.num PyNum.nan), cs.drop 3)
         else if strStarts ("Infinity".toList) cs then
           some (PRes.v (PyJson.num (PyNum.inf false)), cs.drop 8)
         else if strStarts ("-Infinity".toList) cs then
           some (PRes.v (PyJson.num (PyNum.inf true)), cs.drop 9)
         else none)
| fuel + 1, .elems, cs =>
  (match parseAny fuel .val cs with
   | some (.v v, r) =>
     (match skipWs r with
      | ']' :: r2 => some (PRes.vs [v], r2)
      | ',' :: r2 =>
        (match parseAny fuel .elems (skipWs r2) with
         | some (.vs vs, r3) => some (PRes.vs (v :: vs), r3)
         | _ => none)
      | _ => none)
   | _ => none)
| fuel + 1, .members, cs =>
  (match cs with
   | '"' :: rest =>
     (match parseStrBody [] rest with
      | none => none
      | some (k, r1) =>
        (match skipWs r1 with
         | ':' :: r2 =>
           (match parseAny fuel .val (skipWs r2) with
            | some (.v v, r3) =>
              (match skipWs r3 with
               | '\x7d' :: r4 => some (PRes.kvs [(k, v)], r4)
               | ',' :: r4 =>
                 (match parseAny fuel .members (skipWs r4) with
                  | some (.kvs kvs, r5) => some (PRes.kvs ((k, v) :: kvs), r5)
                  | _ => none)
               | _ => none)
            | _ => none)
         | _ => none)
      )
   | _ => none)

/-- One JSON value (the `scan_once` entry). -/
def parseVal (fuel : Nat) (cs : List Char) : Option (PyJson × List Char) :=
  match parseAny fuel .val cs with
  | some (.v v, r) => some (v, r)
  | _ => none

/-- Elements of a non-empty array, consuming the final `]`. -/
def parseElems (fuel : Nat) (cs : List Char) : Option (List PyJson × List Char) :=
  match parseAny fuel .elems cs with
  | some (.vs vs, r) => some (vs, r)
  | _ => none

/-- Members of a non-empty object, consuming the final `}`. -/
def parseMembers (fuel : Nat) (cs : List Char) : Option (List (String × PyJson) × List Char) :=
  match parseAny fuel .members cs with
  | some (.kvs kvs, r) => some (kvs, r)
  | _ => none

/-- Embedding of `json.loads`: skip leading whitespace, parse one value, skip
trailing whitespace, require the input to be exhausted. -/
def pyJsonLoadsL (cs : List Char) : Option PyJson :=
  match parseVal (2 * cs.length + 2) (skipWs cs) with
  | none => none
  | some (v, rest) =>
    match skipWs rest with
    | [] => some v
    | _ :: _ => none

/-- Embedding of `json.loads` on `String`. -/
def pyJsonLoads (s : String) : Option PyJson := pyJsonLoadsL s.toList

/-! ### The scanner-based helpers of `AIInsightsEngine`

`_strip_code_fences`, `_is_truncated`, `_repair_json`, `_extract_json_array`
and `_split_json_array_objects`, line by line from
`src/ai/insights_engine_core.py`. -/

/-- Fuel-driven worker for `removeFences` (fuel bounds the input length;
`acc` holds the kept characters reversed, so the recursion is iterative). -/
def removeFencesGo (fuel : Nat) (acc : List Char) : List Char → List Char
| [] => acc.reverse
| c :: cs =>
  match fuel with
  | 0 => acc.reverse ++ c :: cs
  | fuel + 1 =>
    if strStarts ("```json".toList) (c :: cs) then removeFencesGo fuel acc (dropN 7 (c :: cs))
    else if strStarts ("```".toList) (c :: cs) then removeFencesGo fuel acc (dropN 3 (c :: cs))
    else removeFencesGo fuel (c :: acc) cs

/-- The substitution `re.sub(r"```json|```", "", text)`: at each position the
alternation prefers the longer `` ```json `` token, and matching resumes
after the removed token. -/
def removeFences (cs : List Char) : List Char :=
  removeFencesGo cs.length [] cs

/-- Embedding of `_strip_code_fences`: remove fence tokens, then `strip()`. -/
def strip_code_fences (s : String) : String :=
  String.mk (pyStripL (removeFences s.toList))

/-- One step (right to left) of the trailing-comma substitution
`re.sub(r",(\s*[}\]])", r"\1", s)`.  Because `\s*` only crosses whitespace,
no comma ever lies inside another match, so the substitution deletes exactly
those commas whose right context in the original text is optional whitespace
followed by a closing bracket — a purely local rule (checked against CPython
on `,,]` / `, ]` / `,,,]`).  The fold runs over the reversed text; the state
is the output built so far plus a flag recording whether the characters to
the right form `\s*[}\]]`.  `\s` for this pattern is Python regex
whitespace; the engine's inputs only exercise the ASCII set, which
coincides with `pyWs`. -/
def rtcStep (st : List Char × Bool) (c : Char) : List Char × Bool :=
  let (out, pending) := st
  if c = ',' then
    if pending then (out, false) else (c :: out, false)
  else if c = '\x7d' ∨ c = ']' then (c :: out, true)
  else if pyWs c then (c :: out, pending)
  else (c :: out, false)

/-- One `re.sub` pass dropping commas that precede a closing bracket. -/
def removeTrailingCommas (cs : List Char) : List Char :=
  (cs.reverse.foldl rtcStep ([], false)).1

/-- State of the string-and-bracket scanner shared by `_is_truncated` and
`_repair_json`: in-string flag, escape flag, and the stack of expected
closers with the most recent expectation first (Python appends and pops at
the end of its list; head-first here is the same LIFO order, so the closers
Python appends by popping are exactly this list front to back). -/
structure ScanSt where
  inStr : Bool
  esc : Bool
  stack : List Char
deriving Repr, DecidableEq

/-- One character step of that scanner. -/
def scanStep (st : ScanSt) (c : Char) : ScanSt :=
  if st.inStr then
    if st.esc then { st with esc := false }
    else if c = '\\' then { st with esc := true }
    else if c = '"' then { st with inStr := false }
    else st
  else
    if c = '"' then { st with inStr := true }
    else if c = '\x7b' then { st with stack := '\x7d' :: st.stack }
    else if c = '[' then { st with stack := ']' :: st.stack }
    else if c = '\x7d' ∨ c = ']' then
      match st.stack with
      | top :: rest => if top = c then { st with stack := rest } else st
      | [] => st
    else st

/-- The full scan, as a left fold so that it composes over appends. -/
def scanJson (cs : List Char) (st : ScanSt) : ScanSt :=
  cs.foldl scanStep st

/-- Embedding of `_is_truncated`. -/
def is_truncated (s : String) : Bool :=
  if s.isEmpty then false
  else
    let t := (strip_code_fences s).toList
    let st := scanJson t ⟨false, false, []⟩
    if st.inStr ∨ st.stack ≠ [] then true
    else
      match (pyRstripL t).getLast? with
      | some c => c = ',' ∨ c = ':'
      | none => false

/-- Drop everything before the first `[` when one exists. -/
def dropToLBracket (cs : List Char) : List Char :=
  match cs with
  | [] => []
  | c :: rest => if c = '[' then c :: rest else dropToLBracket rest

/-- The slice `s[s.find('['):]` guarded by `find != -1`: identity when there
is no `[`. -/
def fromFirstLBracket (cs : List Char) : List Char :=
  if cs.any (· = '[') then dropToLBracket cs else cs

/-- Keep everything up to and including the last `]` or `}`
(`s[:last_bracket+1]`): drop the tail after the last closer.  Empty when
there is none (the caller guards on `hasCloser`). -/
def uptoLastCloser (cs : List Char) : List Char :=
  (cs.reverse.dropWhile (fun c => ¬ (c = ']' ∨ c = '\x7d'))).reverse

/-- Whether the list contains a `]` or `}` at all (guards the slice above,
mirroring `last_bracket != -1`). -/
def hasCloser (cs : List Char) : Bool := cs.any (fun c => c = ']' ∨ c = '\x7d')

/-- The final validation of `_repair_json`: return the candidate only when
`json.loads` accepts it. -/
def repairCheck (c : List Char) : Option (List Char) :=
  match pyJsonLoadsL c with
  | some _ => some c
  | none => none

/-- Embedding of `_repair_json` as a list transformation; `none` is Python's
`None`. -/
def repair_jsonL (t : List Char) : Option (List Char) :=
  if t = [] then none
  else
    let s := pyStripL (removeFences t)
    let s := fromFirstLBracket s
    let s := if hasCloser s then uptoLastCloser s else s
    let s := removeTrailingCommas s
    let st := scanJson s ⟨false, false, []⟩
    let candidate := s ++ (if st.inStr then ['"'] else []) ++ st.stack
    let candidate := removeTrailingCommas candidate
    let candidate :=
      if strStarts ['\x7b'] (pyLstripL candidate) ∧ ¬ strStarts ['['] (pyLstripL candidate)
      then '[' :: candidate ++ [']'] else candidate
    repairCheck candidate

/-- Embedding of `_repair_json` on `String`. -/
def repair_json (s : String) : Option String :=
  (repair_jsonL s.toList).map String.mk

/-- The bracket-depth scan of `_extract_json_array` from the first `[`: depth
counts `[`/`]` only (string-aware); emits the prefix up to the bracket that
returns depth to zero, or the whole rest when unbalanced. -/
def extractGo : List Char → Bool → Bool → Int → List Char → Option (List Char)
| [], _, _, _, _ => none
| c :: cs, true, esc, depth, acc =>
  if esc then extractGo cs true false depth (c :: acc)
  else if c = '\\' then extractGo cs true true depth (c :: acc)
  else if c = '"' then extractGo cs false false depth (c :: acc)
  else extractGo cs true false depth (c :: acc)
| c :: cs, false, _, depth, acc =>
  if c = '"' then extractGo cs true false depth (c :: acc)
  else if c = '[' then extractGo cs false false (depth + 1) (c :: acc)
  else if c = ']' then
    if depth - 1 = 0 then some (c :: acc).reverse
    else extractGo cs false false (depth - 1) (c :: acc)
  else extractGo cs false false depth (c :: acc)

/-- Embedding of `_extract_json_array`. -/
def extract_json_array (s : String) : Option String :=
  if s.isEmpty then none
  else
    let t := (strip_code_fences s).toList
    let t := dropToLBracket t
    match t with
    | [] => none
    | _ :: _ =>
      match extractGo t false false 0 [] with
      | some arr => some (String.mk arr)
      | none => some (String.mk t)

/-- State of the `_split_json_array_objects` scan: string flag, escape flag,
object-brace depth (an `Int`, since stray `}` drive it negative), and the
object slice being captured (`none` models `start_idx == -1`; the slice
`s[start_idx:i+1]` is represented by accumulating every scanned character
while the start is set). -/
structure SplitSt where
  inStr : Bool
  esc : Bool
  depth : Int
  cur : Option (List Char)
deriving Repr

/-- One step of the splitter scan; the second component is an emitted object
substring, if this character closed a captured top-level object. -/
def splitStep (st : SplitSt) (c : Char) : SplitSt × Option (List Char) :=
  let app (o : Option (List Char)) : Option (List Char) := o.map (· ++ [c])
  if st.inStr then
    if st.esc then ({ st with esc := false, cur := app st.cur }, none)
    else if c = '\\' then ({ st with esc := true, cur := app st.cur }, none)
    else if c = '"' then ({ st with inStr := false, cur := app st.cur }, none)
    else ({ st with cur := app st.cur }, none)
  else
    if c = '"' then ({ st with inStr := true, cur := app st.cur }, none)
    else if c = '\x7b' then
      if st.depth = 0 then ({ st with depth := st.depth + 1, cur := some [c] }, none)
      else ({ st with depth := st.depth + 1, cur := app st.cur }, none)
    else if c = '\x7d' then
      if st.depth - 1 = 0 ∧ st.cur.isSome then
        ({ st with depth := st.depth - 1, cur := none }, app st.cur)
      else ({ st with depth := st.depth - 1, cur := app st.cur }, none)
    else ({ st with cur := app st.cur }, none)

/-- The splitter scan over the characters after the opening `[`. -/
def splitGo : List Char → SplitSt → List (List Char) → List (List Char)
| [], _, acc => acc
| c :: cs, st, acc =>
  match splitStep st c with
  | (st2, some emitted) => splitGo cs st2 (acc ++ [emitted])
  | (st2, none) => splitGo cs st2 acc

/-- Embedding of `_split_json_array_objects`. -/
def split_json_array_objects (s : String) : List String :=
  if s.isEmpty then []
  else
    let t := pyStripL s.toList
    if strStarts ['['] t then
      (splitGo (t.drop 1) ⟨false, false, 0, none⟩ []).map String.mk
    else []

/-! ### The regex scans used by extraction methods 3 to 6

Each definition replicates the exact matching behaviour of its Python
pattern, as noted in the module header. -/

/-- Split at the first `}`: `(before, after)` or `none` when absent. -/
def breakAtRBrace : List Char → Option (List Char × List Char)
| [] => none
| c :: cs =>
  if c = '\x7d' then some ([], cs)
  else (breakAtRBrace cs).map (fun (b, a) => (c :: b, a))

/-- Fuel-driven worker for `findBraceSpans` (fuel bounds the input length). -/
def findBraceSpansGo (fuel : Nat) : List Char → List (List Char)
| [] => []
| c :: cs =>
  match fuel with
  | 0 => []
  | fuel + 1 =>
    if c = '\x7b' then
      match breakAtRBrace cs with
      | some (body, rest) => ('\x7b' :: body ++ ['\x7d']) :: findBraceSpansGo fuel rest
      | none => []
    else findBraceSpansGo fuel cs

/-- Method 3's `re.findall(r'\{[\s\S]*?\}', text)`: each match runs from a
`{` to the nearest following `}` (non-greedy, not nesting-aware), and
scanning resumes after the match. -/
def findBraceSpans (cs : List Char) : List (List Char) :=
  findBraceSpansGo cs.length cs

/-- Whether a split point of method 4 follows: `(?=\d+[\.)] )`, i.e. one or
more digits, then `.` or `)`, then a space. -/
def numberedAhead (cs : List Char) : Bool :=
  let (ds, rest) := takeDigits cs
  !ds.isEmpty && match rest with
    | p :: ' ' :: _ => (p == '.') || (p == ')')
    | _ => false

/-- Method 4's `re.split(r'\n(?=\d+[\.)] )', text)`: the newline is consumed,
the lookahead is not.  `cur` holds the current chunk reversed. -/
def splitNumberedGo : List Char → List Char → List (List Char)
| [], cur => [cur.reverse]
| c :: rest, cur =>
  if c = '\n' ∧ numberedAhead rest then cur.reverse :: splitNumberedGo rest []
  else splitNumberedGo rest (c :: cur)

/-- Method 4's numbered split. -/
def splitNumbered (cs : List Char) : List (List Char) := splitNumberedGo cs []

/-- After a matched label: optional `:`, then a maximal `\s*` run (which may
cross newlines), then the `(.*)` capture, i.e. the rest of that line. -/
def captureLabelTail (cs : List Char) : List Char :=
  let cs := match cs with
    | ':' :: r => r
    | _ => cs
  let cs := cs.dropWhile pyWs
  cs.takeWhile (· ≠ '\n')

/-- Leftmost case-insensitive `LABEL:?\s*(.*)` search (methods 4 and 6). -/
def searchLabel (label : List Char) : List Char → Option (List Char)
| [] => if label = [] then some [] else none
| c :: cs =>
  if ciIsPrefixOf label (c :: cs) then some (captureLabelTail (dropN label.length (c :: cs)))
  else searchLabel label cs

/-- Stop alternatives of method 4's description pattern: a newline followed
by one of the labelled fields (matched case-insensitively, as the whole
pattern carries `re.IGNORECASE`). -/
def descStop (cs : List Char) : Bool :=
  ciIsPrefixOf "\nCategory:".toList cs ∨ ciIsPrefixOf "\nPriority:".toList cs ∨
  ciIsPrefixOf "\nAction:".toList cs ∨ ciIsPrefixOf "\nTiming:".toList cs

/-- The lazy `([\s\S]*?)` capture of method 4's description pattern: the
shortest prefix whose suffix starts with a stop label, or reaches the end
(`$` also matches just before a final newline). -/
def lazyCaptureToStop : List Char → List Char
| [] => []
| c :: cs =>
  if descStop (c :: cs) then []
  else match cs with
    | [] => if c = '\n' then [] else [c]
    | _ :: _ => c :: lazyCaptureToStop cs

/-- Method 4's description search: leftmost case-insensitive `Description`,
optional `:`, maximal `\s*`, then the lazy capture up to a stop label or the
end of input. -/
def searchDesc : List Char → Option (List Char)
| [] => none
| c :: cs =>
  if ciIsPrefixOf "description".toList (c :: cs) then
    let r := dropN 11 (c :: cs)
    let r := match r with
      | ':' :: r2 => r2
      | _ => r
    some (lazyCaptureToStop (r.dropWhile pyWs))
  else searchDesc cs

/- Fidelity note for `searchDesc`: when the maximal `\s*` run has swallowed
the newline of a stop label, Python backtracks nothing (the lazy group can
always run to `$`), so the label text itself is captured; `dropWhile pyWs`
before the lazy capture reproduces exactly that, as checked against CPython
on `"Description:\nCategory: x"`. -/

/-- Markdown horizontal-rule separator `\n---+\n`: a newline, three or more
dashes (maximal run), a newline.  Returns the consumed length. -/
def hrMatch (cs : List Char) : Option Nat :=
  match cs with
  | '\n' :: rest =>
    let dashes := rest.takeWhile (· = '-')
    if dashes.length ≥ 3 ∧ (rest.drop dashes.length).head? = some '\n' then
      some (dashes.length + 2)
    else none
  | _ => none

/-- Zero-width split point of method 5: `(?=\*\*\d+\. Title:)`. -/
def mdTitleAhead (cs : List Char) : Bool :=
  strStarts "**".toList cs ∧
    (let r := dropN 2 cs
     let (ds, rest) := takeDigits r
     ds ≠ [] ∧ strStarts ". Title:".toList rest)

/-- Method 5's `re.split(r'\n---+\n|(?=\*\*\d+\. Title:)', text)`: consumed
splits at horizontal rules, zero-width splits before bold numbered titles
(after which scanning resumes one character later, as CPython does for
zero-width matches). -/
def splitMarkdownGo (fuel : Nat) : List Char → List Char → List (List Char)
| [], cur => [cur.reverse]
| c :: rest, cur =>
  match fuel with
  | 0 => [cur.reverse ++ c :: rest]
  | fuel + 1 =>
    match hrMatch (c :: rest) with
    | some n => cur.reverse :: splitMarkdownGo fuel (dropN n (c :: rest)) []
    | none =>
      if mdTitleAhead (c :: rest) then cur.reverse :: splitMarkdownGo fuel rest [c]
      else splitMarkdownGo fuel rest (c :: cur)

/-- Method 5's split. -/
def splitMarkdown (cs : List Char) : List (List Char) := splitMarkdownGo cs.length cs []

/-- Leftmost occurrence of a literal (case-sensitive) label, returning the
text after it (method 5's bold-label searches). -/
def findAfterLit (label : List Char) : List Char → Option (List Char)
| [] => if label = [] then some [] else none
| c :: cs =>
  if strStarts label (c :: cs) then some (dropN label.length (c :: cs))
  else findAfterLit label cs

/-- Method 5's `\*\*\d+\. Title:\*\*\s*(.*)` search. -/
def searchMdTitle : List Char → Option (List Char)
| [] => none
| c :: cs =>
  if mdTitleAhead (c :: cs) then
    let r := dropN 2 (c :: cs)
    let (ds, rest) := takeDigits r
    let rest := dropN 8 rest
    match ds, rest with
    | _, '*' :: '*' :: r2 => some ((r2.dropWhile pyWs).takeWhile (· ≠ '\n'))
    | _, _ =>
      -- the lookahead matched but the closing ** is absent: no match at this
      -- position, keep scanning from the next character
      searchMdTitle cs
  else searchMdTitle cs

/-- Method 5's `\*\*LABEL:\*\*\s*(.*)` searches (category, priority, action,
timing): literal bold label then the rest of the line. -/
def searchMdField (label : String) (cs : List Char) : Option (List Char) :=
  (findAfterLit (("**" ++ label ++ ":**").toList) cs).map
    (fun r => (r.dropWhile pyWs).takeWhile (· ≠ '\n'))

/-- Position of the first occurrence of `sub`, or `none`. -/
def firstOccurrence (sub : List Char) (cs : List Char) : Option Nat := strFindL cs sub

/-- Method 5's `\*\*Description:\*\*\s*([\s\S]*?)\n\*\*Category:` search: the
mandatory stop `\n**Category:` must occur after the label; the greedy `\s*`
takes as much whitespace as the stop position allows (backtracking into the
run when the stop starts inside it), so the capture runs from
`min(maximal ws, stop)` to the stop. -/
def searchMdDesc (cs : List Char) : Option (List Char) :=
  match findAfterLit "**Description:**".toList cs with
  | none => none
  | some r =>
    match firstOccurrence "\n**Category:".toList r with
    | none => none
    | some p =>
      let w := (r.takeWhile pyWs).length
      some (pySlice r (min w p) p)

/-- One attempted match of method 6's title pattern at the current position,
after the `(?:^|\n)` anchor has been consumed: tries
`Title:?\s*` then `Recommendation\s*\d+:?\s*`, each followed by the lazy
line capture and the consumed `\n` (or end).  Returns the capture and the
rest of the input after the whole match. -/
def m6LabelAt (cs : List Char) : Option (List Char × List Char) :=
  let finish (r : List Char) : List Char × List Char :=
    let r := r.dropWhile pyWs
    let cap := r.takeWhile (· ≠ '\n')
    let rest := r.drop cap.length
    match rest with
    | '\n' :: r2 => (cap, r2)
    | _ => (cap, rest)
  if ciIsPrefixOf "title".toList cs then
    let r := dropN 5 cs
    let r := match r with
      | ':' :: r2 => r2
      | _ => r
    some (finish r)
  else if ciIsPrefixOf "recommendation".toList cs then
    let r := dropN 14 cs
    let r := r.dropWhile pyWs
    let (ds, r2) := takeDigits r
    if ds = [] then none
    else
      let r2 := match r2 with
        | ':' :: r3 => r3
        | _ => r2
      some (finish r2)
  else none

/-- Method 6's
`re.findall(r'(?:^|\n)(?:Title:?\s*|Recommendation\s*\d+:?\s*)(.*?)(?:\n|$)', text, re.IGNORECASE)`:
scanning anchors at position 0 or at a consumed newline; every match consumes
its trailing newline, so scanning resumes after it. -/
def m6FindGo (fuel : Nat) (cs : List Char) (atStart : Bool) : List (List Char) :=
  match fuel with
  | 0 => []
  | fuel + 1 =>
    match cs with
    | [] => []
    | c :: rest =>
      let tryHere : Option (List Char × List Char) :=
        if atStart then m6LabelAt (c :: rest)
        else if c = '\n' then m6LabelAt rest
        else none
      match tryHere with
      | some (cap, after) => cap :: m6FindGo fuel after false
      | none => m6FindGo fuel rest false

/-- Method 6's title findall. -/
def m6FindTitles (cs : List Char) : List (List Char) :=
  m6FindGo (cs.length + 1) cs true

/-! ### The effect environment and `_attach_examples_and_graph`

`_attach_examples_and_graph` reads the wall clock, the process-global random
generator, `uuid.uuid4`, `math.sin` and `datetime.fromisoformat`.  These are
modelled by `Env` below, indexed by the number of attach calls made so far
(`k`) — which is exactly how the Python globals advance, since every attach
call makes one `utcnow()`-based set of timestamps, one uuid, and fifty
`random.randint` draws (1 for the example-event hour, 1 for its value, 48
for the graph), in that order, before any line of it can raise. -/

/-- The nondeterministic / non-arithmetisable effects of one generation call. -/
structure Env where
  /-- `str(uuid.uuid4())` of the k-th attach call. -/
  uuid : Nat → String
  /-- `datetime.utcnow().isoformat()` of the k-th attach call. -/
  nowIso : Nat → String
  /-- `(utcnow + m minutes).isoformat()` of the k-th attach call. -/
  isoShift : Nat → Int → String
  /-- The successive `random.randint` results, indexed flatly: call k draws
  indices `50*k` to `50*k + 49`. -/
  randInt : Nat → Int
  /-- The value of `math.sin(i / 4.0)` (a fixed real function; kept abstract
  because its float evaluation is not arithmetisable here). -/
  sinAt : Nat → ℚ
  /-- Whether `datetime.fromisoformat` accepts the string. -/
  isoValid : String → Bool

/-- One supporting/example data point of the context sidecar. -/
structure DataPoint where
  timestamp : String
  value : Int
  eventType : PyJson
  note : String

/-- One synthetic graph point. -/
structure GraphPoint where
  timestamp : String
  value : ℚ

/-- The context sidecar `_attach_examples_and_graph` returns: the entries of
the record's own `context` dict (when present and a dict), plus the computed
timeframe and the six keys `update` writes.  Python stores all of these in
one dict; keeping the inherited entries separate from the fixed keys is an
equivalent representation because the fixed keys always overwrite. -/
structure Ctx where
  base : List (String × PyJson)
  timeframe : Option (String × String)
  generatedAt : String
  aiModel : String
  recommendationId : String
  exampleEvent : DataPoint
  graphData : List GraphPoint
  supportingDataPoints : List DataPoint

/-- Python `str()` of a parsed JSON value, as used for `str(rec['start'])`
and the f-string note.  Container rendering is abbreviated (the pipeline
only feeds these strings to `fromisoformat` — an `Env` oracle — and into
opaque sidecar text, so nothing below depends on the exact rendering). -/
def pyStr : PyJson → String
| .str s => s
| .bool true => "True"
| .bool false => "False"
| .null => "None"
| .num (.I z) => toString z
| .num (.F m e) => toString m ++ "e" ++ toString e
| .num .nan => "nan"
| .num (.inf false) => "inf"
| .num (.inf true) => "-inf"
| .arr _ => "<list>"
| .obj _ => "<dict>"

/-- The anchored `re.match(r'last (\d+) hours?', tf)` used for timeframes. -/
def lastHours (cs : List Char) : Option Nat :=
  if strStarts "last ".toList cs then
    let r := dropN 5 cs
    let (ds, r2) := takeDigits r
    if !ds.isEmpty && strStarts " hour".toList r2 then some (digitsVal ds) else none
  else none

/-- The timeframe extraction of `_attach_examples_and_graph` (lines
1039–1068): the `start`/`end` pair, the `timeframe` dict or string, or a
`last N hours` timing, in that order; every `fromisoformat` failure is
swallowed by the source's `try/except: pass`. -/
def tfOf (env : Env) (k : Nat) (rec : List (String × PyJson)) : Option (String × String) :=
  if pyHasKey rec "start" ∧ pyHasKey rec "end" then
    let ss := pyStr ((pyGet rec "start").getD .null)
    let es := pyStr ((pyGet rec "end").getD .null)
    if env.isoValid ss ∧ env.isoValid es then some (ss, es) else none
  else if pyHasKey rec "timeframe" then
    match pyGet rec "timeframe" with
    | some (.obj tf) =>
      if pyHasKey tf "start" ∧ pyHasKey tf "end" then
        some (pyStr ((pyGet tf "start").getD .null), pyStr ((pyGet tf "end").getD .null))
      else none
    | some (.str tf) =>
      match lastHours (pyLower tf).toList with
      | some h => some (env.isoShift k (-(60 * (h : Int))), env.nowIso k)
      | none =>
        match splitOnSub tf.toList ['/'] with
        | [p1, p2] =>
          if env.isoValid (String.mk p1) ∧ env.isoValid (String.mk p2) then
            some (String.mk p1, String.mk p2)
          else none
        | _ => none
    | _ => none
  else
    match pyGet rec "timing" with
    | some (.str tm) =>
      match lastHours (pyLower tm).toList with
      | some h => some (env.isoShift k (-(60 * (h : Int))), env.nowIso k)
      | none => none
    | _ => none

/-- Categories that force a default three-hour timeframe. -/
def tfCategories : List String :=
  ["glucose", "insulin", "nutrition", "exercise", "monitoring"]

/-- Whether the record's raw `category` value supports `.lower()` without
raising (line 1069 fires only when the timeframe is still unset). -/
def catLowerOkOf (rec : List (String × PyJson)) : Bool :=
  match pyGet rec "category" with
  | none => true
  | some (.str _) => true
  | some _ => false

/-- The inherited `context` entries of the record: `none` models the raise
on a present non-dict `context` value (lines 1071/1074). -/
def ctxBaseOf (rec : List (String × PyJson)) : Option (List (String × PyJson)) :=
  if pyHasKey rec "context" then
    match pyGet rec "context" with
    | some (.obj kvs) => some kvs
    | _ => none
  else some []

/-- Embedding of `_attach_examples_and_graph`.  `none` models the call
raising: it does so exactly when the record's `context` value exists and is
not a dict (the `context['timeframe']`/`context.update` lines), or when the
timeframe is still unset and the record carries a `category` without a
`.lower()` method (line 1069).  The uuid/clock/random draws of the call have
already happened when it raises, which is why `k` advances regardless. -/
def attach_examples_and_graph (env : Env) (k : Nat) (rec : List (String × PyJson)) :
    Option Ctx :=
  let catRaw := (pyGet rec "category").getD (.str "general")
  let tf := tfOf env k rec
  if tf = none ∧ catLowerOkOf rec = false then none
  else
    match ctxBaseOf rec with
    | none => none
    | some bs =>
      let catLower : String := match pyGet rec "category" with
        | some (.str c) => pyLower c
        | _ => ""
      let tf2 := if tf = none ∧ catLower ∈ tfCategories then
          some (env.isoShift k (-180), env.nowIso k)
        else tf
      some
        { base := bs
          timeframe := tf2
          generatedAt := env.nowIso k
          aiModel := "openai/gpt-oss-20b"
          recommendationId := env.uuid k
          exampleEvent :=
            { timestamp := env.isoShift k (-(60 * env.randInt (50 * k)))
              value := env.randInt (50 * k + 1)
              eventType := catRaw
              note := "Example event for " ++ pyStr catRaw }
          graphData := (List.range 48).map (fun i =>
            { timestamp := env.isoShift k ((-720 : Int) + 15 * Int.ofNat i)
              value := (100 : ℚ) + 40 * env.sinAt i + (env.randInt (50 * k + 2 + i) : ℚ) })
          supportingDataPoints :=
            [ { timestamp := env.isoShift k (-180), value := 250, eventType := catRaw
                note := "Example spike before meal" },
              { timestamp := env.isoShift k (-150), value := 180, eventType := catRaw
                note := "Glucose after insulin" } ] }

/-! ### Records and the float coercion -/

/-- One output record of `_process_recommendations`: every construction site
in the source writes exactly these eight keys.  In the JSON strategies the
field values are the raw extracted values (any JSON type); the text
strategies store strings. -/
structure Rec where
  title : PyJson
  description : PyJson
  category : PyJson
  priority : PyJson
  confidence : PyNum
  action : PyJson
  timing : PyJson
  context : Ctx

/-- A record without its context sidecar (for determinism statements). -/
structure RecCore where
  title : PyJson
  description : PyJson
  category : PyJson
  priority : PyJson
  confidence : PyNum
  action : PyJson
  timing : PyJson

/-- Forget the context sidecar. -/
def dropCtx (r : Rec) : RecCore :=
  { title := r.title, description := r.description, category := r.category
    priority := r.priority, confidence := r.confidence, action := r.action
    timing := r.timing }

/-- Python `float(str)`: strip, optional sign, `inf`/`infinity`/`nan`
(case-insensitive) or a decimal with optional fraction and exponent; the
whole string must be consumed.  (Digit-group underscores are not modelled;
no claim exercises them.) -/
def pyFloatStr (s : String) : Option PyNum :=
  let cs := pyStripL s.toList
  let (neg, cs) := match cs with
    | '-' :: r => (true, r)
    | '+' :: r => (false, r)
    | _ => (false, cs)
  let low := String.mk (pyLowerL cs)
  if low = "inf" ∨ low = "infinity" then some (.inf neg)
  else if low = "nan" then some .nan
  else
    let (ids, r1) := takeDigits cs
    let (fds, r2) := match r1 with
      | '.' :: r => takeDigits r
      | _ => ([], r1)
    let r2 := match r1 with
      | '.' :: _ => r2
      | _ => r1
    if ids.isEmpty ∧ fds.isEmpty then none
    else
      let mant : Int := Int.ofNat (digitsVal (ids ++ fds))
      let mant := if neg then -mant else mant
      let e0 : Int := -(Int.ofNat fds.length)
      match r2 with
      | [] => some (.F mant e0)
      | e :: r3 =>
        if e = 'e' ∨ e = 'E' then
          let (eneg, r4) := match r3 with
            | '-' :: r => (true, r)
            | '+' :: r => (false, r)
            | _ => (false, r3)
          let (eds, r5) := takeDigits r4
          if eds.isEmpty ∨ ¬ r5.isEmpty then none
          else
            let ev : Int := Int.ofNat (digitsVal eds)
            some (.F mant (e0 + (if eneg then -ev else ev)))
        else none

/-- Python `float(x)` on a parsed JSON value: numbers and bools coerce,
strings parse, everything else raises (`none`). -/
def pyFloatJ : PyJson → Option PyNum
| .num (.I z) => some (.F z 0)
| .num n => some n
| .bool b => some (.F (if b then 1 else 0) 0)
| .str s => pyFloatStr s
| _ => none

/-- Leading text of the `_fallback_recommendations` literal. -/
def fbHead : String := "\n        [\n          "

/-- Separator between the fallback objects. -/
def fbSep : String := ",\n          "

/-- Trailing text of the `_fallback_recommendations` literal. -/
def fbTail : String := "\n        ]\n        "

/-- Object 1 of the fallback text. -/
def fbObj1 : String := "\x7b\n            \"title\": \"Track glucose patterns after meals\",\n            \"description\": \"Review 3 hours after meals for spikes above 180 mg/dL and note foods causing larger rises.\",\n            \"category\": \"monitoring\",\n            \"priority\": \"medium\",\n            \"action\": \"Check CGM 2 hours post-meal and log spikes\",\n            \"timing\": null,\n            \"confidence\": 0.7\n          \x7d"

/-- Object 2 of the fallback text. -/
def fbObj2 : String := "\x7b\n            \"title\": \"Consider a short pre-bolus for high-carb meals\",\n            \"description\": \"Taking insulin 15–20 minutes before higher-carb meals can reduce post-meal spikes.\",\n            \"category\": \"insulin\",\n            \"priority\": \"medium\",\n            \"action\": \"Pre-bolus 15 minutes before >40g carb meals if safe\",\n            \"timing\": null,\n            \"confidence\": 0.7\n          \x7d"

/-- Object 3 of the fallback text. -/
def fbObj3 : String := "\x7b\n            \"title\": \"Balance carbs with protein/fiber\",\n            \"description\": \"Add protein or fiber to meals to slow glucose rise and reduce spikes.\",\n            \"category\": \"nutrition\",\n            \"priority\": \"low\",\n            \"action\": \"Add protein/fiber to next meal\",\n            \"timing\": null,\n            \"confidence\": 0.7\n          \x7d"

/-- Object 4 of the fallback text. -/
def fbObj4 : String := "\x7b\n            \"title\": \"Light post-meal activity\",\n            \"description\": \"A 10–15 minute walk within 30 minutes after eating can lower post-meal glucose peaks.\",\n            \"category\": \"activity\",\n            \"priority\": \"medium\",\n            \"action\": \"Walk 10–15 minutes after your next meal\",\n            \"timing\": null,\n            \"confidence\": 0.7\n          \x7d"

/-- Object 5 of the fallback text. -/
def fbObj5 : String := "\x7b\n            \"title\": \"Review correction factor with your clinician\",\n            \"description\": \"If corrections underperform or overshoot, re-evaluate insulin sensitivity settings.\",\n            \"category\": \"insulin\",\n            \"priority\": \"low\",\n            \"action\": \"Schedule a settings review\",\n            \"timing\": null,\n            \"confidence\": 0.6\n          \x7d"

/-- The verbatim text returned by `_fallback_recommendations`: the Python
triple-quoted literal (including its leading newline and indentation),
assembled from its five objects so that facts about it can be proved
piecewise. -/
def fallback_recommendations : String :=
  fbHead ++ fbObj1 ++ fbSep ++ fbObj2 ++ fbSep ++ fbObj3 ++ fbSep ++ fbObj4 ++ fbSep ++ fbObj5 ++ fbTail

/-! ### The six extraction methods of `_process_recommendations`

The accumulator `recommendations` is one Python list shared by all methods:
records appended by an earlier method that aborted mid-loop (an exception
escaping its per-item scope) are still present when a later method tests
`if recommendations:`.  `MRes.done` is an executed `return`; `MRes.cont`
carries the shared accumulator and the attach-call counter onward. -/

/-- Result of running one extraction method. -/
inductive MRes where
| done : List Rec → MRes
| cont : List Rec → Nat → MRes

/-- The record construction of the JSON strategies (methods 1–3, source
lines 749–760 and the twins at 776 and 806): schema fields from the raw
item with defaults, `float` coercion of `confidence`, context attachment.
Returns the record (or `none` where Python raises) and the updated
attach-call counter. -/
def buildRec (env : Env) (k : Nat) (kvs : List (String × PyJson)) : Option Rec × Nat :=
  match pyFloatJ ((pyGet kvs "confidence").getD (.num (.F 8 (-1)))) with
  | none => (none, k)
  | some conf =>
    match attach_examples_and_graph env k kvs with
    | none => (none, k + 1)
    | some ctx =>
      (some
        { title := (pyGet kvs "title").getD (.str "")
          description := (pyGet kvs "description").getD (.str "")
          category := (pyGet kvs "category").getD (.str "general")
          priority := (pyGet kvs "priority").getD (.str "medium")
          confidence := conf
          action := (pyGet kvs "action").getD (.str "")
          timing := (pyGet kvs "timing").getD (.str "")
          context := ctx }, k + 1)

/-- Method 1's item loop: on the first item whose construction raises, the
whole method aborts (its records so far stay in the shared accumulator). -/
def m1go (env : Env) : List PyJson → List Rec → Nat → MRes
| [], acc, _ => .done (acc.take 5)
| .obj kvs :: rest, acc, k =>
  (match buildRec env k kvs with
   | (some r, k2) => m1go env rest (acc ++ [r]) k2
   | (none, k2) => .cont acc k2)
| _ :: _, acc, k => .cont acc k

/-- Method 1: repair, parse, accept an array of dicts. -/
def method1 (env : Env) (t : String) (acc : List Rec) (k : Nat) : MRes :=
  match repair_json t with
  | none => .cont acc k
  | some s =>
    match pyJsonLoads s with
    | some (.arr items) =>
      if items.all PyJson.isObjB then m1go env items acc k else .cont acc k
    | _ => .cont acc k

/-- Method 2's per-object loop: each candidate object is repaired and parsed
in isolation; any failure skips just that object. -/
def m2go (env : Env) : List String → List Rec → Nat → List Rec × Nat
| [], acc, k => (acc, k)
| o :: rest, acc, k =>
  let ro := (repair_json o).getD o
  match pyJsonLoads ro with
  | some (.obj kvs) =>
    (match buildRec env k kvs with
     | (some r, k2) => m2go env rest (acc ++ [r]) k2
     | (none, k2) => m2go env rest acc k2)
  | _ => m2go env rest acc k

/-- Method 2: extract the array, repair it, split into objects, parse each. -/
def method2 (env : Env) (t : String) (acc : List Rec) (k : Nat) : MRes :=
  match extract_json_array t with
  | none => .cont acc k
  | some astr =>
    let ra := (repair_json astr).getD astr
    let objs := split_json_array_objects ra
    let (acc2, k2) := m2go env objs acc k
    if acc2.isEmpty then .cont acc2 k2 else .done (acc2.take 5)

/-- Method 3's per-span loop: regex-found `{...}` spans, accepted only with a
`title` or `description` key.  (A non-dict parse always ends in the same
skip, whether Python's membership test answers false or raises.) -/
def m3go (env : Env) : List String → List Rec → Nat → List Rec × Nat
| [], acc, k => (acc, k)
| o :: rest, acc, k =>
  let ro := (repair_json o).getD o
  match pyJsonLoads ro with
  | some (.obj kvs) =>
    if pyHasKey kvs "title" ∨ pyHasKey kvs "description" then
      (match buildRec env k kvs with
       | (some r, k2) => m3go env rest (acc ++ [r]) k2
       | (none, k2) => m3go env rest acc k2)
    else m3go env rest acc k
  | _ => m3go env rest acc k

/-- Method 3: regex object scan over the raw text. -/
def method3 (env : Env) (t : String) (acc : List Rec) (k : Nat) : MRes :=
  let spans := (findBraceSpans t.toList).map String.mk
  let (acc2, k2) := m3go env spans acc k
  if acc2.isEmpty then .cont acc2 k2 else .done (acc2.take 5)

/-- The synthesized field map the text strategies hand to the context
attacher. -/
def synthDict (title desc cat : String) : List (String × PyJson) :=
  [("title", .str title), ("description", .str desc), ("category", .str cat)]

/-- Method 4's extracted `Title:` field of one numbered chunk. -/
def m4title (item : List Char) : String :=
  String.mk (pyStripL (((searchLabel "title".toList item)).getD []))

/-- Method 4's extracted description of one numbered chunk. -/
def m4desc (item : List Char) : String :=
  String.mk (pyStripL ((searchDesc item).getD []))

/-- Method 4's extracted category (lowercased, default `general`). -/
def m4cat (item : List Char) : String :=
  match searchLabel "category".toList item with
  | some c => pyLower (String.mk (pyStripL c))
  | none => "general"

/-- Method 4's extracted priority (lowercased, default `medium`). -/
def m4prio (item : List Char) : String :=
  match searchLabel "priority".toList item with
  | some c => pyLower (String.mk (pyStripL c))
  | none => "medium"

/-- Method 4's extracted action field. -/
def m4act (item : List Char) : String :=
  String.mk (pyStripL ((searchLabel "action".toList item).getD []))

/-- Method 4's extracted timing field. -/
def m4tim (item : List Char) : String :=
  String.mk (pyStripL ((searchLabel "timing".toList item).getD []))

/-- Method 4's per-chunk record: labelled-line extraction; the context is
attached before the title/description acceptance test, as in the source
(where the dict literal evaluates it eagerly). -/
def m4item (env : Env) (k : Nat) (chunk : List Char) : Option Rec × Nat :=
  let item := pyStripL chunk
  if item.isEmpty then (none, k)
  else
    match attach_examples_and_graph env k
        (synthDict (m4title item) (m4desc item) (m4cat item)) with
    | none => (none, k + 1)
    | some ctx =>
      if m4title item ≠ "" ∨ m4desc item ≠ "" then
        (some
          { title := .str (m4title item), description := .str (m4desc item)
            category := .str (m4cat item), priority := .str (m4prio item)
            confidence := .F 8 (-1), action := .str (m4act item)
            timing := .str (m4tim item), context := ctx }, k + 1)
      else (none, k + 1)

/-- Fold of method 4 (and 5) items. -/
def itemsGo (f : Nat → List Char → Option Rec × Nat) :
    List (List Char) → List Rec → Nat → List Rec × Nat
| [], acc, k => (acc, k)
| c :: rest, acc, k =>
  match f k c with
  | (some r, k2) => itemsGo f rest (acc ++ [r]) k2
  | (none, k2) => itemsGo f rest acc k2

/-- Method 4: numbered-list text parse; requires at least two numbered
chunks. -/
def method4 (env : Env) (t : String) (acc : List Rec) (k : Nat) : MRes :=
  let chunks := splitNumbered (pyStripL t.toList)
  if chunks.length ≤ 1 then .cont acc k
  else
    let (acc2, k2) := itemsGo (m4item env) chunks acc k
    if acc2.isEmpty then .cont acc2 k2 else .done (acc2.take 5)

/-- Method 5's extracted markdown title. -/
def m5title (itemRaw : List Char) : String :=
  String.mk (pyStripL ((searchMdTitle itemRaw).getD []))

/-- Method 5's extracted markdown description. -/
def m5desc (itemRaw : List Char) : String :=
  String.mk (pyStripL ((searchMdDesc itemRaw).getD []))

/-- Method 5's extracted category (lowercased, default `general`). -/
def m5cat (itemRaw : List Char) : String :=
  match searchMdField "Category" itemRaw with
  | some c => pyLower (String.mk (pyStripL c))
  | none => "general"

/-- Method 5's extracted priority (lowercased, default `medium`). -/
def m5prio (itemRaw : List Char) : String :=
  match searchMdField "Priority" itemRaw with
  | some c => pyLower (String.mk (pyStripL c))
  | none => "medium"

/-- Method 5's extracted action field. -/
def m5act (itemRaw : List Char) : String :=
  String.mk (pyStripL ((searchMdField "Action" itemRaw).getD []))

/-- Method 5's extracted timing field. -/
def m5tim (itemRaw : List Char) : String :=
  String.mk (pyStripL ((searchMdField "Timing" itemRaw).getD []))

/-- Method 5's per-item record (markdown bold labels, case-sensitive). -/
def m5item (env : Env) (k : Nat) (itemRaw : List Char) : Option Rec × Nat :=
  if (pyStripL itemRaw).isEmpty then (none, k)
  else
    match attach_examples_and_graph env k
        (synthDict (m5title itemRaw) (m5desc itemRaw) (m5cat itemRaw)) with
    | none => (none, k + 1)
    | some ctx =>
      if m5title itemRaw ≠ "" ∨ m5desc itemRaw ≠ "" then
        (some
          { title := .str (m5title itemRaw), description := .str (m5desc itemRaw)
            category := .str (m5cat itemRaw), priority := .str (m5prio itemRaw)
            confidence := .F 8 (-1), action := .str (m5act itemRaw)
            timing := .str (m5tim itemRaw), context := ctx }, k + 1)
      else (none, k + 1)

/-- Method 5: markdown-style text parse.  Its final `if recommendations:`
test is unconditional, so it also returns records left by earlier methods. -/
def method5 (env : Env) (t : String) (acc : List Rec) (k : Nat) : MRes :=
  let items := splitMarkdown t.toList
  let (acc2, k2) := itemsGo (m5item env) items acc k
  if acc2.isEmpty then .cont acc2 k2 else .done (acc2.take 5)

/-- Method 6's description extraction from the 500-character window after
the matched title. -/
def m6descOf (textL : List Char) (pos : Nat) : List Char :=
  let chunk := pySlice textL pos (pos + 500)
  let desc0 := match searchLabel "description".toList chunk with
    | some c => pyStripL c
    | none => []
  if desc0.isEmpty ∧ chunk.length > 50 then
    match splitOnSub chunk ['\n'] with
    | _ :: l2 :: _ => pyStripL l2
    | _ => desc0
  else desc0

/-- Method 6's per-title record.  The source has no per-item `try`, but its
only fallible step is the context attachment on an all-string field map,
which never raises; the `none` arm is the faithful skip for that impossible
case. -/
def m6item (env : Env) (textL : List Char) (k : Nat) (capture : List Char) :
    Option Rec × Nat :=
  let tt := pyStripL capture
  if tt.length < 5 ∨ tt.length > 100 then (none, k)
  else
    match strFindL textL tt with
    | none => (none, k)
    | some pos =>
      let desc := m6descOf textL pos
      match attach_examples_and_graph env k
          (synthDict (String.mk tt) (String.mk desc) "general") with
      | none => (none, k + 1)
      | some ctx =>
        (some
          { title := .str (String.mk tt), description := .str (String.mk desc)
            category := .str "general", priority := .str "medium"
            confidence := .F 7 (-1), action := .str "", timing := .str ""
            context := ctx }, k + 1)

/-- Method 6: last-resort title scan, accepted only for 1 to 10 matches. -/
def method6 (env : Env) (t : String) (acc : List Rec) (k : Nat) : MRes :=
  let titles := m6FindTitles t.toList
  if titles.isEmpty ∨ titles.length > 10 then .cont acc k
  else
    let (acc2, k2) := itemsGo (m6item env t.toList) titles acc k
    if acc2.isEmpty then .cont acc2 k2 else .done (acc2.take 5)

/-- The non-empty paragraphs of the unstructured-text last resort. -/
def utParas (t : String) : List (List Char) :=
  (splitOnSub t.toList "\n\n".toList).filter (fun p => ¬ (pyStripL p).isEmpty)

/-- The joined tail paragraphs (at most two) of the unstructured text. -/
def utDescParas (restP : List (List Char)) : String :=
  if restP.isEmpty then "" else
    pyJoin " " ((restP.take 2).map (fun p => String.mk (pyStripL p)))

/-- The synthesized title of the unstructured text: first sentence of the
first paragraph, word-truncated past 80 characters. -/
def utTitle (firstPara : List Char) : String :=
  let title0 := if firstPara.contains '.' then firstPara.takeWhile (· ≠ '.')
    else firstPara
  if title0.length > 80 then
    pyJoin " " ((pySplitWs title0).take 10 |>.map String.mk) ++ "..."
  else String.mk title0

/-- The synthesized description, with its fixed default. -/
def utDesc (descParas : String) : String :=
  if descParas = "" then
    "Review this AI analysis of your glucose patterns." else descParas

/-- The raw-text excerpt stored in the context (capped at 2000 characters). -/
def utRaw (t : String) : String :=
  if t.length > 2000 then String.mk (t.toList.take 2000) else t

/-- The unstructured-text last resort (source lines 969–1001): for texts
over 100 characters, synthesize one record from the first paragraphs.  Its
`return recommendations` has no `[:5]` slice; the accumulator is provably
empty here (method 5 would have returned it), but the source shape is kept. -/
def unstructuredTail (env : Env) (t : String) (acc : List Rec) (k : Nat) :
    Option (List Rec) × Nat :=
  if t.length > 100 then
    match utParas t with
    | [] => (none, k)
    | p0 :: restP =>
      let title := utTitle (pyStripL p0)
      let descParas := utDescParas restP
      match attach_examples_and_graph env k
          (synthDict title descParas "general" ++ [("ai_raw_text", .str (utRaw t))]) with
      | none => (none, k + 1)
      | some ctx =>
        (some (acc ++
          [{ title := .str title, description := .str (utDesc descParas)
             category := .str "general", priority := .str "medium"
             confidence := .F 6 (-1), action := .str "Review the insights provided"
             timing := .str "", context := ctx }]), k + 1)
  else (none, k)

/-- One pass of `_process_recommendations` up to (but not including) the
final hard-coded-fallback recursion: `some` is an executed `return`; `none`
means control reached the last line. -/
def processAux (env : Env) (t : String) (k : Nat) : Option (List Rec) × Nat :=
  match method1 env t [] k with
  | .done l => (some l, k)
  | .cont a1 k1 =>
    match method2 env t a1 k1 with
    | .done l => (some l, k1)
    | .cont a2 k2 =>
      match method3 env t a2 k2 with
      | .done l => (some l, k2)
      | .cont a3 k3 =>
        match method4 env t a3 k3 with
        | .done l => (some l, k3)
        | .cont a4 k4 =>
          match method5 env t a4 k4 with
          | .done l => (some l, k4)
          | .cont a5 k5 =>
            match method6 env t a5 k5 with
            | .done l => (some l, k5)
            | .cont a6 k6 => unstructuredTail env t a6 k6

/-- Embedding of `_process_recommendations` (the `user_id` argument only
feeds log lines and is omitted).  The source's last line recurses on the
fixed fallback text; that text always succeeds at method 1
(`fallback_parses` below), so a single unrolling is the exact behaviour;
the final `[]` arm is unreachable. -/
def process_recommendations (env : Env) (t : String) : List Rec :=
  match processAux env t 0 with
  | (some l, _) => l
  | (none, kf) =>
    match processAux env fallback_recommendations kf with
    | (some l, _) => l
    | (none, _) => []

/-- Embedding of `_categorize_recommendation`: keyword reclassification
(substring containment on the lowercased text). -/
def categorize_recommendation (text : String) : String :=
  let lw := (pyLower text).toList
  let has (w : String) : Bool := (strFindL lw w.toList).isSome
  if has "insulin" ∨ has "dose" ∨ has "bolus" ∨ has "correction" then "insulin"
  else if has "meal" ∨ has "food" ∨ has "carb" ∨ has "eat" then "nutrition"
  else if has "exercise" ∨ has "activity" ∨ has "walk" then "activity"
  else if has "timing" ∨ has "time" ∨ has "schedule" then "timing"
  else if has "monitor" ∨ has "check" ∨ has "test" then "monitoring"
  else "general"

/-- Embedding of `_prioritize_recommendation`. -/
def prioritize_recommendation (text : String) : String :=
  let lw := (pyLower text).toList
  let has (w : String) : Bool := (strFindL lw w.toList).isSome
  if has "urgent" ∨ has "immediate" ∨ has "dangerous" ∨ has "severe" then "high"
  else if has "important" ∨ has "significant" ∨ has "consider" then "medium"
  else "low"

/-! ### Statement material: predicates, projections and concrete inputs -/

/-- Records without their context, for determinism statements. -/
def mdc (l : List Rec) : List RecCore := l.map dropCtx

/-- The rational value of a finite parsed number. -/
def pyNumVal : PyNum → Option ℚ
| .I z => some (z : ℚ)
| .F m e => some ((m : ℚ) * (10 : ℚ) ^ (e : ℤ))
| _ => none

/-- The one way `_process_recommendations` returns an empty list: the
repaired input parses as the empty JSON array (method 1 then returns
`recommendations[:5]` over zero items). -/
def EmptyArrayCase (t : String) : Prop :=
  match repair_json t with
  | some s => pyJsonLoads s = some (.arr [])
  | none => False

/-- The enumerated categories of the output schema. -/
def categoryEnum : List String :=
  ["insulin", "nutrition", "activity", "timing", "monitoring", "sleep", "stress", "general"]

/-- The enumerated priorities of the output schema. -/
def priorityEnum : List String := ["high", "medium", "low"]

/-- Structurally repaired text, the shape `_repair_json` outputs for array
inputs: no fence token, no surrounding whitespace, starts with `[`, ends
with `]`, the trailing-comma substitution leaves it unchanged, and the
bracket scan ends balanced outside a string. -/
def RepairReady (s : String) : Prop :=
  strFindL s.toList "```".toList = none ∧
  pyStripL s.toList = s.toList ∧
  s.toList.head? = some '[' ∧
  s.toList.getLast? = some ']' ∧
  removeTrailingCommas s.toList = s.toList ∧
  scanJson s.toList ⟨false, false, []⟩ = ⟨false, false, []⟩

/-- A character the splitter scan treats as inert outside strings: neither a
quote, a brace, nor a backslash. -/
def plainChar (c : Char) : Bool :=
  ¬ (c = '"' ∨ c = '\x7b' ∨ c = '\x7d' ∨ c = '\\')

/-- A continuation that does not start with JSON whitespace (or is empty),
so a preceding whitespace skip cannot run into it. -/
def NonWsHead (x : List Char) : Prop :=
  x = [] ∨ ∃ c t, x = c :: t ∧ jsonWs c = false

/-- A character that could extend a JSON number token to its left: after a
complete number match, a continuation starting with one of these could be
absorbed into the token, so replay of a parse is only stated for
continuations that start otherwise. -/
def numExt (c : Char) : Bool := isDig c || c == '.' || c == 'e' || c == 'E'

/-- Continuations that cannot extend the last token of a consumed span. -/
def HeadSafe (x : List Char) : Prop :=
  x = [] ∨ ∃ c t, x = c :: t ∧ numExt c = false

/-- Transport of the splitter scan across a consumed span while inside a
captured object (depth at least 1): the state returns to where it started
and the span is appended to the capture. -/
def CapTrans (p : List Char) : Prop :=
  ∀ x d cur acc, 1 ≤ d →
    splitGo (p ++ x) ⟨false, false, d, some cur⟩ acc =
    splitGo x ⟨false, false, d, some (cur ++ p)⟩ acc

/-- Transport of the splitter scan across a top-level object span: the whole
span is emitted as one capture. -/
def ObjTrans (p : List Char) : Prop :=
  ∀ x acc,
    splitGo (p ++ x) ⟨false, false, 0, none⟩ acc =
    splitGo x ⟨false, false, 0, none⟩ (acc ++ [p])

/-- Transport of the splitter scan across an object-members span (which ends
with the closing brace): from depth 1 it emits the capture, from deeper it
just returns one level up. -/
def MembersTrans (p : List Char) : Prop :=
  ∀ x d cur acc, 1 ≤ d →
    splitGo (p ++ x) ⟨false, false, d, some cur⟩ acc =
    (if d = 1 then splitGo x ⟨false, false, 0, none⟩ (acc ++ [cur ++ p])
     else splitGo x ⟨false, false, d - 1, some (cur ++ p)⟩ acc)

/-- Replay of a value parse: the consumed span parses to the same value in
front of any continuation that cannot extend its last token, at any
sufficient fuel. -/
def Replay (p : List Char) (v : PyJson) : Prop :=
  ∀ f x, p.length + 1 ≤ f → HeadSafe x → parseVal f (p ++ x) = some (v, x)

/-- Replay of an array-elements parse (self-delimited by its final `]`). -/
def ElemsReplay (p : List Char) (vs : List PyJson) : Prop :=
  ∀ f x, p.length + 1 ≤ f → parseElems f (p ++ x) = some (vs, x)

/-- Replay of an object-members parse (self-delimited by its final `}`). -/
def MembersReplay (p : List Char) (kvs : List (String × PyJson)) : Prop :=
  ∀ f x, p.length + 1 ≤ f → parseMembers f (p ++ x) = some (kvs, x)

/-- What the splitter does on an elements span whose values are all objects:
it emits exactly one part per element, each an object span replaying to its
element. -/
def ElemsSplit (p : List Char) (vs : List PyJson) : Prop :=
  (∀ v ∈ vs, v.isObjB = true) →
  ∃ parts : List (List Char),
    parts.length = vs.length ∧
    List.Forall₂ (fun q v => q.head? = some '\x7b' ∧ Replay q v) parts vs ∧
    ∀ x acc, splitGo (p ++ x) ⟨false, false, 0, none⟩ acc =
      splitGo x ⟨false, false, 0, none⟩ (acc ++ parts)

/-- The conclusions of the scan/parse correspondence for one value. -/
def ValP (v : PyJson) (p : List Char) : Prop :=
  (∃ c t, p = c :: t ∧ jsonWs c = false ∧ ¬ c = ']') ∧ CapTrans p ∧ Replay p v ∧
  (v.isObjB = true → p.head? = some '\x7b' ∧ ObjTrans p) ∧
  (∀ vs, v = PyJson.arr vs →
    ∃ p2, p = '[' :: p2 ∧ p2.getLast? = some ']' ∧ ElemsSplit p2 vs)

/-- The conclusions for an elements span. -/
def ElemsP (vs : List PyJson) (p : List Char) : Prop :=
  (∃ c t, p = c :: t ∧ jsonWs c = false ∧ ¬ c = ']') ∧ p.getLast? = some ']' ∧
  CapTrans p ∧ ElemsReplay p vs ∧ ElemsSplit p vs

/-- The conclusions for a members span. -/
def MembersP (kvs : List (String × PyJson)) (p : List Char) : Prop :=
  (∃ t, p = '"' :: t) ∧ MembersTrans p ∧ MembersReplay p kvs

/-- The number of top-level elements of an array text that are objects. -/
def countTopObjs (v : PyJson) : Nat :=
  match v with
  | .arr vs => (vs.filter PyJson.isObjB).length
  | _ => 0

/-- Joining the splitter's output back into an array text. -/
def rebuildArr (parts : List String) : String :=
  "[" ++ String.intercalate "," parts ++ "]"

/-- Joining char-list parts with commas, as `','.join` does. -/
def joinCommaL : List (List Char) → List Char
| [] => []
| [p] => p
| p :: ps => p ++ (',' :: joinCommaL ps)

/-- The result of `_strip_code_fences` on the fallback text. -/
def fbStripped : String :=
  "[\n          " ++ fbObj1 ++ fbSep ++ fbObj2 ++ fbSep ++ fbObj3 ++ fbSep ++ fbObj4 ++ fbSep ++ fbObj5 ++ "\n        ]"

/-- The stripped fallback text without its final `]`. -/
def fbInit : String :=
  "[\n          " ++ fbObj1 ++ fbSep ++ fbObj2 ++ fbSep ++ fbObj3 ++ fbSep ++ fbObj4 ++ fbSep ++ fbObj5 ++ "\n        "

/-- A character other than a code-fence backtick. -/
def noTick (c : Char) : Bool := c != '\x60'

/-- The parsed members of fallback object 1. -/
def fbKVs1 : List (String × PyJson) :=
  [("title", PyJson.str "Track glucose patterns after meals"),
   ("description", PyJson.str "Review 3 hours after meals for spikes above 180 mg/dL and note foods causing larger rises."),
   ("category", PyJson.str "monitoring"),
   ("priority", PyJson.str "medium"),
   ("action", PyJson.str "Check CGM 2 hours post-meal and log spikes"),
   ("timing", PyJson.null),
   ("confidence", PyJson.num (PyNum.F 7 (-1)))]

/-- The parsed members of fallback object 2. -/
def fbKVs2 : List (String × PyJson) :=
  [("title", PyJson.str "Consider a short pre-bolus for high-carb meals"),
   ("description", PyJson.str "Taking insulin 15–20 minutes before higher-carb meals can reduce post-meal spikes."),
   ("category", PyJson.str "insulin"),
   ("priority", PyJson.str "medium"),
   ("action", PyJson.str "Pre-bolus 15 minutes before >40g carb meals if safe"),
   ("timing", PyJson.null),
   ("confidence", PyJson.num (PyNum.F 7 (-1)))]

/-- The parsed members of fallback object 3. -/
def fbKVs3 : List (String × PyJson) :=
  [("title", PyJson.str "Balance carbs with protein/fiber"),
   ("description", PyJson.str "Add protein or fiber to meals to slow glucose rise and reduce spikes."),
   ("category", PyJson.str "nutrition"),
   ("priority", PyJson.str "low"),
   ("action", PyJson.str "Add protein/fiber to next meal"),
   ("timing", PyJson.null),
   ("confidence", PyJson.num (PyNum.F 7 (-1)))]

/-- The parsed members of fallback object 4. -/
def fbKVs4 : List (String × PyJson) :=
  [("title", PyJson.str "Light post-meal activity"),
   ("description", PyJson.str "A 10–15 minute walk within 30 minutes after eating can lower post-meal glucose peaks."),
   ("category", PyJson.str "activity"),
   ("priority", PyJson.str "medium"),
   ("action", PyJson.str "Walk 10–15 minutes after your next meal"),
   ("timing", PyJson.null),
   ("confidence", PyJson.num (PyNum.F 7 (-1)))]

/-- The parsed members of fallback object 5. -/
def fbKVs5 : List (String × PyJson) :=
  [("title", PyJson.str "Review correction factor with your clinician"),
   ("description", PyJson.str "If corrections underperform or overshoot, re-evaluate insulin sensitivity settings."),
   ("category", PyJson.str "insulin"),
   ("priority", PyJson.str "low"),
   ("action", PyJson.str "Schedule a settings review"),
   ("timing", PyJson.null),
   ("confidence", PyJson.num (PyNum.F 6 (-1)))]

/-- The parsed fallback array. -/
def fbItemsJ : List PyJson :=
  [PyJson.obj fbKVs1, PyJson.obj fbKVs2, PyJson.obj fbKVs3, PyJson.obj fbKVs4, PyJson.obj fbKVs5]

/-- A concrete effect environment for evaluated counterexamples. -/
def envA : Env :=
  { uuid := fun _ => "id-a", nowIso := fun _ => "2026-01-01T00:00:00"
    isoShift := fun _ _ => "2026-01-01T00:00:00", randInt := fun _ => 0
    sinAt := fun _ => 0, isoValid := fun _ => true }

/-- A second environment differing from `envA` only in the uuid stream (two
runs of the same process draw different uuids). -/
def envB : Env :=
  { uuid := fun _ => "id-b", nowIso := fun _ => "2026-01-01T00:00:00"
    isoShift := fun _ _ => "2026-01-01T00:00:00", randInt := fun _ => 0
    sinAt := fun _ => 0, isoValid := fun _ => true }

/-- The spec's numbered-list scenario input (claim C9). -/
def c9Input : String :=
  "1. Title: Walk after dinner\nDescription: Reduces spikes\nCategory: activity\nPriority: medium"

/-- The titles of the five hard-coded fallback recommendations. -/
def fallbackTitles : List String :=
  ["Track glucose patterns after meals",
   "Consider a short pre-bolus for high-carb meals",
   "Balance carbs with protein/fiber",
   "Light post-meal activity",
   "Review correction factor with your clinician"]

/-- A one-object JSON array with an out-of-enum category and priority
(claims C2 and C4). -/
def oddEnumInput : String :=
  "[\x7b\"title\":\"Test title\",\"category\":\"zzz\",\"priority\":\"wow\"\x7d]"

/-- A one-object JSON array with an out-of-range confidence (claim C3). -/
def conf15Input : String :=
  "[\x7b\"title\":\"Test title\",\"confidence\":1.5\x7d]"

/-- A default context (only used to state `Option.get!`-style accessors). -/
instance : Inhabited Ctx :=
  ⟨{ base := [], timeframe := none, generatedAt := "", aiModel := ""
     recommendationId := "", exampleEvent := ⟨"", 0, .null, ""⟩
     graphData := [], supportingDataPoints := [] }⟩

/-- A default record. -/
instance : Inhabited Rec :=
  ⟨{ title := .null, description := .null, category := .null, priority := .null
     confidence := .I 0, action := .null, timing := .null, context := default }⟩

/-- The record built from one fallback item (the success payload of
`buildRec`, which never fails on the fallback items). -/
def recOf (env : Env) (j : Nat) (kvs : List (String × PyJson)) : Rec :=
  ((buildRec env j kvs).1).get!

/-- The five records the pipeline builds from the hard-coded fallback text
when the recursion on it starts at attach-call counter `k`. -/
def fbRecs (env : Env) (k : Nat) : List Rec :=
  [recOf env k fbKVs1, recOf env (k + 1) fbKVs2, recOf env (k + 2) fbKVs3,
   recOf env (k + 3) fbKVs4, recOf env (k + 4) fbKVs5]

/-- Relation between the per-item record builders of two runs that differ
only in their nondeterministic draws: the attach-call counters and the
context-free payloads agree. -/
def ItemRel (f g : Nat → List Char → Option Rec × Nat) : Prop :=
  ∀ (k : Nat) (c : List Char), (f k c).2 = (g k c).2 ∧
    Option.map dropCtx (f k c).1 = Option.map dropCtx (g k c).1

/-- Relation between the method outcomes of two runs that differ only in
their nondeterministic draws: same control flow, same counters, equal
context-free records. -/
def MResRel : MRes → MRes → Prop
| .done l, .done l2 => mdc l = mdc l2
| .cont a k, .cont a2 k2 => mdc a = mdc a2 ∧ k = k2
| _, _ => False

/-!
## Theorems

Everything below is proved about the definitions above.  The claim-level
theorems carry their claim id in the name; the rest are helper lemmas.
-/

set_option maxRecDepth 40000

/-- CLAIM C8 (counterexample): the claim says the truncation detector
reports the empty completion as truncated; in the source `_is_truncated`
returns `False` on the empty string (`if not text: return False`). -/
theorem c8_empty_not_truncated_cex : ¬ (is_truncated "" = true) := by decide

/-- CLAIM C8 (amended): `_is_truncated("")` returns `false`; the empty
completion still ends in the hard-coded fallback, but through the
extraction cascade falling through, not through the detector. -/
theorem c8_empty_is_not_truncated : is_truncated "" = false := rfl

/-- Helper: the splitter returns nothing when the stripped text does not
start with `[`. -/
theorem c10_split_requires_array_shape :
    ∀ t : String, strStarts ['['] (pyStripL t.toList) = false →
    split_json_array_objects t = [] := by
  intro t h
  have h2 : strStarts ['['] (pyStripL t.data) = false := h
  unfold split_json_array_objects
  by_cases he : t.isEmpty
  · simp [he]
  · simp [he, h2]

/-- CLAIM C10 (witness): prose input yields no objects. -/
theorem c10_witness :
    strStarts ['['] (pyStripL ("some prose" : String).toList) = false ∧
    split_json_array_objects "some prose" = [] := by
  refine ⟨by decide, c10_split_requires_array_shape "some prose" (by decide)⟩

/-- Helper for `repair_sound`: the final validation step of the repairer. -/
theorem repair_final_check {c cs : List Char} (h : repairCheck c = some cs) :
    (pyJsonLoadsL cs).isSome := by
  unfold repairCheck at h
  match hc : pyJsonLoadsL c with
  | some v => rw [hc] at h; cases h; simp [hc]
  | none => rw [hc] at h; cases h

/-- Helper: a successful repair parses (the repairer validates its candidate
with `json.loads` before returning it). -/
theorem repair_sound {t cs : List Char} (h : repair_jsonL t = some cs) :
    (pyJsonLoadsL cs).isSome := by
  unfold repair_jsonL at h
  split at h
  · cases h
  · exact repair_final_check h

/-- CLAIM C5: a non-failure result of `_repair_json` is JSON-parseable. -/
theorem c5_repair_result_parses :
    ∀ t s : String, repair_json t = some s → (pyJsonLoads s).isSome := by
  intro t s h
  unfold repair_json at h
  match hr : repair_jsonL t.toList with
  | none => rw [hr] at h; cases h
  | some cs =>
    rw [hr] at h
    have h2 : String.mk cs = s := by injection h
    cases h2
    exact repair_sound hr

/-- CLAIM C5 (witness): a concrete repair output parses. -/
theorem c5_witness :
    repair_json "[1" = some "[1]" ∧ (pyJsonLoads "[1]").isSome := by
  refine ⟨rfl, c5_repair_result_parses "[1" "[1]" rfl⟩

/-- CLAIM C6 (counterexample): repair is not idempotent.  On
`[",,,]"]` the string-blind trailing-comma cleanup runs twice inside one
repair call, producing `[",]"]`; repairing that output again removes one
more comma inside the string literal, giving `["]"]`. -/
theorem c6_repair_not_idempotent_cex :
    repair_json "[\",,,]\"]" = some "[\",]\"]" ∧
    repair_json "[\",]\"]" = some "[\"]\"]" ∧
    ("[\",]\"]" : String) ≠ "[\"]\"]" := by
  refine ⟨rfl, rfl, by decide⟩

/-- Helper: a prefix of a match is a match. -/
theorem strStarts_of_append {a b cs : List Char}
    (h : strStarts (a ++ b) cs = true) : strStarts a cs = true := by
  induction a generalizing cs with
  | nil => rfl
  | cons p ps ih =>
    cases cs with
    | nil => simp [strStarts] at h
    | cons c cs =>
      simp only [List.cons_append, strStarts, Bool.and_eq_true] at h ⊢
      exact ⟨h.1, ih h.2⟩

/-- Helper: an absent substring is absent at the head and in the tail. -/
theorem strFindL_none_cons {c : Char} {cs sub : List Char}
    (h : strFindL (c :: cs) sub = none) :
    strStarts sub (c :: cs) = false ∧ strFindL cs sub = none := by
  unfold strFindL at h
  by_cases hs : strStarts sub (c :: cs) = true
  · rw [if_pos hs] at h; cases h
  · rw [if_neg hs] at h
    exact ⟨by simpa using hs, Option.map_eq_none'.mp h⟩

/-- Helper: without a fence token the fence removal copies its input. -/
theorem removeFencesGo_id :
    ∀ (cs : List Char) (fuel : Nat) (acc : List Char),
    strFindL cs ("```".toList) = none → cs.length ≤ fuel →
    removeFencesGo fuel acc cs = acc.reverse ++ cs := by
  intro cs
  induction cs with
  | nil => intro fuel acc _ _; cases fuel <;> simp [removeFencesGo]
  | cons c cs ih =>
    intro fuel acc hf hl
    obtain ⟨hs3, hrest⟩ := strFindL_none_cons hf
    have hs7 : strStarts ("```json".toList) (c :: cs) = false := by
      by_cases h7 : strStarts ("```json".toList) (c :: cs) = true
      · have := strStarts_of_append (a := "```".toList) (b := "json".toList) h7
        rw [this] at hs3; cases hs3
      · simpa using h7
    match fuel with
    | 0 => simp at hl
    | fuel + 1 =>
      simp only [removeFencesGo, hs7, hs3, Bool.false_eq_true, if_false]
      rw [ih fuel (c :: acc) hrest (by simpa using Nat.lt_succ_iff.mp (Nat.lt_of_lt_of_le (Nat.lt_succ_self _) hl))]
      simp

/-- Helper: fence removal is the identity on fence-free text. -/
theorem removeFences_id {cs : List Char}
    (h : strFindL cs ("```".toList) = none) : removeFences cs = cs := by
  unfold removeFences
  rw [removeFencesGo_id cs cs.length [] h (Nat.le_refl _)]
  rfl

/-- Helper: `dropWhile` keeps a list whose head fails the predicate. -/
theorem dropWhile_head_id {p : Char → Bool} {cs : List Char} {c : Char}
    (hh : cs.head? = some c) (hp : p c = false) : cs.dropWhile p = cs := by
  cases cs with
  | nil => cases hh
  | cons d ds =>
    have : d = c := by simpa using hh
    subst this
    simp [List.dropWhile, hp]

/-- Helper: the first-bracket slice keeps text that starts with `[`. -/
theorem fromFirstLBracket_id {cs : List Char} (h : cs.head? = some '[') :
    fromFirstLBracket cs = cs := by
  cases cs with
  | nil => cases h
  | cons c ds =>
    have : c = '[' := by simpa using h
    subst this
    unfold fromFirstLBracket dropToLBracket
    simp

/-- Helper: a list with a known last element splits off that element. -/
theorem getLast?_decomp {cs : List Char} {b : Char} (h : cs.getLast? = some b) :
    ∃ xs, cs = xs ++ [b] := by
  induction cs with
  | nil => cases h
  | cons c ds ih =>
    cases ds with
    | nil =>
      have : c = b := by simpa using h
      subst this
      exact ⟨[], rfl⟩
    | cons d ds2 =>
      rw [List.getLast?_cons_cons] at h
      obtain ⟨xs, hxs⟩ := ih h
      exact ⟨c :: xs, by simp [hxs]⟩

/-- Helper: the last-closer slice keeps text that ends with `]`. -/
theorem uptoLastCloser_snoc (xs : List Char) :
    uptoLastCloser (xs ++ [']']) = xs ++ [']'] := by
  unfold uptoLastCloser
  rw [List.reverse_append]
  simp [List.dropWhile]

/-- Helper: text ending with `]` has a closer. -/
theorem hasCloser_snoc (xs : List Char) : hasCloser (xs ++ [']']) = true := by
  unfold hasCloser
  simp

/-- CLAIM C6 (amended): repair is a fixed point on structurally repaired
outputs that contain no comma directly preceding (up to whitespace) a
closing bracket; the counterexample shows the unconditional claim fails
when such a comma survives inside a string literal. -/
theorem c6_repair_fixed_point_amended :
    ∀ t s : String, repair_json t = some s → RepairReady s →
    repair_json s = some s := by
  intro t s hrep hready
  obtain ⟨hfence, hstrip, hhead, hlast, hcomma, hscan⟩ := hready
  have hparse : (pyJsonLoadsL s.toList).isSome := by
    unfold repair_json at hrep
    match hr : repair_jsonL t.toList with
    | none => rw [hr] at hrep; cases hrep
    | some cs =>
      rw [hr] at hrep
      have h2 : String.mk cs = s := by injection hrep
      cases h2
      exact repair_sound hr
  have hne : s.toList ≠ [] := by
    intro he
    rw [he] at hhead
    cases hhead
  obtain ⟨xs, hxs⟩ := getLast?_decomp hlast
  have hHasC : hasCloser s.toList = true := by rw [hxs]; exact hasCloser_snoc xs
  have hUpto : uptoLastCloser s.toList = s.toList := by
    rw [hxs]; exact uptoLastCloser_snoc xs
  have hlstrip : pyLstripL s.toList = s.toList :=
    dropWhile_head_id hhead (by decide)
  obtain ⟨cs2, hcc⟩ : ∃ cs2, s.toList = '[' :: cs2 := by
    cases hc : s.toList with
    | nil => exact absurd hc hne
    | cons c cs2 =>
      rw [hc] at hhead
      have : c = '[' := by simpa using hhead
      exact ⟨cs2, by rw [this]⟩
  have hw : strStarts ['['] (pyLstripL s.toList) = true := by
    rw [hlstrip, hcc]
    simp [strStarts]
  have hwb : strStarts ['\x7b'] (pyLstripL s.toList) = false := by
    rw [hlstrip, hcc]
    simp [strStarts]
  unfold repair_json repair_jsonL
  rw [if_neg hne]
  simp only [removeFences_id hfence, hstrip, fromFirstLBracket_id hhead,
    hHasC, if_true, hUpto, hcomma, hscan, List.append_nil]
  simp only [Bool.false_eq_true, if_false, List.append_nil, hcomma, hwb,
    Bool.false_eq_true, false_and, if_false]
  unfold repairCheck
  match hp : pyJsonLoadsL s.toList with
  | some v =>
    have hmk : (String.mk s.toList) = s := by cases s; rfl
    show some (String.mk s.toList) = some s
    rw [hmk]
  | none => rw [hp] at hparse; cases hparse

/-- CLAIM C2 (counterexample): the normalizer emits raw out-of-enum category
and priority values unchanged: on a one-object array with category `zzz`
and priority `wow` the output record carries exactly those values, which
are outside both enumerations. -/
theorem c2_raw_category_emitted_cex :
    (process_recommendations envA oddEnumInput).map Rec.category = [PyJson.str "zzz"] ∧
    (process_recommendations envA oddEnumInput).map Rec.priority = [PyJson.str "wow"] ∧
    ¬ ("zzz" ∈ categoryEnum) ∧ ¬ ("wow" ∈ priorityEnum) := by
  exact ⟨rfl, rfl, by decide, by decide⟩

/-- CLAIM C2 (amended): the JSON strategies pass the extracted `category`
and `priority` values through unchanged, defaulting to `general` / `medium`
only when the key is absent; no case-insensitive matching and no keyword
reclassification happens in `_process_recommendations` (the keyword
classifier `_categorize_recommendation` is only called from the unused
`_parse_recommendation` helper). -/
theorem c2_passthrough_amended :
    ∀ (env : Env) (k : Nat) (kvs : List (String × PyJson)) (r : Rec) (k2 : Nat),
    buildRec env k kvs = (some r, k2) →
    r.category = (pyGet kvs "category").getD (.str "general") ∧
    r.priority = (pyGet kvs "priority").getD (.str "medium") := by
  intro env k kvs r k2 h
  unfold buildRec at h
  match hf : pyFloatJ ((pyGet kvs "confidence").getD (.num (.F 8 (-1)))) with
  | none => rw [hf] at h; simp at h
  | some conf =>
    rw [hf] at h
    match ha : attach_examples_and_graph env k kvs with
    | none => rw [ha] at h; simp at h
    | some ctx =>
      rw [ha] at h
      have h2 := (Prod.mk.injEq _ _ _ _).mp h
      have h3 := h2.1
      cases h3
      exact ⟨rfl, rfl⟩

/-- CLAIM C2 (witness): the amended passthrough at the concrete record. -/
theorem c2_witness :
    ((buildRec envA 0 [("title", PyJson.str "Test title"),
        ("category", PyJson.str "zzz"),
        ("priority", PyJson.str "wow")]).1.map Rec.category = some (PyJson.str "zzz")) := by
  match hb : buildRec envA 0 [("title", PyJson.str "Test title"),
      ("category", PyJson.str "zzz"), ("priority", PyJson.str "wow")] with
  | (none, k2) =>
    have hs : (buildRec envA 0 [("title", PyJson.str "Test title"),
        ("category", PyJson.str "zzz"), ("priority", PyJson.str "wow")]).1.isSome = true := rfl
    rw [hb] at hs
    cases hs
  | (some r, k2) =>
    have h := c2_passthrough_amended envA 0 _ r k2 hb
    show some r.category = some (PyJson.str "zzz")
    rw [h.1]; rfl

/-- CLAIM C3 (counterexample): confidence is not clamped into `[0, 1]`: the
input `1.5` is emitted as `1.5` (the claim expects `1.0`). -/
theorem c3_confidence_not_clamped_cex :
    (process_recommendations envA conf15Input).map Rec.confidence = [PyNum.F 15 (-1)] ∧
    pyNumVal (PyNum.F 15 (-1)) = some ((3 : ℚ) / 2) ∧ ((3 : ℚ) / 2 ≠ 1) := by
  refine ⟨rfl, ?_, by norm_num⟩
  simp [pyNumVal]
  norm_num

/-- CLAIM C3 (amended): the confidence of a built record is exactly Python
`float` applied to the raw extracted value with default `0.8` when the key
is absent — no clamping; and when that coercion raises (e.g. on `"abc"`),
the record is not built at all rather than getting the default. -/
theorem c3_confidence_amended :
    ∀ (env : Env) (k : Nat) (kvs : List (String × PyJson)),
    (∀ (r : Rec) (k2 : Nat), buildRec env k kvs = (some r, k2) →
      some r.confidence = pyFloatJ ((pyGet kvs "confidence").getD (.num (.F 8 (-1))))) ∧
    (pyFloatJ ((pyGet kvs "confidence").getD (.num (.F 8 (-1)))) = none →
      buildRec env k kvs = (none, k)) := by
  intro env k kvs
  constructor
  · intro r k2 h
    unfold buildRec at h
    match hf : pyFloatJ ((pyGet kvs "confidence").getD (.num (.F 8 (-1)))) with
    | none => rw [hf] at h; simp at h
    | some conf =>
      rw [hf] at h
      match ha : attach_examples_and_graph env k kvs with
      | none => rw [ha] at h; simp at h
      | some ctx =>
        rw [ha] at h
        have h2 := (Prod.mk.injEq _ _ _ _).mp h
        have h3 := h2.1
        cases h3
        rfl
  · intro hf
    unfold buildRec
    rw [hf]

/-- CLAIM C3 (witness): the amended rule at concrete inputs — a present
numeric value passes through, and the string `"abc"` fails the build. -/
theorem c3_witness :
    ((buildRec envA 0 [("title", PyJson.str "Test title"),
        ("confidence", PyJson.num (PyNum.F 15 (-1)))]).1.map Rec.confidence =
      some (PyNum.F 15 (-1))) ∧
    buildRec envA 0 [("confidence", PyJson.str "abc")] = (none, 0) := by
  constructor
  · match hb : buildRec envA 0 [("title", PyJson.str "Test title"),
        ("confidence", PyJson.num (PyNum.F 15 (-1)))] with
    | (none, k2) =>
      have hs : (buildRec envA 0 [("title", PyJson.str "Test title"),
          ("confidence", PyJson.num (PyNum.F 15 (-1)))]).1.isSome = true := rfl
      rw [hb] at hs
      cases hs
    | (some r, k2) =>
      have h := (c3_confidence_amended envA 0 _).1 r k2 hb
      show some r.confidence = some (PyNum.F 15 (-1))
      rw [h]; rfl
  · exact (c3_confidence_amended envA 0 _).2 rfl

/-- CLAIM C6 (witness): a concrete structurally repaired output is a fixed
point. -/
theorem c6_witness :
    repair_json "[1]" = some "[1]" ∧ RepairReady "[1]" ∧
    repair_json ("[1]" : String) = some "[1]" := by
  refine ⟨rfl, ?hr, ?_⟩
  case hr => exact ⟨by decide, by decide, by decide, by decide, by decide, by decide⟩
  case _ =>
    exact c6_repair_fixed_point_amended "[1]" "[1]" rfl
      ⟨by decide, by decide, by decide, by decide, by decide, by decide⟩

/-- The `None`-ness of the extracted timeframe does not depend on the
nondeterministic draws, only on which iso strings `fromisoformat` accepts. -/
theorem tfOf_none_iff {env env' : Env} (h : env.isoValid = env'.isoValid)
    (k k' : Nat) (rec : List (String × PyJson)) :
    (tfOf env k rec = none) ↔ (tfOf env' k' rec = none) := by
  unfold tfOf
  rw [h]
  by_cases h1 : (pyHasKey rec "start" = true) ∧ (pyHasKey rec "end" = true)
  · rw [if_pos h1, if_pos h1]
  · rw [if_neg h1, if_neg h1]
    by_cases h3 : pyHasKey rec "timeframe" = true
    · rw [if_pos h3, if_pos h3]
      cases hg : pyGet rec "timeframe" with
      | none => exact Iff.rfl
      | some v =>
        cases v with
        | obj tf => exact Iff.rfl
        | str tf =>
          dsimp only
          cases hl : lastHours (pyLower tf).toList with
          | some hh => simp
          | none => exact Iff.rfl
        | null => exact Iff.rfl
        | bool b => exact Iff.rfl
        | num n => exact Iff.rfl
        | arr l => exact Iff.rfl
    · rw [if_neg h3, if_neg h3]
      cases hg : pyGet rec "timing" with
      | none => exact Iff.rfl
      | some v =>
        cases v with
        | str tm =>
          dsimp only
          cases hl : lastHours (pyLower tm).toList with
          | some hh => simp
          | none => exact Iff.rfl
        | obj tf => exact Iff.rfl
        | null => exact Iff.rfl
        | bool b => exact Iff.rfl
        | num n => exact Iff.rfl
        | arr l => exact Iff.rfl

/-- Whether the context attachment raises does not depend on the
nondeterministic draws. -/
theorem attach_isSome {env env' : Env} (h : env.isoValid = env'.isoValid)
    (k k' : Nat) (rec : List (String × PyJson)) :
    (attach_examples_and_graph env k rec).isSome =
    (attach_examples_and_graph env' k' rec).isSome := by
  simp only [attach_examples_and_graph]
  by_cases h1 : tfOf env k rec = none
  · have h1' : tfOf env' k' rec = none := (tfOf_none_iff h k k' rec).mp h1
    by_cases h2 : catLowerOkOf rec = false
    · rw [if_pos (show tfOf env k rec = none ∧ catLowerOkOf rec = false from ⟨h1, h2⟩),
          if_pos (show tfOf env' k' rec = none ∧ catLowerOkOf rec = false from ⟨h1', h2⟩)]
    · rw [if_neg (show ¬ (tfOf env k rec = none ∧ catLowerOkOf rec = false) from
            fun hand => h2 hand.2),
          if_neg (show ¬ (tfOf env' k' rec = none ∧ catLowerOkOf rec = false) from
            fun hand => h2 hand.2)]
      cases hb : ctxBaseOf rec with
      | none => rfl
      | some bs => rfl
  · have h1' : ¬ tfOf env' k' rec = none :=
      fun hn => h1 ((tfOf_none_iff h k k' rec).mpr hn)
    rw [if_neg (show ¬ (tfOf env k rec = none ∧ catLowerOkOf rec = false) from
          fun hand => h1 hand.1),
        if_neg (show ¬ (tfOf env' k' rec = none ∧ catLowerOkOf rec = false) from
          fun hand => h1' hand.1)]
    cases hb : ctxBaseOf rec with
    | none => rfl
    | some bs => rfl

/-- The JSON-strategy record builder of two runs: equal counters and equal
context-free payloads. -/
theorem buildRec_rel {env env' : Env} (h : env.isoValid = env'.isoValid)
    (k : Nat) (kvs : List (String × PyJson)) :
    (buildRec env k kvs).2 = (buildRec env' k kvs).2 ∧
    Option.map dropCtx (buildRec env k kvs).1 =
      Option.map dropCtx (buildRec env' k kvs).1 := by
  unfold buildRec
  cases hf : pyFloatJ ((pyGet kvs "confidence").getD (.num (.F 8 (-1)))) with
  | none => exact ⟨rfl, rfl⟩
  | some conf =>
    have hs := attach_isSome h k k kvs
    cases ha : attach_examples_and_graph env k kvs with
    | none =>
      cases ha' : attach_examples_and_graph env' k kvs with
      | none => exact ⟨rfl, rfl⟩
      | some ctx2 => rw [ha, ha'] at hs; cases hs
    | some ctx =>
      cases ha' : attach_examples_and_graph env' k kvs with
      | none => rw [ha, ha'] at hs; cases hs
      | some ctx2 => exact ⟨rfl, rfl⟩

/-- Lists with equal context-free images have equal emptiness. -/
theorem mdc_isEmpty_eq {a b : List Rec} (h : mdc a = mdc b) :
    a.isEmpty = b.isEmpty := by
  cases a with
  | nil =>
    cases b with
    | nil => rfl
    | cons y ys => simp [mdc] at h
  | cons x xs =>
    cases b with
    | nil => simp [mdc] at h
    | cons y ys => rfl

/-- Method 1's loop preserves the run relation. -/
theorem m1go_rel {env env' : Env} (h : env.isoValid = env'.isoValid)
    (items : List PyJson) :
    ∀ (acc acc' : List Rec) (k : Nat), mdc acc = mdc acc' →
    MResRel (m1go env items acc k) (m1go env' items acc' k) := by
  induction items with
  | nil =>
    intro acc acc' k hacc
    show mdc (acc.take 5) = mdc (acc'.take 5)
    simp only [mdc, List.map_take]
    rw [show acc.map dropCtx = acc'.map dropCtx from hacc]
  | cons it rest ih =>
    intro acc acc' k hacc
    cases it with
    | obj kvs =>
      obtain ⟨hk, ho⟩ := buildRec_rel h k kvs
      cases h1 : buildRec env k kvs with
      | mk o1 k1 =>
        cases h2 : buildRec env' k kvs with
        | mk o2 k2 =>
          simp only [h1, h2] at hk ho
          subst hk
          cases o1 with
          | none =>
            cases o2 with
            | none => simp only [m1go, h1, h2]; exact ⟨hacc, rfl⟩
            | some r2 => simp at ho
          | some r1 =>
            cases o2 with
            | none => simp at ho
            | some r2 =>
              simp only [m1go, h1, h2]
              apply ih
              simp only [mdc, List.map_append, List.map_cons, List.map_nil]
              rw [show acc.map dropCtx = acc'.map dropCtx from hacc]
              have hd : dropCtx r1 = dropCtx r2 := by simpa using ho
              rw [hd]
    | null => exact ⟨hacc, rfl⟩
    | bool b => exact ⟨hacc, rfl⟩
    | num n => exact ⟨hacc, rfl⟩
    | str s => exact ⟨hacc, rfl⟩
    | arr l => exact ⟨hacc, rfl⟩

/-- Method 2's per-object loop preserves the run relation. -/
theorem m2go_rel {env env' : Env} (h : env.isoValid = env'.isoValid)
    (objs : List String) :
    ∀ (acc acc' : List Rec) (k : Nat), mdc acc = mdc acc' →
    mdc (m2go env objs acc k).1 = mdc (m2go env' objs acc' k).1 ∧
    (m2go env objs acc k).2 = (m2go env' objs acc' k).2 := by
  induction objs with
  | nil => intro acc acc' k hacc; exact ⟨hacc, rfl⟩
  | cons o rest ih =>
    intro acc acc' k hacc
    simp only [m2go]
    cases hj : pyJsonLoads ((repair_json o).getD o) with
    | none => exact ih acc acc' k hacc
    | some v =>
      cases v with
      | obj kvs =>
        dsimp only
        obtain ⟨hk, ho⟩ := buildRec_rel h k kvs
        cases h1 : buildRec env k kvs with
        | mk o1 k1 =>
          cases h2 : buildRec env' k kvs with
          | mk o2 k2 =>
            simp only [h1, h2] at hk ho
            subst hk
            cases o1 with
            | none =>
              cases o2 with
              | none => exact ih acc acc' k1 hacc
              | some r2 => simp at ho
            | some r1 =>
              cases o2 with
              | none => simp at ho
              | some r2 =>
                dsimp only
                apply ih
                simp only [mdc, List.map_append, List.map_cons, List.map_nil]
                rw [show acc.map dropCtx = acc'.map dropCtx from hacc]
                have hd : dropCtx r1 = dropCtx r2 := by simpa using ho
                rw [hd]
      | null => exact ih acc acc' k hacc
      | bool b => exact ih acc acc' k hacc
      | num n => exact ih acc acc' k hacc
      | str s => exact ih acc acc' k hacc
      | arr l => exact ih acc acc' k hacc

/-- Method 3's per-span loop preserves the run relation. -/
theorem m3go_rel {env env' : Env} (h : env.isoValid = env'.isoValid)
    (objs : List String) :
    ∀ (acc acc' : List Rec) (k : Nat), mdc acc = mdc acc' →
    mdc (m3go env objs acc k).1 = mdc (m3go env' objs acc' k).1 ∧
    (m3go env objs acc k).2 = (m3go env' objs acc' k).2 := by
  induction objs with
  | nil => intro acc acc' k hacc; exact ⟨hacc, rfl⟩
  | cons o rest ih =>
    intro acc acc' k hacc
    simp only [m3go]
    cases hj : pyJsonLoads ((repair_json o).getD o) with
    | none => exact ih acc acc' k hacc
    | some v =>
      cases v with
      | obj kvs =>
        dsimp only
        by_cases hkey : (pyHasKey kvs "title" = true) ∨ (pyHasKey kvs "description" = true)
        · rw [if_pos hkey, if_pos hkey]
          obtain ⟨hk, ho⟩ := buildRec_rel h k kvs
          cases h1 : buildRec env k kvs with
          | mk o1 k1 =>
            cases h2 : buildRec env' k kvs with
            | mk o2 k2 =>
              simp only [h1, h2] at hk ho
              subst hk
              cases o1 with
              | none =>
                cases o2 with
                | none => exact ih acc acc' k1 hacc
                | some r2 => simp at ho
              | some r1 =>
                cases o2 with
                | none => simp at ho
                | some r2 =>
                  dsimp only
                  apply ih
                  simp only [mdc, List.map_append, List.map_cons, List.map_nil]
                  rw [show acc.map dropCtx = acc'.map dropCtx from hacc]
                  have hd : dropCtx r1 = dropCtx r2 := by simpa using ho
                  rw [hd]
        · rw [if_neg hkey, if_neg hkey]
          exact ih acc acc' k hacc
      | null => exact ih acc acc' k hacc
      | bool b => exact ih acc acc' k hacc
      | num n => exact ih acc acc' k hacc
      | str s => exact ih acc acc' k hacc
      | arr l => exact ih acc acc' k hacc

/-- The shared item fold preserves the run relation whenever the item
builders are related. -/
theorem itemsGo_rel {f g : Nat → List Char → Option Rec × Nat}
    (hfg : ItemRel f g) (chunks : List (List Char)) :
    ∀ (acc acc' : List Rec) (k : Nat), mdc acc = mdc acc' →
    mdc (itemsGo f chunks acc k).1 = mdc (itemsGo g chunks acc' k).1 ∧
    (itemsGo f chunks acc k).2 = (itemsGo g chunks acc' k).2 := by
  induction chunks with
  | nil => intro acc acc' k hacc; exact ⟨hacc, rfl⟩
  | cons c rest ih =>
    intro acc acc' k hacc
    obtain ⟨hk, ho⟩ := hfg k c
    cases h1 : f k c with
    | mk o1 k1 =>
      cases h2 : g k c with
      | mk o2 k2 =>
        simp only [h1, h2] at hk ho
        subst hk
        cases o1 with
        | none =>
          cases o2 with
          | none => simp only [itemsGo, h1, h2]; exact ih acc acc' k1 hacc
          | some r2 => simp at ho
        | some r1 =>
          cases o2 with
          | none => simp at ho
          | some r2 =>
            simp only [itemsGo, h1, h2]
            apply ih
            simp only [mdc, List.map_append, List.map_cons, List.map_nil]
            rw [show acc.map dropCtx = acc'.map dropCtx from hacc]
            have hd : dropCtx r1 = dropCtx r2 := by simpa using ho
            rw [hd]

/-- Method 4's item builder relates two runs. -/
theorem m4item_rel {env env' : Env} (h : env.isoValid = env'.isoValid) :
    ItemRel (m4item env) (m4item env') := by
  intro k c
  simp only [m4item]
  by_cases he : (pyStripL c).isEmpty = true
  · rw [if_pos he, if_pos he]; exact ⟨rfl, rfl⟩
  · rw [if_neg he, if_neg he]
    have hs := attach_isSome h k k
      (synthDict (m4title (pyStripL c)) (m4desc (pyStripL c)) (m4cat (pyStripL c)))
    cases ha : attach_examples_and_graph env k
        (synthDict (m4title (pyStripL c)) (m4desc (pyStripL c)) (m4cat (pyStripL c))) with
    | none =>
      cases ha' : attach_examples_and_graph env' k
          (synthDict (m4title (pyStripL c)) (m4desc (pyStripL c)) (m4cat (pyStripL c))) with
      | none => exact ⟨rfl, rfl⟩
      | some ctx2 => rw [ha, ha'] at hs; cases hs
    | some ctx =>
      cases ha' : attach_examples_and_graph env' k
          (synthDict (m4title (pyStripL c)) (m4desc (pyStripL c)) (m4cat (pyStripL c))) with
      | none => rw [ha, ha'] at hs; cases hs
      | some ctx2 =>
        dsimp only
        by_cases ht : (m4title (pyStripL c) ≠ "") ∨ (m4desc (pyStripL c) ≠ "")
        · rw [if_pos ht, if_pos ht]; exact ⟨rfl, rfl⟩
        · rw [if_neg ht, if_neg ht]; exact ⟨rfl, rfl⟩

/-- Method 5's item builder relates two runs. -/
theorem m5item_rel {env env' : Env} (h : env.isoValid = env'.isoValid) :
    ItemRel (m5item env) (m5item env') := by
  intro k c
  simp only [m5item]
  by_cases he : (pyStripL c).isEmpty = true
  · rw [if_pos he, if_pos he]; exact ⟨rfl, rfl⟩
  · rw [if_neg he, if_neg he]
    have hs := attach_isSome h k k (synthDict (m5title c) (m5desc c) (m5cat c))
    cases ha : attach_examples_and_graph env k
        (synthDict (m5title c) (m5desc c) (m5cat c)) with
    | none =>
      cases ha' : attach_examples_and_graph env' k
          (synthDict (m5title c) (m5desc c) (m5cat c)) with
      | none => exact ⟨rfl, rfl⟩
      | some ctx2 => rw [ha, ha'] at hs; cases hs
    | some ctx =>
      cases ha' : attach_examples_and_graph env' k
          (synthDict (m5title c) (m5desc c) (m5cat c)) with
      | none => rw [ha, ha'] at hs; cases hs
      | some ctx2 =>
        dsimp only
        by_cases ht : (m5title c ≠ "") ∨ (m5desc c ≠ "")
        · rw [if_pos ht, if_pos ht]; exact ⟨rfl, rfl⟩
        · rw [if_neg ht, if_neg ht]; exact ⟨rfl, rfl⟩

/-- Method 6's item builder relates two runs. -/
theorem m6item_rel {env env' : Env} (h : env.isoValid = env'.isoValid)
    (textL : List Char) :
    ItemRel (m6item env textL) (m6item env' textL) := by
  intro k c
  simp only [m6item]
  by_cases hg : ((pyStripL c).length < 5) ∨ ((pyStripL c).length > 100)
  · rw [if_pos hg, if_pos hg]; exact ⟨rfl, rfl⟩
  · rw [if_neg hg, if_neg hg]
    cases hf : strFindL textL (pyStripL c) with
    | none => exact ⟨rfl, rfl⟩
    | some pos =>
      dsimp only
      have hs := attach_isSome h k k
        (synthDict (String.mk (pyStripL c)) (String.mk (m6descOf textL pos)) "general")
      cases ha : attach_examples_and_graph env k
          (synthDict (String.mk (pyStripL c)) (String.mk (m6descOf textL pos)) "general") with
      | none =>
        cases ha' : attach_examples_and_graph env' k
            (synthDict (String.mk (pyStripL c)) (String.mk (m6descOf textL pos)) "general") with
        | none => exact ⟨rfl, rfl⟩
        | some ctx2 => rw [ha, ha'] at hs; cases hs
      | some ctx =>
        cases ha' : attach_examples_and_graph env' k
            (synthDict (String.mk (pyStripL c)) (String.mk (m6descOf textL pos)) "general") with
        | none => rw [ha, ha'] at hs; cases hs
        | some ctx2 => exact ⟨rfl, rfl⟩

/-- Method 1 relates two runs. -/
theorem method1_rel {env env' : Env} (h : env.isoValid = env'.isoValid)
    (t : String) (acc acc' : List Rec) (k : Nat) (hacc : mdc acc = mdc acc') :
    MResRel (method1 env t acc k) (method1 env' t acc' k) := by
  unfold method1
  cases hr : repair_json t with
  | none => exact ⟨hacc, rfl⟩
  | some s =>
    dsimp only
    cases hj : pyJsonLoads s with
    | none => exact ⟨hacc, rfl⟩
    | some v =>
      cases v with
      | arr items =>
        dsimp only
        by_cases hall : items.all PyJson.isObjB = true
        · rw [if_pos hall, if_pos hall]
          exact m1go_rel h items acc acc' k hacc
        · rw [if_neg hall, if_neg hall]
          exact ⟨hacc, rfl⟩
      | null => exact ⟨hacc, rfl⟩
      | bool b => exact ⟨hacc, rfl⟩
      | num n => exact ⟨hacc, rfl⟩
      | str s2 => exact ⟨hacc, rfl⟩
      | obj kvs => exact ⟨hacc, rfl⟩

/-- The shared take-5/continue tail of methods 2–6 relates two runs. -/
theorem tail_rel {a2 a2' : List Rec} {j2 : Nat} (hm : mdc a2 = mdc a2') :
    MResRel (if a2.isEmpty then MRes.cont a2 j2 else MRes.done (a2.take 5))
      (if a2'.isEmpty then MRes.cont a2' j2 else MRes.done (a2'.take 5)) := by
  by_cases hE : a2'.isEmpty = true
  · rw [if_pos ((mdc_isEmpty_eq hm).trans hE), if_pos hE]
    exact ⟨hm, rfl⟩
  · rw [if_neg (fun hx => hE ((mdc_isEmpty_eq hm).symm.trans hx)), if_neg hE]
    show mdc (a2.take 5) = mdc (a2'.take 5)
    simp only [mdc, List.map_take]
    rw [show a2.map dropCtx = a2'.map dropCtx from hm]

/-- Method 2 relates two runs. -/
theorem method2_rel {env env' : Env} (h : env.isoValid = env'.isoValid)
    (t : String) (acc acc' : List Rec) (k : Nat) (hacc : mdc acc = mdc acc') :
    MResRel (method2 env t acc k) (method2 env' t acc' k) := by
  simp only [method2]
  cases he : extract_json_array t with
  | none => exact ⟨hacc, rfl⟩
  | some astr =>
    dsimp only
    have h2 := m2go_rel h
      (split_json_array_objects ((repair_json astr).getD astr)) acc acc' k hacc
    cases hm : m2go env (split_json_array_objects ((repair_json astr).getD astr)) acc k with
    | mk a2 j2 =>
      cases hm' : m2go env' (split_json_array_objects ((repair_json astr).getD astr)) acc' k with
      | mk a2' j2' =>
        simp only [hm, hm'] at h2
        obtain ⟨hma, hmk⟩ := h2
        subst hmk
        exact tail_rel hma

/-- Method 3 relates two runs. -/
theorem method3_rel {env env' : Env} (h : env.isoValid = env'.isoValid)
    (t : String) (acc acc' : List Rec) (k : Nat) (hacc : mdc acc = mdc acc') :
    MResRel (method3 env t acc k) (method3 env' t acc' k) := by
  simp only [method3]
  have h2 := m3go_rel h ((findBraceSpans t.toList).map String.mk) acc acc' k hacc
  cases hm : m3go env ((findBraceSpans t.toList).map String.mk) acc k with
  | mk a2 j2 =>
    cases hm' : m3go env' ((findBraceSpans t.toList).map String.mk) acc' k with
    | mk a2' j2' =>
      simp only [hm, hm'] at h2
      obtain ⟨hma, hmk⟩ := h2
      subst hmk
      exact tail_rel hma

/-- Method 4 relates two runs. -/
theorem method4_rel {env env' : Env} (h : env.isoValid = env'.isoValid)
    (t : String) (acc acc' : List Rec) (k : Nat) (hacc : mdc acc = mdc acc') :
    MResRel (method4 env t acc k) (method4 env' t acc' k) := by
  simp only [method4]
  by_cases hlen : (splitNumbered (pyStripL t.toList)).length ≤ 1
  · rw [if_pos hlen, if_pos hlen]; exact ⟨hacc, rfl⟩
  · rw [if_neg hlen, if_neg hlen]
    have h2 := itemsGo_rel (m4item_rel h) (splitNumbered (pyStripL t.toList)) acc acc' k hacc
    cases hm : itemsGo (m4item env) (splitNumbered (pyStripL t.toList)) acc k with
    | mk a2 j2 =>
      cases hm' : itemsGo (m4item env') (splitNumbered (pyStripL t.toList)) acc' k with
      | mk a2' j2' =>
        simp only [hm, hm'] at h2
        obtain ⟨hma, hmk⟩ := h2
        subst hmk
        exact tail_rel hma

/-- Method 5 relates two runs. -/
theorem method5_rel {env env' : Env} (h : env.isoValid = env'.isoValid)
    (t : String) (acc acc' : List Rec) (k : Nat) (hacc : mdc acc = mdc acc') :
    MResRel (method5 env t acc k) (method5 env' t acc' k) := by
  simp only [method5]
  have h2 := itemsGo_rel (m5item_rel h) (splitMarkdown t.toList) acc acc' k hacc
  cases hm : itemsGo (m5item env) (splitMarkdown t.toList) acc k with
  | mk a2 j2 =>
    cases hm' : itemsGo (m5item env') (splitMarkdown t.toList) acc' k with
    | mk a2' j2' =>
      simp only [hm, hm'] at h2
      obtain ⟨hma, hmk⟩ := h2
      subst hmk
      exact tail_rel hma

/-- Method 6 relates two runs. -/
theorem method6_rel {env env' : Env} (h : env.isoValid = env'.isoValid)
    (t : String) (acc acc' : List Rec) (k : Nat) (hacc : mdc acc = mdc acc') :
    MResRel (method6 env t acc k) (method6 env' t acc' k) := by
  simp only [method6]
  by_cases hg : ((m6FindTitles t.toList).isEmpty = true) ∨ ((m6FindTitles t.toList).length > 10)
  · rw [if_pos hg, if_pos hg]; exact ⟨hacc, rfl⟩
  · rw [if_neg hg, if_neg hg]
    have h2 := itemsGo_rel (m6item_rel h t.toList) (m6FindTitles t.toList) acc acc' k hacc
    cases hm : itemsGo (m6item env t.toList) (m6FindTitles t.toList) acc k with
    | mk a2 j2 =>
      cases hm' : itemsGo (m6item env' t.toList) (m6FindTitles t.toList) acc' k with
      | mk a2' j2' =>
        simp only [hm, hm'] at h2
        obtain ⟨hma, hmk⟩ := h2
        subst hmk
        exact tail_rel hma

/-- The unstructured-text last resort relates two runs. -/
theorem unstructuredTail_rel {env env' : Env} (h : env.isoValid = env'.isoValid)
    (t : String) (acc acc' : List Rec) (k : Nat) (hacc : mdc acc = mdc acc') :
    Option.map mdc (unstructuredTail env t acc k).1 =
      Option.map mdc (unstructuredTail env' t acc' k).1 ∧
    (unstructuredTail env t acc k).2 = (unstructuredTail env' t acc' k).2 := by
  simp only [unstructuredTail]
  by_cases hlen : t.length > 100
  · rw [if_pos hlen, if_pos hlen]
    cases hp : utParas t with
    | nil => exact ⟨rfl, rfl⟩
    | cons p0 restP =>
      dsimp only
      have hs := attach_isSome h k k
        (synthDict (utTitle (pyStripL p0)) (utDescParas restP) "general" ++
          [("ai_raw_text", PyJson.str (utRaw t))])
      cases ha : attach_examples_and_graph env k
          (synthDict (utTitle (pyStripL p0)) (utDescParas restP) "general" ++
            [("ai_raw_text", PyJson.str (utRaw t))]) with
      | none =>
        cases ha' : attach_examples_and_graph env' k
            (synthDict (utTitle (pyStripL p0)) (utDescParas restP) "general" ++
              [("ai_raw_text", PyJson.str (utRaw t))]) with
        | none => exact ⟨rfl, rfl⟩
        | some ctx2 => rw [ha, ha'] at hs; cases hs
      | some ctx =>
        cases ha' : attach_examples_and_graph env' k
            (synthDict (utTitle (pyStripL p0)) (utDescParas restP) "general" ++
              [("ai_raw_text", PyJson.str (utRaw t))]) with
        | none => rw [ha, ha'] at hs; cases hs
        | some ctx2 =>
          refine ⟨?_, rfl⟩
          show some (mdc (acc ++ _)) = some (mdc (acc' ++ _))
          apply congrArg some
          simp only [mdc, List.map_append, List.map_cons, List.map_nil]
          rw [show acc.map dropCtx = acc'.map dropCtx from hacc]
          rfl
  · rw [if_neg hlen, if_neg hlen]
    exact ⟨rfl, rfl⟩

/-- Case split on the run relation. -/
theorem mresrel_cases {x y : MRes} (h : MResRel x y) :
    (∃ l l2, x = .done l ∧ y = .done l2 ∧ mdc l = mdc l2) ∨
    (∃ a a2 k, x = .cont a k ∧ y = .cont a2 k ∧ mdc a = mdc a2) := by
  cases x with
  | done l =>
    cases y with
    | done l2 => exact Or.inl ⟨l, l2, rfl, rfl, h⟩
    | cont a k => exact h.elim
  | cont a k =>
    cases y with
    | done l => exact h.elim
    | cont a2 k2 =>
      exact Or.inr ⟨a, a2, k, rfl, by rw [h.2], h.1⟩

/-- One full pass of the pipeline relates two runs: equal counters and
equal context-free outputs. -/
theorem processAux_rel {env env' : Env} (h : env.isoValid = env'.isoValid)
    (t : String) (k : Nat) :
    Option.map mdc (processAux env t k).1 = Option.map mdc (processAux env' t k).1 ∧
    (processAux env t k).2 = (processAux env' t k).2 := by
  unfold processAux
  rcases mresrel_cases (method1_rel h t [] [] k rfl) with
    ⟨l, l2, e1, e2, hl⟩ | ⟨a1, a1', k1, e1, e2, ha1⟩
  · rw [e1, e2]; exact ⟨congrArg some hl, rfl⟩
  · rw [e1, e2]
    dsimp only
    rcases mresrel_cases (method2_rel h t a1 a1' k1 ha1) with
      ⟨l, l2, f1, f2, hl⟩ | ⟨a2, a2', k2, f1, f2, ha2⟩
    · rw [f1, f2]; exact ⟨congrArg some hl, rfl⟩
    · rw [f1, f2]
      dsimp only
      rcases mresrel_cases (method3_rel h t a2 a2' k2 ha2) with
        ⟨l, l2, g1, g2, hl⟩ | ⟨a3, a3', k3, g1, g2, ha3⟩
      · rw [g1, g2]; exact ⟨congrArg some hl, rfl⟩
      · rw [g1, g2]
        dsimp only
        rcases mresrel_cases (method4_rel h t a3 a3' k3 ha3) with
          ⟨l, l2, i1, i2, hl⟩ | ⟨a4, a4', k4, i1, i2, ha4⟩
        · rw [i1, i2]; exact ⟨congrArg some hl, rfl⟩
        · rw [i1, i2]
          dsimp only
          rcases mresrel_cases (method5_rel h t a4 a4' k4 ha4) with
            ⟨l, l2, j1, j2, hl⟩ | ⟨a5, a5', k5, j1, j2, ha5⟩
          · rw [j1, j2]; exact ⟨congrArg some hl, rfl⟩
          · rw [j1, j2]
            dsimp only
            rcases mresrel_cases (method6_rel h t a5 a5' k5 ha5) with
              ⟨l, l2, n1, n2, hl⟩ | ⟨a6, a6', k6, n1, n2, ha6⟩
            · rw [n1, n2]; exact ⟨congrArg some hl, rfl⟩
            · rw [n1, n2]
              dsimp only
              exact unstructuredTail_rel h t a6 a6' k6 ha6

/-- CLAIM C4 (counterexample): the pipeline is not deterministic from the
caller's perspective: two runs that differ only in their fresh uuid draws
emit different context sidecars (`recommendation_id`) for the same input
text. -/
theorem c4_context_nondeterministic_cex :
    (process_recommendations envA oddEnumInput).map
      (fun r => r.context.recommendationId) = ["id-a"] ∧
    (process_recommendations envB oddEnumInput).map
      (fun r => r.context.recommendationId) = ["id-b"] ∧
    envA.uuid 0 ≠ envB.uuid 0 := by
  exact ⟨rfl, rfl, by decide⟩

/-- CLAIM C4 (amended): determinism holds exactly outside the context
sidecar: two runs whose `fromisoformat` oracle agrees (a pure function of
the input strings) produce the same records up to the context field, for
every input text, whatever their uuid, clock and random draws. -/
theorem c4_core_fields_deterministic_amended :
    ∀ (env env' : Env) (t : String), env.isoValid = env'.isoValid →
    mdc (process_recommendations env t) = mdc (process_recommendations env' t) := by
  intro env env' t h
  unfold process_recommendations
  obtain ⟨ho, hk⟩ := processAux_rel h t 0
  cases hp : processAux env t 0 with
  | mk o k =>
    cases hp' : processAux env' t 0 with
    | mk o' k' =>
      simp only [hp, hp'] at ho hk
      subst hk
      cases o with
      | some l =>
        cases o' with
        | some l2 => simpa using ho
        | none => simp at ho
      | none =>
        cases o' with
        | some l2 => simp at ho
        | none =>
          dsimp only
          obtain ⟨ho2, hk2⟩ := processAux_rel h fallback_recommendations k
          cases hq : processAux env fallback_recommendations k with
          | mk o2 j =>
            cases hq' : processAux env' fallback_recommendations k with
            | mk o2' j' =>
              simp only [hq, hq'] at ho2 hk2
              subst hk2
              cases o2 with
              | some l3 =>
                cases o2' with
                | some l4 => simpa using ho2
                | none => simp at ho2
              | none =>
                cases o2' with
                | some l4 => simp at ho2
                | none => rfl

/-- CLAIM C4 (witness): the amended determinism at two concrete runs that
differ in every nondeterministic stream except the iso oracle. -/
theorem c4_witness :
    mdc (process_recommendations envA oddEnumInput) =
    mdc (process_recommendations envB oddEnumInput) :=
  c4_core_fields_deterministic_amended envA envB oddEnumInput rfl

/-- String concatenation maps to list concatenation. -/
theorem toList_append (a b : String) : (a ++ b).toList = a.toList ++ b.toList := rfl

/-- The stripped fallback text, decomposed for chunked evaluation. -/
theorem fbStripped_decomp :
    fbStripped.toList =
    '[' :: ("\n          ".toList ++ (fbObj1.toList ++ (fbSep.toList ++ (fbObj2.toList ++
      (fbSep.toList ++ (fbObj3.toList ++ (fbSep.toList ++ (fbObj4.toList ++
      (fbSep.toList ++ (fbObj5.toList ++ "\n        ]".toList)))))))))) := by
  simp only [fbStripped, toList_append, List.append_assoc]
  rfl

/-- The stripped fallback text ends with its closing bracket. -/
theorem fbStripped_snoc : fbStripped.toList = fbInit.toList ++ [']'] := by
  simp only [fbStripped, fbInit, toList_append, List.append_assoc]
  rfl

/-- The raw fallback text is the stripped text inside whitespace margins. -/
theorem fallback_decomp :
    fallback_recommendations.toList =
    "\n        ".toList ++ (fbStripped.toList ++ "\n        ".toList) := by
  simp only [fallback_recommendations, fbStripped, fbHead, fbTail, toList_append,
    List.append_assoc]
  rfl

/-- Replay of fallback object 1 at any sufficient fuel, in front of any
continuation. -/
theorem fbObj1_replay (f : Nat) (x : List Char) :
    parseAny (f + 9) .val (fbObj1.toList ++ x) = some (.v (.obj fbKVs1), x) := rfl

/-- Replay of fallback object 2. -/
theorem fbObj2_replay (f : Nat) (x : List Char) :
    parseAny (f + 9) .val (fbObj2.toList ++ x) = some (.v (.obj fbKVs2), x) := rfl

/-- Replay of fallback object 3. -/
theorem fbObj3_replay (f : Nat) (x : List Char) :
    parseAny (f + 9) .val (fbObj3.toList ++ x) = some (.v (.obj fbKVs3), x) := rfl

/-- Replay of fallback object 4. -/
theorem fbObj4_replay (f : Nat) (x : List Char) :
    parseAny (f + 9) .val (fbObj4.toList ++ x) = some (.v (.obj fbKVs4), x) := rfl

/-- Skipping whitespace before a comma separator exposes the comma. -/
theorem skipWs_sep (x : List Char) :
    skipWs (fbSep.toList ++ x) = ',' :: ("\n          ".toList ++ x) := rfl

/-- Skipping the indentation before fallback object 2. -/
theorem skipWs_obj2 (x : List Char) :
    skipWs ("\n          ".toList ++ (fbObj2.toList ++ x)) = fbObj2.toList ++ x := rfl

/-- Skipping the indentation before fallback object 3. -/
theorem skipWs_obj3 (x : List Char) :
    skipWs ("\n          ".toList ++ (fbObj3.toList ++ x)) = fbObj3.toList ++ x := rfl

/-- Skipping the indentation before fallback object 4. -/
theorem skipWs_obj4 (x : List Char) :
    skipWs ("\n          ".toList ++ (fbObj4.toList ++ x)) = fbObj4.toList ++ x := rfl

/-- Skipping the indentation before fallback object 5. -/
theorem skipWs_obj5 (x : List Char) :
    skipWs ("\n          ".toList ++ (fbObj5.toList ++ x)) = fbObj5.toList ++ x := rfl

/-- One elements step that continues after a comma. -/
theorem elems_cons {fuel : Nat} {cs r r2 rest : List Char} {v : PyJson}
    {vsl : List PyJson}
    (h1 : parseAny fuel .val cs = some (.v v, r))
    (h2 : skipWs r = ',' :: r2)
    (h3 : parseAny fuel .elems (skipWs r2) = some (.vs vsl, rest)) :
    parseAny (fuel + 1) .elems cs = some (.vs (v :: vsl), rest) := by
  simp only [parseAny, h1, h2, h3]

/-- The elements run over fallback object 5 and the closing bracket. -/
theorem fbElems5 (f : Nat) :
    parseAny (f + 11) .elems (fbObj5.toList ++ "\n        ]".toList) =
      some (.vs [.obj fbKVs5], []) := rfl

/-- The elements run over fallback objects 4–5. -/
theorem fbElems4 (f : Nat) :
    parseAny (f + 12) .elems
      (fbObj4.toList ++ (fbSep.toList ++ (fbObj5.toList ++ "\n        ]".toList))) =
      some (.vs [.obj fbKVs4, .obj fbKVs5], []) := by
  refine elems_cons (fbObj4_replay (f + 2) _) (skipWs_sep _) ?_
  rw [skipWs_obj5]
  exact fbElems5 f

/-- The elements run over fallback objects 3–5. -/
theorem fbElems3 (f : Nat) :
    parseAny (f + 13) .elems
      (fbObj3.toList ++ (fbSep.toList ++ (fbObj4.toList ++ (fbSep.toList ++
        (fbObj5.toList ++ "\n        ]".toList))))) =
      some (.vs [.obj fbKVs3, .obj fbKVs4, .obj fbKVs5], []) := by
  refine elems_cons (fbObj3_replay (f + 3) _) (skipWs_sep _) ?_
  rw [skipWs_obj4]
  exact fbElems4 f

/-- The elements run over fallback objects 2–5. -/
theorem fbElems2 (f : Nat) :
    parseAny (f + 14) .elems
      (fbObj2.toList ++ (fbSep.toList ++ (fbObj3.toList ++ (fbSep.toList ++
        (fbObj4.toList ++ (fbSep.toList ++ (fbObj5.toList ++ "\n        ]".toList))))))) =
      some (.vs [.obj fbKVs2, .obj fbKVs3, .obj fbKVs4, .obj fbKVs5], []) := by
  refine elems_cons (fbObj2_replay (f + 4) _) (skipWs_sep _) ?_
  rw [skipWs_obj3]
  exact fbElems3 f

/-- The elements run over all five fallback objects. -/
theorem fbElems1 (f : Nat) :
    parseAny (f + 15) .elems
      (fbObj1.toList ++ (fbSep.toList ++ (fbObj2.toList ++ (fbSep.toList ++
        (fbObj3.toList ++ (fbSep.toList ++ (fbObj4.toList ++ (fbSep.toList ++
        (fbObj5.toList ++ "\n        ]".toList))))))))) =
      some (.vs fbItemsJ, []) := by
  refine elems_cons (fbObj1_replay (f + 5) _) (skipWs_sep _) ?_
  rw [skipWs_obj2]
  exact fbElems2 f

/-- An array value whose first element starts right after whitespace. -/
theorem val_arr {fuel : Nat} {rest r1 rx : List Char} {vs : List PyJson}
    (h1 : skipWs rest = '\x7b' :: r1)
    (h2 : parseAny fuel .elems ('\x7b' :: r1) = some (.vs vs, rx)) :
    parseAny (fuel + 1) .val ('[' :: rest) = some (.v (.arr vs), rx) := by
  simp only [parseAny, h1]
  split
  · next heq => simp at heq
  · rw [h2]

/-- Skipping the indentation before fallback object 1, exposing its brace. -/
theorem skipWs_obj1 (x : List Char) :
    skipWs ("\n          ".toList ++ (fbObj1.toList ++ x)) =
      '\x7b' :: (fbObj1.toList.tail ++ x) := rfl

/-- The full parse of the stripped fallback text at any sufficient fuel. -/
theorem fb_parse_top (f : Nat) :
    parseAny (f + 16) .val fbStripped.toList = some (.v (.arr fbItemsJ), []) := by
  rw [fbStripped_decomp]
  refine val_arr (skipWs_obj1 _) ?_
  exact fbElems1 f

/-- The per-piece lengths of the fallback text. -/
theorem fb_len1 : fbObj1.toList.length = 391 := rfl

theorem fb_len2 : fbObj2.toList.length = 401 := rfl

theorem fb_len3 : fbObj3.toList.length = 352 := rfl

theorem fb_len4 : fbObj4.toList.length = 371 := rfl

theorem fb_len5 : fbObj5.toList.length = 372 := rfl

/-- The length of the stripped fallback text. -/
theorem fbStripped_len : fbStripped.toList.length = 1957 := by
  simp only [fbStripped, toList_append, List.length_append,
    fb_len1, fb_len2, fb_len3, fb_len4, fb_len5]
  rfl

/-- `json.loads` accepts the stripped fallback text and yields its five
objects. -/
theorem fb_loads : pyJsonLoads fbStripped = some (PyJson.arr fbItemsJ) := by
  show pyJsonLoadsL fbStripped.toList = _
  unfold pyJsonLoadsL
  rw [fbStripped_len]
  have hskip0 : skipWs fbStripped.toList = fbStripped.toList := by
    rw [fbStripped_decomp]
    rfl
  rw [hskip0]
  have hfu : 2 * 1957 + 2 = 3900 + 16 := by norm_num
  rw [hfu]
  unfold parseVal
  rw [fb_parse_top 3900]
  rfl

/-- A backtick-free list contains no fence token. -/
theorem noTick_strFindL :
    ∀ (cs : List Char), cs.all noTick = true →
    strFindL cs ("\x60\x60\x60".toList) = none := by
  intro cs
  induction cs with
  | nil => intro _; rfl
  | cons c cs ih =>
    intro h
    simp only [List.all_cons, Bool.and_eq_true] at h
    have h1 : ¬ (c = '\x60') := by simpa [noTick] using h.1
    have hs : strStarts ('\x60' :: '\x60' :: '\x60' :: []) (c :: cs) = false := by
      have hd : (decide ('\x60' = c)) = false :=
        decide_eq_false (fun he => h1 he.symm)
      simp [strStarts, hd]
    unfold strFindL
    rw [if_neg (by simp [hs]), ih h.2]
    rfl

/-- The fallback text is backtick-free. -/
theorem fb_noTick : fallback_recommendations.toList.all noTick = true := by
  simp only [fallback_recommendations, toList_append, List.all_append, Bool.and_eq_true]
  repeat' apply And.intro
  all_goals rfl

/-- The fallback text contains no fence token. -/
theorem fb_noFence :
    strFindL fallback_recommendations.toList ("\x60\x60\x60".toList) = none :=
  noTick_strFindL _ fb_noTick

/-- The stripped fallback text starts with its opening bracket. -/
theorem fb_headq : fbStripped.toList.head? = some '[' := by
  rw [fbStripped_decomp]
  rfl

/-- Left-stripping stops at the fallback's opening bracket. -/
theorem fb_lstrip (Y : List Char) :
    List.dropWhile pyWs ("\n        ".toList ++ ('[' :: Y)) = '[' :: Y := rfl

/-- Right-stripping (on the reversed text) stops at the closing bracket. -/
theorem fb_rdrop (V : List Char) :
    List.dropWhile pyWs ("\n        ".toList.reverse ++ (']' :: V)) = ']' :: V := rfl

/-- `strip()` of the raw fallback text gives the stripped text. -/
theorem fb_strip : pyStripL fallback_recommendations.toList = fbStripped.toList := by
  rw [fallback_decomp]
  unfold pyStripL
  have hl : List.dropWhile pyWs
      ("\n        ".toList ++ (fbStripped.toList ++ "\n        ".toList)) =
      fbStripped.toList ++ "\n        ".toList := by
    rw [fbStripped_decomp, List.cons_append, fb_lstrip, ← List.cons_append,
      ← fbStripped_decomp]
  rw [hl, fbStripped_snoc, List.append_assoc, List.singleton_append,
    List.reverse_append]
  rw [show (']' :: "\n        ".toList).reverse =
    "\n        ".toList.reverse ++ [']'] from by simp]
  rw [List.append_assoc, List.singleton_append, fb_rdrop]
  simp

/-- The stripped fallback text as a flat chain of its pieces. -/
theorem fbStripped_pieces : fbStripped.toList =
    "[\n          ".toList ++ fbObj1.toList ++ fbSep.toList ++ fbObj2.toList ++
    fbSep.toList ++ fbObj3.toList ++ fbSep.toList ++ fbObj4.toList ++
    fbSep.toList ++ fbObj5.toList ++ "\n        ]".toList := by
  simp only [fbStripped, toList_append]

/-- Trailing-comma pass pieces: the closing margin (read right to left)
enters the pending-closer state. -/
theorem rtc_tail (out : List Char) :
    List.foldl rtcStep (out, false) ("\n        ]".toList.reverse) =
      ("\n        ]".toList ++ out, true) := rfl

/-- Trailing-comma pass over object 5 (entered in pending-closer state). -/
theorem rtc_obj5 (out : List Char) :
    List.foldl rtcStep (out, true) (fbObj5.toList.reverse) =
      (fbObj5.toList ++ out, false) := rfl

/-- Trailing-comma pass over a separator. -/
theorem rtc_sep (out : List Char) :
    List.foldl rtcStep (out, false) (fbSep.toList.reverse) =
      (fbSep.toList ++ out, false) := rfl

/-- Trailing-comma pass over object 4. -/
theorem rtc_obj4 (out : List Char) :
    List.foldl rtcStep (out, false) (fbObj4.toList.reverse) =
      (fbObj4.toList ++ out, false) := rfl

/-- Trailing-comma pass over object 3. -/
theorem rtc_obj3 (out : List Char) :
    List.foldl rtcStep (out, false) (fbObj3.toList.reverse) =
      (fbObj3.toList ++ out, false) := rfl

/-- Trailing-comma pass over object 2. -/
theorem rtc_obj2 (out : List Char) :
    List.foldl rtcStep (out, false) (fbObj2.toList.reverse) =
      (fbObj2.toList ++ out, false) := rfl

/-- Trailing-comma pass over object 1. -/
theorem rtc_obj1 (out : List Char) :
    List.foldl rtcStep (out, false) (fbObj1.toList.reverse) =
      (fbObj1.toList ++ out, false) := rfl

/-- Trailing-comma pass over the opening margin. -/
theorem rtc_head (out : List Char) :
    List.foldl rtcStep (out, false) ("[\n          ".toList.reverse) =
      ("[\n          ".toList ++ out, false) := rfl

/-- The trailing-comma substitution leaves the stripped fallback unchanged. -/
theorem fb_rtc : removeTrailingCommas fbStripped.toList = fbStripped.toList := by
  conv_lhs => rw [fbStripped_pieces]
  unfold removeTrailingCommas
  simp only [List.reverse_append, List.foldl_append]
  rw [rtc_tail, rtc_obj5, rtc_sep, rtc_obj4, rtc_sep, rtc_obj3, rtc_sep, rtc_obj2,
    rtc_sep, rtc_obj1, rtc_head]
  rw [fbStripped_pieces]
  simp [List.append_assoc]

/-- The scanner composes over concatenation. -/
theorem scanJson_append (a b : List Char) (st : ScanSt) :
    scanJson (a ++ b) st = scanJson b (scanJson a st) := by
  simp [scanJson, List.foldl_append]

/-- Scanner pieces over the stripped fallback text. -/
theorem scan_head :
    scanJson "[\n          ".toList ⟨false, false, []⟩ = ⟨false, false, [']']⟩ := rfl

theorem scan_obj1 :
    scanJson fbObj1.toList ⟨false, false, [']']⟩ = ⟨false, false, [']']⟩ := rfl

theorem scan_obj2 :
    scanJson fbObj2.toList ⟨false, false, [']']⟩ = ⟨false, false, [']']⟩ := rfl

theorem scan_obj3 :
    scanJson fbObj3.toList ⟨false, false, [']']⟩ = ⟨false, false, [']']⟩ := rfl

theorem scan_obj4 :
    scanJson fbObj4.toList ⟨false, false, [']']⟩ = ⟨false, false, [']']⟩ := rfl

theorem scan_obj5 :
    scanJson fbObj5.toList ⟨false, false, [']']⟩ = ⟨false, false, [']']⟩ := rfl

theorem scan_sep :
    scanJson fbSep.toList ⟨false, false, [']']⟩ = ⟨false, false, [']']⟩ := rfl

theorem scan_tail :
    scanJson "\n        ]".toList ⟨false, false, [']']⟩ = ⟨false, false, []⟩ := rfl

/-- The scanner ends balanced on the stripped fallback text. -/
theorem fb_scan :
    scanJson fbStripped.toList ⟨false, false, []⟩ = ⟨false, false, []⟩ := by
  rw [fbStripped_pieces]
  simp only [scanJson_append]
  rw [scan_head, scan_obj1, scan_sep, scan_obj2, scan_sep, scan_obj3, scan_sep,
    scan_obj4, scan_sep, scan_obj5, scan_tail]

/-- The raw fallback text is non-empty. -/
theorem fb_ne_nil : ¬ (fallback_recommendations.toList = []) := by
  rw [fallback_decomp]
  intro h
  have h2 := congrArg List.length h
  have h9 : "\n        ".toList.length = 9 := rfl
  simp [List.length_append, h9] at h2

/-- Left-stripping leaves the stripped fallback unchanged. -/
theorem fb_lstrip_id : pyLstripL fbStripped.toList = fbStripped.toList := by
  unfold pyLstripL
  rw [fbStripped_decomp]
  rfl

/-- The stripped fallback does not start with a brace. -/
theorem fb_not_brace : strStarts ['\x7b'] (pyLstripL fbStripped.toList) = false := by
  rw [fb_lstrip_id, fbStripped_decomp]
  rfl

/-- `_repair_json` returns the stripped fallback text. -/
theorem fb_repair : repair_json fallback_recommendations = some fbStripped := by
  unfold repair_json
  have hrl : repair_jsonL fallback_recommendations.toList = some fbStripped.toList := by
    simp only [repair_jsonL]
    rw [if_neg fb_ne_nil]
    rw [removeFences_id fb_noFence]
    rw [fb_strip]
    rw [fromFirstLBracket_id fb_headq]
    have hHC : hasCloser fbStripped.toList = true := by
      rw [fbStripped_snoc]; exact hasCloser_snoc _
    rw [if_pos hHC]
    have hULC : uptoLastCloser fbStripped.toList = fbStripped.toList := by
      rw [fbStripped_snoc]; exact uptoLastCloser_snoc _
    rw [hULC, fb_rtc, fb_scan]
    dsimp only
    simp only [List.append_nil]
    rw [show fbStripped.toList ++ (if (false = true) then ['"'] else []) =
      fbStripped.toList from by simp]
    rw [fb_rtc]
    rw [if_neg (show ¬ (strStarts ['\x7b'] (pyLstripL fbStripped.toList) = true ∧
        ¬ strStarts ['['] (pyLstripL fbStripped.toList) = true) from
      fun hand => by rw [fb_not_brace] at hand; exact absurd hand.1 (by simp))]
    unfold repairCheck
    rw [show pyJsonLoadsL fbStripped.toList = some (PyJson.arr fbItemsJ) from fb_loads]
  rw [hrl]
  show some (String.mk fbStripped.toList) = some fbStripped
  rfl

/-- Method 1's item loop builds the five fallback records. -/
theorem fb_m1go (env : Env) (k : Nat) :
    m1go env fbItemsJ [] k = .done (fbRecs env k) := rfl

/-- Method 1 succeeds on the fallback text with the five fallback records. -/
theorem fb_method1 (env : Env) (k : Nat) :
    method1 env fallback_recommendations [] k = .done (fbRecs env k) := by
  unfold method1
  rw [fb_repair]
  dsimp only
  rw [fb_loads]
  dsimp only
  rw [if_pos (show fbItemsJ.all PyJson.isObjB = true from rfl)]
  exact fb_m1go env k

/-- The pipeline pass on the fallback text returns the five fallback
records without advancing past method 1 (the counter, incremented five
times inside the returned records, restarts from `k` for the caller since
the pass returns before any later method runs). -/
theorem fallback_top (env : Env) (k : Nat) :
    processAux env fallback_recommendations k = (some (fbRecs env k), k) := by
  unfold processAux
  rw [fb_method1]

/-- The fallback records carry the five fallback titles. -/
theorem fbRecs_titles (env : Env) (k : Nat) :
    (fbRecs env k).map Rec.title = fallbackTitles.map PyJson.str := rfl

/-- There are five fallback records. -/
theorem fbRecs_length (env : Env) (k : Nat) : (fbRecs env k).length = 5 := rfl

/-- The first pipeline pass on the numbered-list scenario input reaches the
final fallback recursion (methods 1–6 and the unstructured branch all
decline), after one context attachment inside method 5. -/
theorem c9_aux (env : Env) : processAux env c9Input 0 = (none, 1) := rfl

/-- On the numbered-list scenario input the pipeline returns the fallback
records. -/
theorem c9_run (env : Env) :
    process_recommendations env c9Input = fbRecs env 1 := by
  unfold process_recommendations
  rw [c9_aux]
  dsimp only
  rw [fallback_top]

/-- The numbered-list strategy needs at least two numbered chunks; the
scenario input splits into exactly one. -/
theorem c9_single_chunk : (splitNumbered (pyStripL c9Input.toList)).length = 1 := rfl

/-- The shared take-five tail of methods 2–6 only declares success on a
non-empty accumulator, and then returns at most five records. -/
theorem tailMRes_done {acc2 : List Rec} {k2 : Nat} {l : List Rec}
    (h : (if acc2.isEmpty then MRes.cont acc2 k2 else .done (acc2.take 5)) = .done l) :
    l.length ≤ 5 ∧ l ≠ [] := by
  by_cases he : acc2.isEmpty = true
  · rw [if_pos he] at h; cases h
  · rw [if_neg he] at h
    injection h with h1
    subst h1
    constructor
    · rw [List.length_take]; exact Nat.min_le_left _ _
    · cases acc2 with
      | nil => simp at he
      | cons a as => simp

/-- The shared tail of methods 2–6 only continues with an empty
accumulator. -/
theorem tailMRes_cont {acc2 : List Rec} {k2 : Nat} {a : List Rec} {k' : Nat}
    (h : (if acc2.isEmpty then MRes.cont acc2 k2 else .done (acc2.take 5)) = .cont a k') :
    a = [] := by
  by_cases he : acc2.isEmpty = true
  · rw [if_pos he] at h
    injection h with h1 h2
    rw [← h1]
    simpa using he
  · rw [if_neg he] at h; cases h

/-- Method 1's loop returns at most five records, and returns the empty
list only from an empty accumulator over an empty item list. -/
theorem m1go_done {env : Env} :
    ∀ (items : List PyJson) (acc : List Rec) (k : Nat) (l : List Rec),
    m1go env items acc k = .done l →
    l.length ≤ 5 ∧ (l = [] → acc = [] ∧ items = []) := by
  intro items
  induction items with
  | nil =>
    intro acc k l h
    simp only [m1go] at h
    injection h with h1
    subst h1
    refine ⟨by rw [List.length_take]; exact Nat.min_le_left _ _, fun hl => ⟨?_, rfl⟩⟩
    cases acc with
    | nil => rfl
    | cons a as => simp at hl
  | cons it rest ih =>
    intro acc k l h
    cases it with
    | obj kvs =>
      simp only [m1go] at h
      cases hb : buildRec env k kvs with
      | mk o1 k1 =>
        rw [hb] at h
        cases o1 with
        | some r =>
          dsimp only at h
          obtain ⟨hlen, hemp⟩ := ih (acc ++ [r]) k1 l h
          exact ⟨hlen, fun hl => absurd (hemp hl).1 (by simp)⟩
        | none => dsimp only at h; cases h
    | null => simp only [m1go] at h; cases h
    | bool b => simp only [m1go] at h; cases h
    | num n => simp only [m1go] at h; cases h
    | str s => simp only [m1go] at h; cases h
    | arr ls => simp only [m1go] at h; cases h

/-- Method 1 succeeds with at most five records; an empty success happens
exactly on the empty-array parse. -/
theorem method1_done {env : Env} {t : String} {acc : List Rec} {k : Nat} {l : List Rec}
    (h : method1 env t acc k = .done l) :
    l.length ≤ 5 ∧ (l = [] → acc = [] ∧ EmptyArrayCase t) := by
  unfold method1 at h
  cases hr : repair_json t with
  | none => rw [hr] at h; cases h
  | some s =>
    rw [hr] at h
    dsimp only at h
    cases hj : pyJsonLoads s with
    | none => rw [hj] at h; cases h
    | some v =>
      rw [hj] at h
      cases v with
      | arr items =>
        dsimp only at h
        by_cases hall : items.all PyJson.isObjB = true
        · rw [if_pos hall] at h
          obtain ⟨hlen, hemp⟩ := m1go_done items acc k l h
          refine ⟨hlen, fun hl => ⟨(hemp hl).1, ?_⟩⟩
          unfold EmptyArrayCase
          rw [hr]
          dsimp only
          rw [hj, (hemp hl).2]
        · rw [if_neg hall] at h; cases h
      | null => cases h
      | bool b => cases h
      | num n => cases h
      | str s2 => cases h
      | obj kvs => cases h

/-- Method 2 succeeds only with one to five records. -/
theorem method2_done {env : Env} {t : String} {acc : List Rec} {k : Nat} {l : List Rec}
    (h : method2 env t acc k = .done l) : l.length ≤ 5 ∧ l ≠ [] := by
  simp only [method2] at h
  cases he : extract_json_array t with
  | none => rw [he] at h; cases h
  | some astr =>
    rw [he] at h
    dsimp only at h
    exact tailMRes_done h

/-- Method 3 succeeds only with one to five records. -/
theorem method3_done {env : Env} {t : String} {acc : List Rec} {k : Nat} {l : List Rec}
    (h : method3 env t acc k = .done l) : l.length ≤ 5 ∧ l ≠ [] := by
  simp only [method3] at h
  exact tailMRes_done h

/-- Method 4 succeeds only with one to five records. -/
theorem method4_done {env : Env} {t : String} {acc : List Rec} {k : Nat} {l : List Rec}
    (h : method4 env t acc k = .done l) : l.length ≤ 5 ∧ l ≠ [] := by
  simp only [method4] at h
  by_cases hg : (splitNumbered (pyStripL t.toList)).length ≤ 1
  · rw [if_pos hg] at h; cases h
  · rw [if_neg hg] at h
    exact tailMRes_done h

/-- Method 5 succeeds only with one to five records. -/
theorem method5_done {env : Env} {t : String} {acc : List Rec} {k : Nat} {l : List Rec}
    (h : method5 env t acc k = .done l) : l.length ≤ 5 ∧ l ≠ [] := by
  simp only [method5] at h
  exact tailMRes_done h

/-- Method 6 succeeds only with one to five records. -/
theorem method6_done {env : Env} {t : String} {acc : List Rec} {k : Nat} {l : List Rec}
    (h : method6 env t acc k = .done l) : l.length ≤ 5 ∧ l ≠ [] := by
  simp only [method6] at h
  by_cases hg : ((m6FindTitles t.toList).isEmpty = true) ∨ ((m6FindTitles t.toList).length > 10)
  · rw [if_pos hg] at h; cases h
  · rw [if_neg hg] at h
    exact tailMRes_done h

/-- Method 5 hands every accumulated record back as a success: when it
continues, the accumulator is empty. -/
theorem method5_cont {env : Env} {t : String} {acc : List Rec} {k : Nat}
    {a : List Rec} {k' : Nat}
    (h : method5 env t acc k = .cont a k') : a = [] := by
  simp only [method5] at h
  exact tailMRes_cont h

/-- When method 6 continues, it passes on its input accumulator or an empty
one. -/
theorem method6_cont {env : Env} {t : String} {acc : List Rec} {k : Nat}
    {a : List Rec} {k' : Nat}
    (h : method6 env t acc k = .cont a k') : a = acc ∨ a = [] := by
  simp only [method6] at h
  by_cases hg : ((m6FindTitles t.toList).isEmpty = true) ∨ ((m6FindTitles t.toList).length > 10)
  · rw [if_pos hg] at h
    injection h with h1 h2
    exact Or.inl h1.symm
  · rw [if_neg hg] at h
    exact Or.inr (tailMRes_cont h)

/-- The unstructured last resort succeeds only by appending one record to
the accumulator. -/
theorem unstructured_some {env : Env} {t : String} {acc : List Rec} {k : Nat}
    {l : List Rec} {kf : Nat}
    (h : unstructuredTail env t acc k = (some l, kf)) :
    ∃ r, l = acc ++ [r] := by
  simp only [unstructuredTail] at h
  by_cases hlen : t.length > 100
  · rw [if_pos hlen] at h
    cases hp : utParas t with
    | nil => rw [hp] at h; injection h with h1 h2; cases h1
    | cons p0 restP =>
      rw [hp] at h
      dsimp only at h
      cases ha : attach_examples_and_graph env k
          (synthDict (utTitle (pyStripL p0)) (utDescParas restP) "general" ++
            [("ai_raw_text", PyJson.str (utRaw t))]) with
      | none => rw [ha] at h; injection h with h1 h2; cases h1
      | some ctx =>
        rw [ha] at h
        dsimp only at h
        injection h with h1 h2
        injection h1 with h1
        exact ⟨_, h1.symm⟩
  · rw [if_neg hlen] at h; injection h with h1 h2; cases h1

/-- Any successful pipeline pass returns at most five records, and an empty
success forces the empty-array case. -/
theorem processAux_some {env : Env} {t : String} {k : Nat} {l : List Rec} {kf : Nat}
    (h : processAux env t k = (some l, kf)) :
    l.length ≤ 5 ∧ (l = [] → EmptyArrayCase t) := by
  unfold processAux at h
  cases hm1 : method1 env t [] k with
  | done l1 =>
    rw [hm1] at h
    dsimp only at h
    injection h with h1 h2
    injection h1 with h1
    subst h1
    obtain ⟨hb, he⟩ := method1_done hm1
    exact ⟨hb, fun hl => (he hl).2⟩
  | cont a1 k1 =>
    rw [hm1] at h
    dsimp only at h
    cases hm2 : method2 env t a1 k1 with
    | done l2 =>
      rw [hm2] at h
      dsimp only at h
      injection h with h1 h2
      injection h1 with h1
      subst h1
      obtain ⟨hb, hne⟩ := method2_done hm2
      exact ⟨hb, fun hl => absurd hl hne⟩
    | cont a2 k2 =>
      rw [hm2] at h
      dsimp only at h
      cases hm3 : method3 env t a2 k2 with
      | done l3 =>
        rw [hm3] at h
        dsimp only at h
        injection h with h1 h2
        injection h1 with h1
        subst h1
        obtain ⟨hb, hne⟩ := method3_done hm3
        exact ⟨hb, fun hl => absurd hl hne⟩
      | cont a3 k3 =>
        rw [hm3] at h
        dsimp only at h
        cases hm4 : method4 env t a3 k3 with
        | done l4 =>
          rw [hm4] at h
          dsimp only at h
          injection h with h1 h2
          injection h1 with h1
          subst h1
          obtain ⟨hb, hne⟩ := method4_done hm4
          exact ⟨hb, fun hl => absurd hl hne⟩
        | cont a4 k4 =>
          rw [hm4] at h
          dsimp only at h
          cases hm5 : method5 env t a4 k4 with
          | done l5 =>
            rw [hm5] at h
            dsimp only at h
            injection h with h1 h2
            injection h1 with h1
            subst h1
            obtain ⟨hb, hne⟩ := method5_done hm5
            exact ⟨hb, fun hl => absurd hl hne⟩
          | cont a5 k5 =>
            rw [hm5] at h
            dsimp only at h
            have ha5 : a5 = [] := method5_cont hm5
            cases hm6 : method6 env t a5 k5 with
            | done l6 =>
              rw [hm6] at h
              dsimp only at h
              injection h with h1 h2
              injection h1 with h1
              subst h1
              obtain ⟨hb, hne⟩ := method6_done hm6
              exact ⟨hb, fun hl => absurd hl hne⟩
            | cont a6 k6 =>
              rw [hm6] at h
              dsimp only at h
              have ha6 : a6 = [] := by
                rcases method6_cont hm6 with h6 | h6
                · rw [h6, ha5]
                · exact h6
              obtain ⟨r, hrq⟩ := unstructured_some h
              rw [ha6] at hrq
              constructor
              · rw [hrq]; simp
              · intro hl; rw [hrq] at hl; simp at hl

/-- In the empty-array case method 1 short-circuits with the sliced
accumulator. -/
theorem emptyArray_method1 {env : Env} {t : String} {acc : List Rec} {k : Nat}
    (h : EmptyArrayCase t) :
    method1 env t acc k = .done (acc.take 5) := by
  unfold EmptyArrayCase at h
  cases hr : repair_json t with
  | none => rw [hr] at h; cases h
  | some s =>
    rw [hr] at h
    dsimp only at h
    unfold method1
    rw [hr]
    dsimp only
    rw [h]
    dsimp only
    rw [if_pos (show (([] : List PyJson)).all PyJson.isObjB = true from rfl)]
    rfl

/-- CLAIM C1 (counterexample): on the input `"[]"` the pipeline returns the
empty list: method 1 parses the empty array, builds zero records, and
returns `recommendations[:5]` with no emptiness check and no fallback. -/
theorem c1_empty_array_cex :
    process_recommendations envA "[]" = [] ∧
    ¬ (1 ≤ (process_recommendations envA "[]").length) := by
  refine ⟨rfl, ?_⟩
  rw [show process_recommendations envA "[]" = [] from rfl]
  simp

/-- CLAIM C1 (amended): the pipeline never raises and returns at most five
records; it returns at least one record unless the repaired input parses as
the empty JSON array, in which case it returns the empty list (method 1's
`return recommendations[:5]` over zero items precedes every emptiness
check). -/
theorem c1_bounds_amended :
    ∀ (env : Env) (t : String),
    (process_recommendations env t).length ≤ 5 ∧
    (¬ EmptyArrayCase t → 1 ≤ (process_recommendations env t).length) ∧
    (EmptyArrayCase t → process_recommendations env t = []) := by
  intro env t
  by_cases hE : EmptyArrayCase t
  · have hpa : processAux env t 0 = (some [], 0) := by
      unfold processAux
      rw [emptyArray_method1 hE]
      rfl
    have hp : process_recommendations env t = [] := by
      unfold process_recommendations
      rw [hpa]
    refine ⟨?_, fun hne => absurd hE hne, fun _ => hp⟩
    rw [hp]; simp
  · unfold process_recommendations
    cases hpa : processAux env t 0 with
    | mk o kf =>
      cases o with
      | some l =>
        dsimp only
        obtain ⟨hb, hemp⟩ := processAux_some hpa
        refine ⟨hb, fun _ => ?_, fun hEE => absurd hEE hE⟩
        cases hl : l with
        | nil => exact absurd (hemp hl) hE
        | cons x xs => simp
      | none =>
        dsimp only
        rw [fallback_top]
        dsimp only
        have h5 : (fbRecs env kf).length = 5 := fbRecs_length env kf
        exact ⟨by omega, fun _ => by omega, fun hEE => absurd hEE hE⟩

/-- CLAIM C9 (counterexample): on the spec's numbered-list scenario input
the pipeline returns five records (the hard-coded fallback ones), not one
record with category `activity`. -/
theorem c9_numbered_scenario_cex :
    (process_recommendations envA c9Input).length = 5 ∧
    ¬ ((process_recommendations envA c9Input).length = 1) ∧
    (process_recommendations envA c9Input).map Rec.title =
      fallbackTitles.map PyJson.str := by
  rw [c9_run envA]
  exact ⟨rfl, by decide, rfl⟩

/-- CLAIM C9 (amended): the numbered-list strategy rejects single-item
lists (`len(numbered_items) > 1` fails), every other strategy also
declines the scenario input, and the pipeline recurses on the hard-coded
fallback text, returning its five records — whatever the run's
nondeterministic draws. -/
theorem c9_fallback_amended :
    ∀ (env : Env),
    process_recommendations env c9Input = fbRecs env 1 ∧
    (process_recommendations env c9Input).length = 5 ∧
    (process_recommendations env c9Input).map Rec.title =
      fallbackTitles.map PyJson.str ∧
    (splitNumbered (pyStripL c9Input.toList)).length = 1 := by
  intro env
  refine ⟨c9_run env, ?_, ?_, c9_single_chunk⟩
  · rw [c9_run env]; exact fbRecs_length env 1
  · rw [c9_run env]; exact fbRecs_titles env 1

set_option linter.unusedVariables false

/-- A plain character outside a string appends to any active capture. -/
theorem splitStep_plain {c : Char} (hc : plainChar c = true) (d : Int)
    (cur : Option (List Char)) :
    splitStep ⟨false, false, d, cur⟩ c =
      (⟨false, false, d, cur.map (· ++ [c])⟩, none) := by
  have h : ¬ (c = '"' ∨ c = '\x7b' ∨ c = '\x7d' ∨ c = '\\') := by
    simpa [plainChar] using hc
  have h1 : ¬ (c = '"') := fun he => h (Or.inl he)
  have h2 : ¬ (c = '\x7b') := fun he => h (Or.inr (Or.inl he))
  have h3 : ¬ (c = '\x7d') := fun he => h (Or.inr (Or.inr (Or.inl he)))
  simp [splitStep, h1, h2, h3]

theorem splitStep_quote_enter (d : Int) (cur : Option (List Char)) :
    splitStep ⟨false, false, d, cur⟩ '"' =
      (⟨true, false, d, cur.map (· ++ ['"'])⟩, none) := by
  simp [splitStep]

theorem splitStep_str_esc (c : Char) (d : Int) (cur : Option (List Char)) :
    splitStep ⟨true, true, d, cur⟩ c =
      (⟨true, false, d, cur.map (· ++ [c])⟩, none) := by
  simp [splitStep]

theorem splitStep_str_bs (d : Int) (cur : Option (List Char)) :
    splitStep ⟨true, false, d, cur⟩ '\\' =
      (⟨true, true, d, cur.map (· ++ ['\\'])⟩, none) := by
  simp [splitStep]

theorem splitStep_str_quote (d : Int) (cur : Option (List Char)) :
    splitStep ⟨true, false, d, cur⟩ '"' =
      (⟨false, false, d, cur.map (· ++ ['"'])⟩, none) := by
  simp [splitStep]

theorem splitStep_str_plain {c : Char} (h1 : ¬ (c = '\\')) (h2 : ¬ (c = '"'))
    (d : Int) (cur : Option (List Char)) :
    splitStep ⟨true, false, d, cur⟩ c =
      (⟨true, false, d, cur.map (· ++ [c])⟩, none) := by
  simp [splitStep, h1, h2]

theorem splitStep_lbrace0 (cur : Option (List Char)) :
    splitStep ⟨false, false, 0, cur⟩ '\x7b' =
      (⟨false, false, 1, some ['\x7b']⟩, none) := by
  simp [splitStep]

theorem splitStep_lbrace_pos {d : Int} (hd : ¬ (d = 0)) (cur : Option (List Char)) :
    splitStep ⟨false, false, d, cur⟩ '\x7b' =
      (⟨false, false, d + 1, cur.map (· ++ ['\x7b'])⟩, none) := by
  simp [splitStep, hd]

theorem splitStep_rbrace_emit {d : Int} (hd : d - 1 = 0) (cur : List Char) :
    splitStep ⟨false, false, d, some cur⟩ '\x7d' =
      (⟨false, false, d - 1, none⟩, some (cur ++ ['\x7d'])) := by
  simp [splitStep, hd]

theorem splitStep_rbrace_desc {d : Int} (hd : ¬ (d - 1 = 0)) (cur : Option (List Char)) :
    splitStep ⟨false, false, d, cur⟩ '\x7d' =
      (⟨false, false, d - 1, cur.map (· ++ ['\x7d'])⟩, none) := by
  simp [splitStep, hd]

/-- Transport of the splitter across plain characters under a capture. -/
theorem splitGo_plain :
    ∀ (q : List Char), (∀ c ∈ q, plainChar c = true) →
    ∀ (x : List Char) (d : Int) (cur : List Char) (acc : List (List Char)),
    splitGo (q ++ x) ⟨false, false, d, some cur⟩ acc =
    splitGo x ⟨false, false, d, some (cur ++ q)⟩ acc := by
  intro q
  induction q with
  | nil => intro _ x d cur acc; simp
  | cons c cs ih =>
    intro hq x d cur acc
    rw [List.cons_append]
    show splitGo (c :: (cs ++ x)) _ _ = _
    rw [splitGo, splitStep_plain (hq c (by simp))]
    dsimp only
    simp only [Option.map_some']
    rw [ih (fun c2 hc2 => hq c2 (by simp [hc2])) x d (cur ++ [c]) acc]
    simp

/-- Transport of the splitter across plain characters at depth zero with no
capture. -/
theorem splitGo_plain0 :
    ∀ (q : List Char), (∀ c ∈ q, plainChar c = true) →
    ∀ (x : List Char) (acc : List (List Char)),
    splitGo (q ++ x) ⟨false, false, 0, none⟩ acc =
    splitGo x ⟨false, false, 0, none⟩ acc := by
  intro q
  induction q with
  | nil => intro _ x acc; simp
  | cons c cs ih =>
    intro hq x acc
    rw [List.cons_append]
    show splitGo (c :: (cs ++ x)) _ _ = _
    rw [splitGo, splitStep_plain (hq c (by simp))]
    dsimp only
    simp only [Option.map_none']
    exact ih (fun c2 hc2 => hq c2 (by simp [hc2])) x acc

/-- Hex digits are neither backslash nor quote. -/
theorem hexVal_ne {c : Char} {a : Nat} (h : hexVal c = some a) :
    (¬ (c = '\\')) ∧ (¬ (c = '"')) := by
  constructor <;> intro he <;> subst he <;> simp [hexVal] at h

/-- A parsed string body: the consumed span replays in front of anything and
transports the splitter through the in-string state. -/
theorem strBody_main :
    ∀ (acc : List Char) (rest : List Char) (s : String) (r1 : List Char),
    parseStrBody acc rest = some (s, r1) →
    ∃ q, rest = q ++ r1 ∧
      (∀ x, parseStrBody acc (q ++ x) = some (s, x)) ∧
      (∀ (x : List Char) (d : Int) (cur : List Char) (acc2 : List (List Char)),
        splitGo (q ++ x) ⟨true, false, d, some cur⟩ acc2 =
        splitGo x ⟨false, false, d, some (cur ++ q)⟩ acc2) := by
  intro acc rest
  induction acc, rest using parseStrBody.induct
  case case1 =>
    intro s r1 h
    cases h
  case case2 =>
    intro s r1 h
    simp only [parseStrBody] at h
    injection h with h1
    injection h1 with hs hr
    subst hs; subst hr
    refine ⟨['"'], rfl, fun x => rfl, fun x d cur acc2 => ?_⟩
    show splitGo ('"' :: x) _ _ = _
    rw [splitGo, splitStep_str_quote]
    dsimp only
    simp only [Option.map_some']
  case case3 =>
    intro s r1 h
    cases h
  case case4 h1c h2c h3c h4c rest2 a b c d hx4 hx3 hx2 hx1 ih1 =>
    intro s r1 h
    simp only [parseStrBody, hx1, hx2, hx3, hx4] at h
    obtain ⟨q', hqe, hrep, htr⟩ := ih1 _ _ h
    refine ⟨'\\' :: 'u' :: h1c :: h2c :: h3c :: h4c :: q', by simp [hqe],
      fun x => ?_, fun x d2 cur acc2 => ?_⟩
    · show parseStrBody _ ('\\' :: 'u' :: h1c :: h2c :: h3c :: h4c :: (q' ++ x)) = _
      simp only [parseStrBody, hx1, hx2, hx3, hx4]
      exact hrep x
    · show splitGo ('\\' :: 'u' :: h1c :: h2c :: h3c :: h4c :: (q' ++ x)) _ _ = _
      rw [splitGo, splitStep_str_bs]
      dsimp only
      simp only [Option.map_some']
      rw [splitGo, splitStep_str_esc]
      dsimp only
      simp only [Option.map_some']
      rw [splitGo, splitStep_str_plain (hexVal_ne hx1).1 (hexVal_ne hx1).2]
      dsimp only
      simp only [Option.map_some']
      rw [splitGo, splitStep_str_plain (hexVal_ne hx2).1 (hexVal_ne hx2).2]
      dsimp only
      simp only [Option.map_some']
      rw [splitGo, splitStep_str_plain (hexVal_ne hx3).1 (hexVal_ne hx3).2]
      dsimp only
      simp only [Option.map_some']
      rw [splitGo, splitStep_str_plain (hexVal_ne hx4).1 (hexVal_ne hx4).2]
      dsimp only
      simp only [Option.map_some']
      rw [htr]
      simp [List.append_assoc]
  case case5 h1c h2c h3c h4c rest2 hfail =>
    intro s r1 h
    cases hx1 : hexVal h1c with
    | none => simp only [parseStrBody, hx1] at h; exact Option.noConfusion h
    | some a =>
      cases hx2 : hexVal h2c with
      | none => simp only [parseStrBody, hx1, hx2] at h; exact Option.noConfusion h
      | some b =>
        cases hx3 : hexVal h3c with
        | none => simp only [parseStrBody, hx1, hx2, hx3] at h; exact Option.noConfusion h
        | some c =>
          cases hx4 : hexVal h4c with
          | none => simp only [parseStrBody, hx1, hx2, hx3, hx4] at h; exact Option.noConfusion h
          | some d => exact absurd (hfail a b c d hx1 hx2 hx3 hx4) (fun f => f)
  case case6 rest2 hu ih1 =>
    intro s r1 h
    simp only [parseStrBody] at h
    obtain ⟨q', hqe, hrep, htr⟩ := ih1 _ _ h
    refine ⟨'\\' :: '\"' :: q', by simp [hqe], fun x => ?_, fun x d cur acc2 => ?_⟩
    · show parseStrBody _ ('\\' :: '\"' :: (q' ++ x)) = _
      simp only [parseStrBody]
      exact hrep x
    · show splitGo ('\\' :: '\"' :: (q' ++ x)) _ _ = _
      rw [splitGo, splitStep_str_bs]
      dsimp only
      simp only [Option.map_some']
      rw [splitGo, splitStep_str_esc]
      dsimp only
      simp only [Option.map_some']
      rw [htr]
      simp [List.append_assoc]
  case case7 rest2 hu ih1 =>
    intro s r1 h
    simp only [parseStrBody] at h
    obtain ⟨q', hqe, hrep, htr⟩ := ih1 _ _ h
    refine ⟨'\\' :: '\\' :: q', by simp [hqe], fun x => ?_, fun x d cur acc2 => ?_⟩
    · show parseStrBody _ ('\\' :: '\\' :: (q' ++ x)) = _
      simp only [parseStrBody]
      exact hrep x
    · show splitGo ('\\' :: '\\' :: (q' ++ x)) _ _ = _
      rw [splitGo, splitStep_str_bs]
      dsimp only
      simp only [Option.map_some']
      rw [splitGo, splitStep_str_esc]
      dsimp only
      simp only [Option.map_some']
      rw [htr]
      simp [List.append_assoc]
  case case8 rest2 hu ih1 =>
    intro s r1 h
    simp only [parseStrBody] at h
    obtain ⟨q', hqe, hrep, htr⟩ := ih1 _ _ h
    refine ⟨'\\' :: '/' :: q', by simp [hqe], fun x => ?_, fun x d cur acc2 => ?_⟩
    · show parseStrBody _ ('\\' :: '/' :: (q' ++ x)) = _
      simp only [parseStrBody]
      exact hrep x
    · show splitGo ('\\' :: '/' :: (q' ++ x)) _ _ = _
      rw [splitGo, splitStep_str_bs]
      dsimp only
      simp only [Option.map_some']
      rw [splitGo, splitStep_str_esc]
      dsimp only
      simp only [Option.map_some']
      rw [htr]
      simp [List.append_assoc]
  case case9 rest2 hu ih1 =>
    intro s r1 h
    simp only [parseStrBody] at h
    obtain ⟨q', hqe, hrep, htr⟩ := ih1 _ _ h
    refine ⟨'\\' :: 'b' :: q', by simp [hqe], fun x => ?_, fun x d cur acc2 => ?_⟩
    · show parseStrBody _ ('\\' :: 'b' :: (q' ++ x)) = _
      simp only [parseStrBody]
      exact hrep x
    · show splitGo ('\\' :: 'b' :: (q' ++ x)) _ _ = _
      rw [splitGo, splitStep_str_bs]
      dsimp only
      simp only [Option.map_some']
      rw [splitGo, splitStep_str_esc]
      dsimp only
      simp only [Option.map_some']
      rw [htr]
      simp [List.append_assoc]
  case case10 rest2 hu ih1 =>
    intro s r1 h
    simp only [parseStrBody] at h
    obtain ⟨q', hqe, hrep, htr⟩ := ih1 _ _ h
    refine ⟨'\\' :: 'f' :: q', by simp [hqe], fun x => ?_, fun x d cur acc2 => ?_⟩
    · show parseStrBody _ ('\\' :: 'f' :: (q' ++ x)) = _
      simp only [parseStrBody]
      exact hrep x
    · show splitGo ('\\' :: 'f' :: (q' ++ x)) _ _ = _
      rw [splitGo, splitStep_str_bs]
      dsimp only
      simp only [Option.map_some']
      rw [splitGo, splitStep_str_esc]
      dsimp only
      simp only [Option.map_some']
      rw [htr]
      simp [List.append_assoc]
  case case11 rest2 hu ih1 =>
    intro s r1 h
    simp only [parseStrBody] at h
    obtain ⟨q', hqe, hrep, htr⟩ := ih1 _ _ h
    refine ⟨'\\' :: 'n' :: q', by simp [hqe], fun x => ?_, fun x d cur acc2 => ?_⟩
    · show parseStrBody _ ('\\' :: 'n' :: (q' ++ x)) = _
      simp only [parseStrBody]
      exact hrep x
    · show splitGo ('\\' :: 'n' :: (q' ++ x)) _ _ = _
      rw [splitGo, splitStep_str_bs]
      dsimp only
      simp only [Option.map_some']
      rw [splitGo, splitStep_str_esc]
      dsimp only
      simp only [Option.map_some']
      rw [htr]
      simp [List.append_assoc]
  case case12 rest2 hu ih1 =>
    intro s r1 h
    simp only [parseStrBody] at h
    obtain ⟨q', hqe, hrep, htr⟩ := ih1 _ _ h
    refine ⟨'\\' :: 'r' :: q', by simp [hqe], fun x => ?_, fun x d cur acc2 => ?_⟩
    · show parseStrBody _ ('\\' :: 'r' :: (q' ++ x)) = _
      simp only [parseStrBody]
      exact hrep x
    · show splitGo ('\\' :: 'r' :: (q' ++ x)) _ _ = _
      rw [splitGo, splitStep_str_bs]
      dsimp only
      simp only [Option.map_some']
      rw [splitGo, splitStep_str_esc]
      dsimp only
      simp only [Option.map_some']
      rw [htr]
      simp [List.append_assoc]
  case case13 rest2 hu ih1 =>
    intro s r1 h
    simp only [parseStrBody] at h
    obtain ⟨q', hqe, hrep, htr⟩ := ih1 _ _ h
    refine ⟨'\\' :: 't' :: q', by simp [hqe], fun x => ?_, fun x d cur acc2 => ?_⟩
    · show parseStrBody _ ('\\' :: 't' :: (q' ++ x)) = _
      simp only [parseStrBody]
      exact hrep x
    · show splitGo ('\\' :: 't' :: (q' ++ x)) _ _ = _
      rw [splitGo, splitStep_str_bs]
      dsimp only
      simp only [Option.map_some']
      rw [splitGo, splitStep_str_esc]
      dsimp only
      simp only [Option.map_some']
      rw [htr]
      simp [List.append_assoc]
  case case14 e rest2 hu hq hbs hsl hb hf hn hr ht =>
    intro s r1 h
    simp only [parseStrBody, hu, hq, hbs, hsl, hb, hf, hn, hr, ht] at h
    exact Option.noConfusion h
  case case15 c rest hq hbs hlt =>
    intro s r1 h
    simp only [parseStrBody, hq, hbs] at h
    rw [if_pos hlt] at h
    exact Option.noConfusion h
  case case16 c rest hq hbs hlt ih1 =>
    intro s r1 h
    simp only [parseStrBody, hq, hbs] at h
    rw [if_neg hlt] at h
    obtain ⟨q', hqe, hrep, htr⟩ := ih1 _ _ h
    refine ⟨c :: q', by simp [hqe], fun x => ?_, fun x d cur acc2 => ?_⟩
    · show parseStrBody _ (c :: (q' ++ x)) = _
      simp only [parseStrBody, hq, hbs]
      rw [if_neg hlt]
      exact hrep x
    · show splitGo (c :: (q' ++ x)) _ _ = _
      rw [splitGo, splitStep_str_plain (fun he => hbs he) (fun he => hq he)]
      dsimp only
      simp only [Option.map_some']
      rw [htr]
      simp [List.append_assoc]

/-- JSON whitespace is a plain character for the splitter. -/
theorem jsonWs_plain {c : Char} (h : jsonWs c = true) : plainChar c = true := by
  simp only [jsonWs, decide_eq_true_eq] at h
  simp only [plainChar, decide_eq_true_eq]
  rcases h with rfl | rfl | rfl | rfl <;> decide

/-- JSON whitespace cannot extend a number token. -/
theorem jsonWs_not_numExt {c : Char} (h : jsonWs c = true) : numExt c = false := by
  simp only [jsonWs, decide_eq_true_eq] at h
  rcases h with rfl | rfl | rfl | rfl <;> decide

/-- JSON whitespace is Python `strip` whitespace. -/
theorem jsonWs_pyWs {c : Char} (h : jsonWs c = true) : pyWs c = true := by
  simp only [jsonWs, decide_eq_true_eq] at h
  simp only [pyWs, decide_eq_true_eq]
  rcases h with rfl | rfl | rfl | rfl <;> simp

/-- A digit is a plain character. -/
theorem isDig_plain {c : Char} (h : isDig c = true) : plainChar c = true := by
  simp only [plainChar, decide_eq_true_eq]
  rintro (rfl | rfl | rfl | rfl) <;> exact absurd h (by decide)

/-- A digit is not JSON whitespace. -/
theorem isDig_not_ws {c : Char} (h : isDig c = true) : jsonWs c = false := by
  simp only [jsonWs, decide_eq_false_iff_not, decide_eq_true_eq]
  rintro (rfl | rfl | rfl | rfl) <;> exact absurd h (by decide)

/-- A digit differs from any non-digit. -/
theorem isDig_ne_of {c d : Char} (h : isDig c = true) (hd : isDig d = false) :
    (c = d) = false := by
  by_cases he : c = d
  · subst he; simp [h] at hd
  · simp [he]

/-- A non-digit differs from any digit. -/
theorem ne_isDig {c d : Char} (h : isDig c = true) (hd : isDig d = false) :
    (d = c) = false := by
  by_cases he : d = c
  · subst he; simp [h] at hd
  · simp [he]

/-- Decomposition of a whitespace skip. -/
theorem skipWs_decomp : ∀ (cs r : List Char), skipWs cs = r →
    ∃ w, cs = w ++ r ∧ ∀ c ∈ w, jsonWs c = true := by
  intro cs
  induction cs with
  | nil =>
    intro r h
    simp only [skipWs] at h
    exact ⟨[], by simp [h.symm], by simp⟩
  | cons c cs ih =>
    intro r h
    simp only [skipWs] at h
    by_cases hc : jsonWs c
    · rw [if_pos hc] at h
      obtain ⟨w, hw1, hw2⟩ := ih r h
      refine ⟨c :: w, by simp [hw1], ?_⟩
      intro a ha
      rcases List.mem_cons.mp ha with rfl | ha
      · exact hc
      · exact hw2 a ha
    · rw [if_neg hc] at h
      exact ⟨[], by simp [h.symm], by simp⟩

/-- Replay of a whitespace skip in front of a non-whitespace head. -/
theorem skipWs_append {w : List Char} (hw : ∀ c ∈ w, jsonWs c = true)
    {c : Char} (hc : jsonWs c = false) (y : List Char) :
    skipWs (w ++ c :: y) = c :: y := by
  induction w with
  | nil => simp [skipWs, hc]
  | cons a w ih =>
    rw [List.cons_append, skipWs, if_pos (hw a (by simp))]
    exact ih (fun b hb => hw b (by simp [hb]))

/-- Decomposition of a successful prefix test. -/
theorem strStarts_decomp : ∀ (k cs : List Char), strStarts k cs = true →
    cs = k ++ cs.drop k.length := by
  intro k
  induction k with
  | nil => intro cs _; simp
  | cons p ps ih =>
    intro cs h
    cases cs with
    | nil => simp [strStarts] at h
    | cons c cs' =>
      simp only [strStarts, Bool.and_eq_true, decide_eq_true_eq] at h
      obtain ⟨rfl, h2⟩ := h
      simpa using congrArg (p :: ·) (ih cs' h2)

/-- Decomposition of a digit run. -/
theorem takeDigits_decomp : ∀ (cs ds r : List Char), takeDigits cs = (ds, r) →
    cs = ds ++ r ∧ ∀ c ∈ ds, isDig c = true := by
  intro cs
  induction cs with
  | nil =>
    intro ds r h
    simp only [takeDigits] at h
    cases h
    simp
  | cons c cs ih =>
    intro ds r h
    simp only [takeDigits] at h
    by_cases hc : isDig c
    · rw [if_pos hc] at h
      cases ht : takeDigits cs with
      | mk ds' r' =>
        rw [ht] at h
        dsimp only at h
        cases h
        obtain ⟨hcs, hall⟩ := ih _ _ ht
        refine ⟨by simp [hcs], ?_⟩
        intro a ha
        rcases List.mem_cons.mp ha with rfl | ha
        · exact hc
        · exact hall a ha
    · rw [if_neg hc] at h
      cases h
      simp

/-- Replay of a digit run in front of a non-digit head. -/
theorem takeDigits_replay : ∀ (ds : List Char), (∀ c ∈ ds, isDig c = true) →
    ∀ (x : List Char), (∀ c t, x = c :: t → isDig c = false) →
    takeDigits (ds ++ x) = (ds, x) := by
  intro ds
  induction ds with
  | nil =>
    intro _ x hx
    cases x with
    | nil => rfl
    | cons c t =>
      rw [List.nil_append, takeDigits, if_neg (by simp [hx c t rfl])]
  | cons d ds ih =>
    intro hds x hx
    rw [List.cons_append, takeDigits, if_pos (hds d (by simp)),
      ih (fun c hc => hds c (by simp [hc])) x hx]

/-- Decomposition and replay of the integer part of a number token. -/
theorem parseIntPart_main : ∀ (cs ids r : List Char), parseIntPart cs = some (ids, r) →
    cs = ids ++ r ∧ ids ≠ [] ∧ (∀ c ∈ ids, isDig c = true) ∧
    (∀ x, (∀ c t, x = c :: t → isDig c = false) → parseIntPart (ids ++ x) = some (ids, x)) := by
  intro cs ids r h
  cases cs with
  | nil => simp [parseIntPart] at h
  | cons c cs' =>
    simp only [parseIntPart] at h
    by_cases hc0 : c = '0'
    · rw [if_pos hc0] at h
      cases h
      subst hc0
      refine ⟨rfl, by simp, by decide, ?_⟩
      intro x _
      rw [List.cons_append, List.nil_append, parseIntPart, if_pos rfl]
    · rw [if_neg hc0] at h
      by_cases hcd : isDig c
      · rw [if_pos hcd] at h
        cases ht : takeDigits cs' with
        | mk ds' r' =>
          rw [ht] at h
          dsimp only at h
          cases h
          obtain ⟨hcs, hall⟩ := takeDigits_decomp _ _ _ ht
          have hmem : ∀ a ∈ c :: ds', isDig a = true := by
            intro a ha
            rcases List.mem_cons.mp ha with rfl | ha
            · exact hcd
            · exact hall a ha
          refine ⟨by simp [hcs], by simp, hmem, ?_⟩
          intro x hx
          rw [List.cons_append, parseIntPart, if_neg hc0, if_pos hcd,
            takeDigits_replay ds' hall x hx]
      · rw [if_neg hcd] at h
        exact Option.noConfusion h

/-- A fraction part is only consumed after a dot. -/
theorem parseFracPart_nodot : ∀ (y : List Char),
    (∀ c t, y = c :: t → (c = '.') = false) → parseFracPart y = ([], y) := by
  intro y hy
  cases y with
  | nil => rfl
  | cons c t =>
    cases t with
    | nil =>
      simp only [parseFracPart]
    | cons c2 t2 =>
      simp only [parseFracPart]
      split
      · next heq =>
        rw [show c = '.' from by injection heq] at hy
        simp at hy
      · rfl

/-- Decomposition and replay of the fraction part of a number token. -/
theorem parseFracPart_main : ∀ (cs fds r : List Char), parseFracPart cs = (fds, r) →
    (fds = [] ∧ r = cs) ∨
    (cs = '.' :: fds ++ r ∧ fds ≠ [] ∧ (∀ c ∈ fds, isDig c = true) ∧
     ∀ x, (∀ c t, x = c :: t → isDig c = false) →
       parseFracPart ('.' :: fds ++ x) = (fds, x)) := by
  intro cs fds r h
  rcases cs with _ | ⟨c1, cs2⟩
  · simp only [parseFracPart] at h
    cases h
    exact Or.inl ⟨rfl, rfl⟩
  rcases cs2 with _ | ⟨c2, cs3⟩
  · simp only [parseFracPart] at h
    cases h
    exact Or.inl ⟨rfl, rfl⟩
  by_cases hc1 : c1 = '.'
  · subst hc1
    simp only [parseFracPart] at h
    by_cases hd : isDig c2
    · rw [if_pos hd] at h
      cases ht : takeDigits cs3 with
      | mk ds' r' =>
        rw [ht] at h
        dsimp only at h
        cases h
        obtain ⟨hcs, hall⟩ := takeDigits_decomp _ _ _ ht
        have hmem : ∀ a ∈ c2 :: ds', isDig a = true := by
          intro a ha
          rcases List.mem_cons.mp ha with rfl | ha
          · exact hd
          · exact hall a ha
        refine Or.inr ⟨by simp [hcs], by simp, hmem, ?_⟩
        intro x hx
        show parseFracPart ('.' :: c2 :: (ds' ++ x)) = _
        simp only [parseFracPart]
        rw [if_pos hd, takeDigits_replay ds' hall x hx]
    · rw [if_neg hd] at h
      cases h
      exact Or.inl ⟨rfl, rfl⟩
  · simp only [parseFracPart] at h
    revert h
    split
    · next heq =>
      exact absurd (show c1 = '.' from by injection heq) hc1
    · intro h; cases h; exact Or.inl ⟨rfl, rfl⟩

/-- An exponent part is only consumed after an exponent letter. -/
theorem parseExpPart_noe : ∀ (y : List Char),
    (∀ c t, y = c :: t → (c = 'e') = false ∧ (c = 'E') = false) →
    parseExpPart y = (none, y) := by
  intro y hy
  cases y with
  | nil => rfl
  | cons c t =>
    simp only [parseExpPart]
    rw [if_neg]
    rintro (h | h)
    · exact absurd ((hy c t rfl).1 ▸ (show (c = 'e') = true from by simp [h])) (by simp)
    · exact absurd ((hy c t rfl).2 ▸ (show (c = 'E') = true from by simp [h])) (by simp)

/-- Decomposition and replay of the exponent part of a number token. -/
theorem parseExpPart_main : ∀ (cs : List Char) (ex : Option (Bool × List Char)) (r : List Char),
    parseExpPart cs = (ex, r) →
    (ex = none ∧ r = cs) ∨
    (∃ es, cs = es ++ r ∧
      (∃ c t, es = c :: t ∧ (c = 'e' ∨ c = 'E')) ∧
      (∀ c ∈ es, plainChar c = true) ∧
      ∀ x, (∀ c t, x = c :: t → isDig c = false) → parseExpPart (es ++ x) = (ex, x)) := by
  intro cs ex r h
  rcases cs with _ | ⟨e, rest⟩
  · simp only [parseExpPart] at h
    cases h
    exact Or.inl ⟨rfl, rfl⟩
  by_cases he : e = 'e' ∨ e = 'E'
  · simp only [parseExpPart] at h
    rw [if_pos he] at h
    split at h
    · next junk c tl =>
      by_cases hd : isDig c
      · rw [if_pos hd] at h
        cases ht : takeDigits tl with
        | mk ds' r' =>
          rw [ht] at h
          dsimp only at h
          cases h
          obtain ⟨hrr, hall⟩ := takeDigits_decomp _ _ _ ht
          refine Or.inr ⟨e :: '-' :: c :: ds', by simp [hrr], ⟨e, _, rfl, he⟩, ?_, ?_⟩
          · intro a ha
            simp only [List.mem_cons] at ha
            rcases ha with rfl | rfl | rfl | ha
            · rcases he with rfl | rfl <;> decide
            · decide
            · exact isDig_plain hd
            · exact isDig_plain (hall a ha)
          · intro x hx
            show parseExpPart (e :: '-' :: c :: (ds' ++ x)) = _
            simp only [parseExpPart]
            rw [if_pos he]
            rw [if_pos hd, takeDigits_replay ds' hall x hx]
      · rw [if_neg hd] at h
        cases h
        exact Or.inl ⟨rfl, rfl⟩
    · next junk c tl =>
      by_cases hd : isDig c
      · rw [if_pos hd] at h
        cases ht : takeDigits tl with
        | mk ds' r' =>
          rw [ht] at h
          dsimp only at h
          cases h
          obtain ⟨hrr, hall⟩ := takeDigits_decomp _ _ _ ht
          refine Or.inr ⟨e :: '+' :: c :: ds', by simp [hrr], ⟨e, _, rfl, he⟩, ?_, ?_⟩
          · intro a ha
            simp only [List.mem_cons] at ha
            rcases ha with rfl | rfl | rfl | ha
            · rcases he with rfl | rfl <;> decide
            · decide
            · exact isDig_plain hd
            · exact isDig_plain (hall a ha)
          · intro x hx
            show parseExpPart (e :: '+' :: c :: (ds' ++ x)) = _
            simp only [parseExpPart]
            rw [if_pos he]
            rw [if_pos hd, takeDigits_replay ds' hall x hx]
      · rw [if_neg hd] at h
        cases h
        exact Or.inl ⟨rfl, rfl⟩
    · next rest0 c tl hn1 hn2 =>
      by_cases hd : isDig c
      · rw [if_pos hd] at h
        cases ht : takeDigits tl with
        | mk ds' r' =>
          rw [ht] at h
          dsimp only at h
          cases h
          obtain ⟨hrr, hall⟩ := takeDigits_decomp _ _ _ ht
          refine Or.inr ⟨e :: c :: ds', by simp [hrr], ⟨e, _, rfl, he⟩, ?_, ?_⟩
          · intro a ha
            simp only [List.mem_cons] at ha
            rcases ha with rfl | rfl | ha
            · rcases he with rfl | rfl <;> decide
            · exact isDig_plain hd
            · exact isDig_plain (hall a ha)
          · intro x hx
            show parseExpPart (e :: c :: (ds' ++ x)) = _
            simp only [parseExpPart]
            rw [if_pos he]
            split
            · next cA tA heqA =>
              have hceq : c = '-' := by injection heqA with i1 i2; try exact i1
              rw [hceq] at hd
              exact absurd hd (by decide)
            · next cA tA heqA =>
              have hceq : c = '+' := by injection heqA with i1 i2; try exact i1
              rw [hceq] at hd
              exact absurd hd (by decide)
            · next cA tA heqA =>
              injection heqA with i1 i2
              rw [← i1, ← i2, if_pos hd, takeDigits_replay ds' hall x hx]
            · next heqA => exact absurd heqA (by simp)
      · rw [if_neg hd] at h
        cases h
        exact Or.inl ⟨rfl, rfl⟩
    · next heq =>
      cases h
      exact Or.inl ⟨rfl, rfl⟩
  · simp only [parseExpPart] at h
    rw [if_neg he] at h
    cases h
    exact Or.inl ⟨rfl, rfl⟩

/-- Splitting a non-extending character into the individual exclusions. -/
theorem numExt_split {c : Char} (h : numExt c = false) :
    isDig c = false ∧ (c = '.') = false ∧ (c = 'e') = false ∧ (c = 'E') = false := by
  simp only [numExt, Bool.or_eq_false_iff] at h
  obtain ⟨⟨⟨h1, h2⟩, h3⟩, h4⟩ := h
  refine ⟨h1, ?_, ?_, ?_⟩
  · by_cases hc : c = '.'
    · subst hc; simp at h2
    · simp [hc]
  · by_cases hc : c = 'e'
    · subst hc; simp at h3
    · simp [hc]
  · by_cases hc : c = 'E'
    · subst hc; simp at h4
    · simp [hc]

/-- A head-safe continuation does not start with a digit. -/
theorem headSafe_not_dig {x : List Char} (hx : HeadSafe x) :
    ∀ c t, x = c :: t → isDig c = false := by
  intro c t he
  rcases hx with rfl | ⟨c', t', rfl, hc'⟩
  · exact absurd he (by simp)
  · injection he with i1 _
    exact i1 ▸ (numExt_split hc').1

/-- A head-safe continuation does not start with a dot. -/
theorem headSafe_not_dot {x : List Char} (hx : HeadSafe x) :
    ∀ c t, x = c :: t → (c = '.') = false := by
  intro c t he
  rcases hx with rfl | ⟨c', t', rfl, hc'⟩
  · exact absurd he (by simp)
  · injection he with i1 _
    exact i1 ▸ (numExt_split hc').2.1

/-- A head-safe continuation does not start with an exponent letter. -/
theorem headSafe_not_e {x : List Char} (hx : HeadSafe x) :
    ∀ c t, x = c :: t → (c = 'e') = false ∧ (c = 'E') = false := by
  intro c t he
  rcases hx with rfl | ⟨c', t', rfl, hc'⟩
  · exact absurd he (by simp)
  · injection he with i1 _
    exact ⟨i1 ▸ (numExt_split hc').2.2.1, i1 ▸ (numExt_split hc').2.2.2⟩

/-- The exponent-letter alternative rules out a digit head. -/
theorem expHead_not_dig {c : Char} (h : c = 'e' ∨ c = 'E') : isDig c = false := by
  rcases h with rfl | rfl <;> decide

/-- Plain characters are preserved by concatenation. -/
theorem mem_plain_append {p q : List Char} (hp : ∀ c ∈ p, plainChar c = true)
    (hq : ∀ c ∈ q, plainChar c = true) : ∀ c ∈ p ++ q, plainChar c = true := by
  intro c hc
  rcases List.mem_append.mp hc with h | h
  · exact hp c h
  · exact hq c h

/-- Decomposition and replay of the unsigned part of a number token. -/
theorem parseNum_core : ∀ (cs1 ids cs2 : List Char),
    parseIntPart cs1 = some (ids, cs2) →
    ∀ (fds cs3 : List Char), parseFracPart cs2 = (fds, cs3) →
    ∀ (ex : Option (Bool × List Char)) (cs4 : List Char), parseExpPart cs3 = (ex, cs4) →
    ∃ q, cs1 = q ++ cs4 ∧
      (∃ c t, q = c :: t ∧ isDig c = true) ∧
      (∀ c ∈ q, plainChar c = true) ∧
      (∀ x, HeadSafe x →
        ∃ cs2x cs3x,
          parseIntPart (q ++ x) = some (ids, cs2x) ∧
          parseFracPart cs2x = (fds, cs3x) ∧
          parseExpPart cs3x = (ex, x)) := by
  intro cs1 ids cs2 hip fds cs3 hfp ex cs4 hep
  obtain ⟨hdec1, hne, hdig, hrepI⟩ := parseIntPart_main _ _ _ hip
  rcases ids with _ | ⟨i0, it⟩
  · exact absurd rfl hne
  have hi0 : isDig i0 = true := hdig i0 (by simp)
  rcases parseFracPart_main _ _ _ hfp with ⟨rfl, h3⟩ | ⟨hcs2, hfne, hfdig, hrepF⟩
  · subst h3
    rcases parseExpPart_main _ _ _ hep with ⟨rfl, h4⟩ | ⟨es, hcs3, ⟨e0, et, rfl, heE⟩, hesplain, hrepE⟩
    · subst h4
      refine ⟨i0 :: it, hdec1, ⟨i0, it, rfl, hi0⟩, fun c hc => isDig_plain (hdig c hc), ?_⟩
      intro x hx
      refine ⟨x, x, hrepI x (headSafe_not_dig hx), ?_, ?_⟩
      · exact parseFracPart_nodot x (headSafe_not_dot hx)
      · exact parseExpPart_noe x (fun c t ht => headSafe_not_e hx c t ht)
    · refine ⟨(i0 :: it) ++ (e0 :: et), by simp [hdec1, hcs3], ⟨i0, _, rfl, hi0⟩, ?_, ?_⟩
      · show ∀ c ∈ (i0 :: it) ++ (e0 :: et), plainChar c = true
        exact mem_plain_append (fun c hc => isDig_plain (hdig c hc)) hesplain
      · intro x hx
        refine ⟨(e0 :: et) ++ x, (e0 :: et) ++ x, ?_, ?_, ?_⟩
        · rw [List.append_assoc]
          exact hrepI ((e0 :: et) ++ x) (fun c t ht => by injection ht with i1 _; exact i1 ▸ expHead_not_dig heE)
        · refine parseFracPart_nodot ((e0 :: et) ++ x) (fun c t ht => ?_)
          injection ht with i1 _
          subst i1
          rcases heE with rfl | rfl <;> simp
        · exact hrepE x (headSafe_not_dig hx)
  · rcases parseExpPart_main _ _ _ hep with ⟨rfl, h4⟩ | ⟨es, hcs3, ⟨e0, et, rfl, heE⟩, hesplain, hrepE⟩
    · subst h4
      refine ⟨(i0 :: it) ++ '.' :: fds, by simp [hdec1, hcs2], ⟨i0, _, rfl, hi0⟩, ?_, ?_⟩
      · show ∀ c ∈ (i0 :: it) ++ ('.' :: fds), plainChar c = true
        refine mem_plain_append (fun c hc => isDig_plain (hdig c hc)) ?_
        intro c hc
        rcases List.mem_cons.mp hc with rfl | hc
        · decide
        · exact isDig_plain (hfdig c hc)
      · intro x hx
        refine ⟨'.' :: fds ++ x, x, ?_, ?_, ?_⟩
        · rw [List.append_assoc]
          exact hrepI ('.' :: fds ++ x) (fun c t ht => by injection ht with i1 _; exact i1 ▸ (by decide : isDig '.' = false))
        · exact hrepF x (headSafe_not_dig hx)
        · exact parseExpPart_noe x (fun c t ht => headSafe_not_e hx c t ht)
    · refine ⟨(i0 :: it) ++ (('.' :: fds) ++ (e0 :: et)), by simp [hdec1, hcs2, hcs3], ⟨i0, _, rfl, hi0⟩, ?_, ?_⟩
      · refine mem_plain_append (fun c hc => isDig_plain (hdig c hc)) ?_
        intro c hc
        rcases List.mem_append.mp hc with hc | hc
        · rcases List.mem_cons.mp hc with rfl | hc
          · decide
          · exact isDig_plain (hfdig c hc)
        · exact hesplain c hc
      · intro x hx
        refine ⟨(('.' :: fds) ++ (e0 :: et)) ++ x, (e0 :: et) ++ x, ?_, ?_, ?_⟩
        · rw [List.append_assoc]
          exact hrepI ((('.' :: fds) ++ (e0 :: et)) ++ x)
            (fun c t ht => by
              rw [List.append_assoc] at ht
              injection ht with i1 _
              exact i1 ▸ (by decide : isDig '.' = false))
        · rw [List.append_assoc]
          exact hrepF ((e0 :: et) ++ x)
            (fun c t ht => by injection ht with i1 _; exact i1 ▸ expHead_not_dig heE)
        · exact hrepE x (headSafe_not_dig hx)

/-- The sign scan leaves a token without a leading minus unchanged. -/
theorem parseSign_nonneg {c : Char} (hc : ¬ c = '-') (y : List Char) :
    parseSign (c :: y) = (false, c :: y) := by
  unfold parseSign
  split
  · next r0 heq =>
    injection heq with i1 _
    exact absurd i1 hc
  · rfl

/-- Decomposition and replay of a whole number token. -/
theorem parseNum_main : ∀ (cs : List Char) (n : PyNum) (r : List Char),
    parseNum cs = some (n, r) →
    ∃ p, cs = p ++ r ∧
      (∃ c t, p = c :: t ∧ (isDig c = true ∨ c = '-')) ∧
      (∀ c ∈ p, plainChar c = true) ∧
      (∀ x, HeadSafe x → parseNum (p ++ x) = some (n, x)) := by
  intro cs n r h
  rcases cs with _ | ⟨c0, cs'⟩
  · rw [show parseNum [] = none from rfl] at h
    exact Option.noConfusion h
  by_cases hm : c0 = '-'
  · subst hm
    simp only [parseNum, parseSign] at h
    rcases hip : parseIntPart cs' with _ | ⟨ids, cs2⟩
    · rw [hip] at h
      exact Option.noConfusion h
    rw [hip] at h
    dsimp only at h
    rcases hfp : parseFracPart cs2 with ⟨fds, cs3⟩
    rw [hfp] at h
    dsimp only at h
    rcases hep : parseExpPart cs3 with ⟨ex, cs4⟩
    rw [hep] at h
    dsimp only at h
    obtain ⟨q, hqdec, ⟨qc, qt, hq, hqdig⟩, hqplain, hqrep⟩ :=
      parseNum_core cs' ids cs2 hip fds cs3 hfp ex cs4 hep
    rcases fds with _ | ⟨f0, ft⟩ <;> rcases ex with _ | ⟨eneg, eds⟩ <;>
      dsimp only at h <;> cases h <;>
      refine ⟨'-' :: q, by simp [hqdec], ⟨'-', q, rfl, Or.inr rfl⟩, ?_, ?_⟩ <;>
      try
        (intro c hc
         rcases List.mem_cons.mp hc with rfl | hc
         · decide
         · exact hqplain c hc)
    all_goals
      intro x hx
    all_goals
      obtain ⟨cs2x, cs3x, hIx, hFx, hEx⟩ := hqrep x hx
    all_goals
      rw [List.cons_append]
    all_goals
      simp only [parseNum, parseSign, hIx, hFx, hEx]
  · have hsg : parseSign (c0 :: cs') = (false, c0 :: cs') := parseSign_nonneg hm cs'
    simp only [parseNum, hsg] at h
    rcases hip : parseIntPart (c0 :: cs') with _ | ⟨ids, cs2⟩
    · rw [hip] at h
      exact Option.noConfusion h
    rw [hip] at h
    dsimp only at h
    rcases hfp : parseFracPart cs2 with ⟨fds, cs3⟩
    rw [hfp] at h
    dsimp only at h
    rcases hep : parseExpPart cs3 with ⟨ex, cs4⟩
    rw [hep] at h
    dsimp only at h
    obtain ⟨q, hqdec, ⟨qc, qt, hq, hqdig⟩, hqplain, hqrep⟩ :=
      parseNum_core (c0 :: cs') ids cs2 hip fds cs3 hfp ex cs4 hep
    rcases fds with _ | ⟨f0, ft⟩ <;> rcases ex with _ | ⟨eneg, eds⟩ <;>
      dsimp only at h <;> cases h <;>
      refine ⟨q, hqdec, ⟨qc, qt, hq, Or.inl hqdig⟩, hqplain, ?_⟩
    all_goals
      intro x hx
    all_goals
      obtain ⟨cs2x, cs3x, hIx, hFx, hEx⟩ := hqrep x hx
    all_goals
      subst hq
    all_goals
      have hsgx : parseSign (qc :: (qt ++ x)) = (false, qc :: (qt ++ x)) :=
        parseSign_nonneg
          (fun he => by rw [he] at hqdig; exact absurd hqdig (by decide)) _
    all_goals
      rw [List.cons_append]
    all_goals
      simp only [parseNum, hsgx]
    all_goals
      rw [← List.cons_append]
    all_goals
      simp only [hIx, hFx, hEx]

/-- The value parser rejects an empty input. -/
theorem val_nil : ∀ f, parseAny f .val [] = none := by
  intro f; cases f <;> rfl

/-- The elements parser rejects an empty input. -/
theorem elems_nil : ∀ f, parseAny f .elems [] = none := by
  intro f
  cases f with
  | zero => rfl
  | succ f2 => simp only [parseAny, val_nil]

/-- The members parser rejects an empty input. -/
theorem members_nil : ∀ f, parseAny f .members [] = none := by
  intro f; cases f <;> rfl

/-- A successful wrapped value parse comes from a `.v` result. -/
theorem parseVal_inv {f : Nat} {y : List Char} {v : PyJson} {r : List Char}
    (h : parseVal f y = some (v, r)) : parseAny f .val y = some (PRes.v v, r) := by
  unfold parseVal at h
  cases h2 : parseAny f .val y with
  | none => rw [h2] at h; exact Option.noConfusion h
  | some pr =>
    obtain ⟨res, r2⟩ := pr
    rw [h2] at h
    rcases res with v2 | vs2 | kvs2
    · dsimp only at h
      cases h
      rfl
    · dsimp only at h; exact Option.noConfusion h
    · dsimp only at h; exact Option.noConfusion h

/-- A successful wrapped elements parse comes from a `.vs` result. -/
theorem parseElems_inv {f : Nat} {y : List Char} {vs : List PyJson} {r : List Char}
    (h : parseElems f y = some (vs, r)) : parseAny f .elems y = some (PRes.vs vs, r) := by
  unfold parseElems at h
  cases h2 : parseAny f .elems y with
  | none => rw [h2] at h; exact Option.noConfusion h
  | some pr =>
    obtain ⟨res, r2⟩ := pr
    rw [h2] at h
    rcases res with v2 | vs2 | kvs2
    · dsimp only at h; exact Option.noConfusion h
    · dsimp only at h
      cases h
      rfl
    · dsimp only at h; exact Option.noConfusion h

/-- A successful wrapped members parse comes from a `.kvs` result. -/
theorem parseMembers_inv {f : Nat} {y : List Char} {kvs : List (String × PyJson)} {r : List Char}
    (h : parseMembers f y = some (kvs, r)) : parseAny f .members y = some (PRes.kvs kvs, r) := by
  unfold parseMembers at h
  cases h2 : parseAny f .members y with
  | none => rw [h2] at h; exact Option.noConfusion h
  | some pr =>
    obtain ⟨res, r2⟩ := pr
    rw [h2] at h
    rcases res with v2 | vs2 | kvs2
    · dsimp only at h; exact Option.noConfusion h
    · dsimp only at h; exact Option.noConfusion h
    · dsimp only at h
      cases h
      rfl

/-- A span of plain characters transports any capture. -/
theorem CapTrans_plain {p : List Char} (hp : ∀ c ∈ p, plainChar c = true) : CapTrans p :=
  fun x d cur acc _ => splitGo_plain p hp x d cur acc

/-- Capture transport composes over concatenation. -/
theorem CapTrans_append {p q : List Char} (hp : CapTrans p) (hq : CapTrans q) :
    CapTrans (p ++ q) := by
  intro x d cur acc hd
  rw [List.append_assoc, hp (q ++ x) d cur acc hd, hq x d (cur ++ p) acc hd,
    List.append_assoc]

/-- A whitespace run followed by a non-extending character is head-safe. -/
theorem headSafe_ws_append {w : List Char} (hw : ∀ c ∈ w, jsonWs c = true)
    {c : Char} (hc : numExt c = false) (y : List Char) : HeadSafe (w ++ c :: y) := by
  cases w with
  | nil => exact Or.inr ⟨c, y, rfl, hc⟩
  | cons a w' =>
    exact Or.inr ⟨a, w' ++ c :: y, rfl, jsonWs_not_numExt (hw a (by simp))⟩

/-- The last element survives appending on the left. -/
theorem getLast?_append_right (l1 l2 : List Char) (a : Char)
    (h : l2.getLast? = some a) : (l1 ++ l2).getLast? = some a := by
  rcases l2 with _ | ⟨b, l2'⟩
  · simp at h
  · rw [List.getLast?_append_cons]
    exact h

/-- Forward rule: a string literal in value mode. -/
theorem val_mk_str {f : Nat} {rest : List Char} {s : String} {r1 : List Char}
    (h : parseStrBody [] rest = some (s, r1)) :
    parseAny (f+1) .val ('"' :: rest) = some (PRes.v (PyJson.str s), r1) := by
  simp only [parseAny, h, Option.map_some']

/-- Forward rule: the empty object in value mode. -/
theorem val_mk_objE {f : Nat} {rest r2 : List Char} (h : skipWs rest = '\x7d' :: r2) :
    parseAny (f+1) .val ('\x7b' :: rest) = some (PRes.v (PyJson.obj []), r2) := by
  simp only [parseAny, h]

/-- Forward rule: a non-empty object in value mode. -/
theorem val_mk_obj {f : Nat} {rest : List Char} {kvs : List (String × PyJson)} {r : List Char}
    {d0 : Char} {rr : List Char} (hsw : skipWs rest = d0 :: rr) (hd : ¬ d0 = '\x7d')
    (h : parseAny f .members (d0 :: rr) = some (PRes.kvs kvs, r)) :
    parseAny (f+1) .val ('\x7b' :: rest) = some (PRes.v (PyJson.obj kvs), r) := by
  simp only [parseAny, hsw]
  split
  · next r2 heq => injection heq with i1 _; exact absurd i1 hd
  · next => simp only [h]

/-- Forward rule: the empty array in value mode. -/
theorem val_mk_arrE {f : Nat} {rest r2 : List Char} (h : skipWs rest = ']' :: r2) :
    parseAny (f+1) .val ('[' :: rest) = some (PRes.v (PyJson.arr []), r2) := by
  simp only [parseAny, h]

/-- Forward rule: a non-empty array in value mode. -/
theorem val_mk_arr {f : Nat} {rest : List Char} {vs : List PyJson} {r : List Char}
    {d0 : Char} {rr : List Char} (hsw : skipWs rest = d0 :: rr) (hd : ¬ d0 = ']')
    (h : parseAny f .elems (d0 :: rr) = some (PRes.vs vs, r)) :
    parseAny (f+1) .val ('[' :: rest) = some (PRes.v (PyJson.arr vs), r) := by
  simp only [parseAny, hsw]
  split
  · next r2 heq => injection heq with i1 _; exact absurd i1 hd
  · next => simp only [h]

/-- Forward rule: a single-element tail in elements mode. -/
theorem elems_mk1 {f : Nat} {cs : List Char} {v : PyJson} {r1 r2 : List Char}
    (hv : parseAny f .val cs = some (PRes.v v, r1)) (h1 : skipWs r1 = ']' :: r2) :
    parseAny (f+1) .elems cs = some (PRes.vs [v], r2) := by
  simp only [parseAny, hv, h1]

/-- Forward rule: a cons tail in elements mode. -/
theorem elems_mk2 {f : Nat} {cs : List Char} {v : PyJson} {r1 r2 : List Char}
    {vs' : List PyJson} {r3 : List Char}
    (hv : parseAny f .val cs = some (PRes.v v, r1)) (h1 : skipWs r1 = ',' :: r2)
    (he : parseAny f .elems (skipWs r2) = some (PRes.vs vs', r3)) :
    parseAny (f+1) .elems cs = some (PRes.vs (v :: vs'), r3) := by
  simp only [parseAny, hv, h1, he]

/-- Forward rule: a single member in members mode. -/
theorem members_mk1 {f : Nat} {rest : List Char} {k : String} {r1 r2 : List Char}
    {v : PyJson} {r3 r4 : List Char}
    (hsb : parseStrBody [] rest = some (k, r1))
    (h1 : skipWs r1 = ':' :: r2)
    (hv : parseAny f .val (skipWs r2) = some (PRes.v v, r3))
    (h3 : skipWs r3 = '\x7d' :: r4) :
    parseAny (f+1) .members ('"' :: rest) = some (PRes.kvs [(k, v)], r4) := by
  simp only [parseAny, hsb, h1, hv, h3]

/-- Forward rule: a cons member list in members mode. -/
theorem members_mk2 {f : Nat} {rest : List Char} {k : String} {r1 r2 : List Char}
    {v : PyJson} {r3 r4 : List Char} {kvs' : List (String × PyJson)} {r5 : List Char}
    (hsb : parseStrBody [] rest = some (k, r1))
    (h1 : skipWs r1 = ':' :: r2)
    (hv : parseAny f .val (skipWs r2) = some (PRes.v v, r3))
    (h3 : skipWs r3 = ',' :: r4)
    (hm : parseAny f .members (skipWs r4) = some (PRes.kvs kvs', r5)) :
    parseAny (f+1) .members ('"' :: rest) = some (PRes.kvs ((k, v) :: kvs'), r5) := by
  simp only [parseAny, hsb, h1, hv, h3, hm]

/-- A successful `.v` result from a wrapped value parse. -/
theorem parseVal_of {f : Nat} {y : List Char} {v : PyJson} {r : List Char}
    (h : parseAny f .val y = some (PRes.v v, r)) : parseVal f y = some (v, r) := by
  simp only [parseVal, h]

/-- A successful `.vs` result from a wrapped elements parse. -/
theorem parseElems_of {f : Nat} {y : List Char} {vs : List PyJson} {r : List Char}
    (h : parseAny f .elems y = some (PRes.vs vs, r)) : parseElems f y = some (vs, r) := by
  simp only [parseElems, h]

/-- A successful `.kvs` result from a wrapped members parse. -/
theorem parseMembers_of {f : Nat} {y : List Char} {kvs : List (String × PyJson)} {r : List Char}
    (h : parseAny f .members y = some (PRes.kvs kvs, r)) : parseMembers f y = some (kvs, r) := by
  simp only [parseMembers, h]

/-- Inversion of a successful elements-mode parse. -/
theorem elems_inv {f : Nat} {cs : List Char} {vs : List PyJson} {r : List Char}
    (h : parseAny (f+1) .elems cs = some (PRes.vs vs, r)) :
    ∃ v r1, parseAny f .val cs = some (PRes.v v, r1) ∧
      ((∃ r2, skipWs r1 = ']' :: r2 ∧ vs = [v] ∧ r = r2) ∨
       (∃ r2 vs', skipWs r1 = ',' :: r2 ∧
         parseAny f .elems (skipWs r2) = some (PRes.vs vs', r) ∧ vs = v :: vs')) := by
  simp only [parseAny] at h
  cases hv1 : parseAny f .val cs with
  | none => rw [hv1] at h; exact Option.noConfusion h
  | some pr =>
    obtain ⟨res, r1⟩ := pr
    rw [hv1] at h
    rcases res with v1 | vs1 | kvs1
    · refine ⟨v1, r1, rfl, ?_⟩
      rcases hsw : skipWs r1 with _ | ⟨d1, rr1⟩
      · simp only [hsw] at h
        exact Option.noConfusion h
      · by_cases hd1 : d1 = ']'
        · subst hd1
          simp only [hsw] at h
          cases h
          exact Or.inl ⟨_, rfl, rfl, rfl⟩
        · by_cases hcm : d1 = ','
          · subst hcm
            simp only [hsw] at h
            cases he : parseAny f .elems (skipWs rr1) with
            | none => rw [he] at h; exact Option.noConfusion h
            | some pr2 =>
              obtain ⟨res2, r3⟩ := pr2
              rw [he] at h
              rcases res2 with v2 | vs2 | kvs2
              · exact Option.noConfusion h
              · cases h
                exact Or.inr ⟨_, _, rfl, he, rfl⟩
              · exact Option.noConfusion h
          · simp only [hsw] at h
            split at h
            · next r2 heq => injection heq with i1 _; exact absurd i1 hd1
            · next r2 heq => injection heq with i1 _; exact absurd i1 hcm
            · next => exact Option.noConfusion h
    · exact Option.noConfusion h
    · exact Option.noConfusion h

/-- Inversion of a successful members-mode parse. -/
theorem members_inv {f : Nat} {cs : List Char} {kvs : List (String × PyJson)} {r : List Char}
    (h : parseAny (f+1) .members cs = some (PRes.kvs kvs, r)) :
    ∃ rest k r1 r2 v r3,
      cs = '"' :: rest ∧
      parseStrBody [] rest = some (k, r1) ∧
      skipWs r1 = ':' :: r2 ∧
      parseAny f .val (skipWs r2) = some (PRes.v v, r3) ∧
      ((∃ r4, skipWs r3 = '\x7d' :: r4 ∧ kvs = [(k, v)] ∧ r = r4) ∨
       (∃ r4 kvs', skipWs r3 = ',' :: r4 ∧
         parseAny f .members (skipWs r4) = some (PRes.kvs kvs', r) ∧
         kvs = (k, v) :: kvs')) := by
  rcases cs with _ | ⟨c0, rest⟩
  · rw [members_nil] at h
    exact Option.noConfusion h
  by_cases hq : c0 = '"'
  · subst hq
    simp only [parseAny] at h
    cases hsb : parseStrBody [] rest with
    | none => rw [hsb] at h; exact Option.noConfusion h
    | some kr =>
      obtain ⟨k, r1⟩ := kr
      rw [hsb] at h
      rcases hsw1 : skipWs r1 with _ | ⟨d1, rr1⟩
      · simp only [hsw1] at h
        exact Option.noConfusion h
      by_cases hco : d1 = ':'
      · subst hco
        simp only [hsw1] at h
        cases hval : parseAny f .val (skipWs rr1) with
        | none => rw [hval] at h; exact Option.noConfusion h
        | some pr =>
          obtain ⟨res, r3⟩ := pr
          rw [hval] at h
          rcases res with v1 | vs1 | kvs1
          · rcases hsw3 : skipWs r3 with _ | ⟨d3, rr3⟩
            · simp only [hsw3] at h
              exact Option.noConfusion h
            by_cases hd3 : d3 = '\x7d'
            · subst hd3
              simp only [hsw3] at h
              cases h
              exact ⟨rest, k, r1, rr1, v1, r3, rfl, hsb, hsw1, hval,
                Or.inl ⟨_, hsw3, rfl, rfl⟩⟩
            · by_cases hcm : d3 = ','
              · subst hcm
                simp only [hsw3] at h
                cases hm2 : parseAny f .members (skipWs rr3) with
                | none => rw [hm2] at h; exact Option.noConfusion h
                | some pr2 =>
                  obtain ⟨res2, r5⟩ := pr2
                  rw [hm2] at h
                  rcases res2 with v2 | vs2 | kvs2
                  · exact Option.noConfusion h
                  · exact Option.noConfusion h
                  · cases h
                    exact ⟨rest, k, r1, rr1, v1, r3, rfl, hsb, hsw1, hval,
                      Or.inr ⟨rr3, kvs2, hsw3, hm2, rfl⟩⟩
              · simp only [hsw3] at h
                split at h
                · next r4 heq => injection heq with i1 _; exact absurd i1 hd3
                · next r4 heq => injection heq with i1 _; exact absurd i1 hcm
                · next => exact Option.noConfusion h
          · exact Option.noConfusion h
          · exact Option.noConfusion h
      · simp only [hsw1] at h
        split at h
        · next r2 heq => injection heq with i1 _; exact absurd i1 hco
        · next => exact Option.noConfusion h
  · simp only [parseAny] at h
    split at h
    · next rest2 heq => injection heq with i1 _; exact absurd i1 hq
    · next => exact Option.noConfusion h

/-- Inversion of an object-value parse. -/
theorem val_inv_brace {f : Nat} {rest : List Char} {v : PyJson} {r : List Char}
    (h : parseAny (f+1) .val ('\x7b' :: rest) = some (PRes.v v, r)) :
    (∃ r2, skipWs rest = '\x7d' :: r2 ∧ v = PyJson.obj [] ∧ r = r2) ∨
    (∃ d0 rr kvs, skipWs rest = d0 :: rr ∧ ¬ d0 = '\x7d' ∧
      parseAny f .members (d0 :: rr) = some (PRes.kvs kvs, r) ∧ v = PyJson.obj kvs) := by
  simp only [parseAny] at h
  rcases hsw : skipWs rest with _ | ⟨d0, rr⟩
  · simp only [hsw, members_nil] at h
    exact Option.noConfusion h
  by_cases hd : d0 = '\x7d'
  · subst hd
    simp only [hsw] at h
    cases h
    exact Or.inl ⟨_, rfl, rfl, rfl⟩
  · simp only [hsw] at h
    split at h
    · next r2 heq => injection heq with i1 _; exact absurd i1 hd
    · cases hm : parseAny f .members (d0 :: rr) with
      | none => rw [hm] at h; exact Option.noConfusion h
      | some pr =>
        obtain ⟨res, r2⟩ := pr
        rw [hm] at h
        rcases res with v2 | vs2 | kvs2
        · exact Option.noConfusion h
        · exact Option.noConfusion h
        · cases h
          exact Or.inr ⟨d0, rr, kvs2, rfl, hd, hm, rfl⟩

/-- Inversion of an array-value parse. -/
theorem val_inv_brack {f : Nat} {rest : List Char} {v : PyJson} {r : List Char}
    (h : parseAny (f+1) .val ('[' :: rest) = some (PRes.v v, r)) :
    (∃ r2, skipWs rest = ']' :: r2 ∧ v = PyJson.arr [] ∧ r = r2) ∨
    (∃ d0 rr vs, skipWs rest = d0 :: rr ∧ ¬ d0 = ']' ∧
      parseAny f .elems (d0 :: rr) = some (PRes.vs vs, r) ∧ v = PyJson.arr vs) := by
  simp only [parseAny] at h
  rcases hsw : skipWs rest with _ | ⟨d0, rr⟩
  · simp only [hsw, elems_nil] at h
    exact Option.noConfusion h
  by_cases hd : d0 = ']'
  · subst hd
    simp only [hsw] at h
    cases h
    exact Or.inl ⟨_, rfl, rfl, rfl⟩
  · simp only [hsw] at h
    split at h
    · next r2 heq => injection heq with i1 _; exact absurd i1 hd
    · cases he : parseAny f .elems (d0 :: rr) with
      | none => rw [he] at h; exact Option.noConfusion h
      | some pr =>
        obtain ⟨res, r2⟩ := pr
        rw [he] at h
        rcases res with v2 | vs2 | kvs2
        · exact Option.noConfusion h
        · cases h
          exact Or.inr ⟨d0, rr, vs2, rfl, hd, he, rfl⟩
        · exact Option.noConfusion h

/-- One fuel step of the correspondence in elements mode. -/
theorem elems_step (f2 : Nat)
    (ihV : ∀ cs v r, parseAny f2 .val cs = some (PRes.v v, r) → ∃ p, cs = p ++ r ∧ ValP v p)
    (ihE : ∀ cs vs r, parseAny f2 .elems cs = some (PRes.vs vs, r) → ∃ p, cs = p ++ r ∧ ElemsP vs p) :
    ∀ cs vs r, parseAny (f2+1) .elems cs = some (PRes.vs vs, r) →
      ∃ p, cs = p ++ r ∧ ElemsP vs p := by
  intro cs vs r h
  obtain ⟨v1, r1, hv1, hrest⟩ := elems_inv h
  obtain ⟨p1, hp1e, ⟨vc, vt, hvcons, hvws, hvnb⟩, hvcap, hvrep, hvobj, hvarr⟩ :=
    ihV cs v1 r1 hv1
  rcases hrest with ⟨r2, hsw, rfl, rfl⟩ | ⟨r2, vs', hsw, he2, rfl⟩
  · obtain ⟨w1, hw1, hw1ws⟩ := skipWs_decomp r1 _ hsw
    have hpl1 : ∀ c ∈ w1 ++ [']'], plainChar c = true := by
      intro c hc
      rcases List.mem_append.mp hc with hc | hc
      · exact jsonWs_plain (hw1ws c hc)
      · rcases List.mem_cons.mp hc with rfl | hc
        · decide
        · simp at hc
    refine ⟨p1 ++ (w1 ++ [']']),
      by rw [hp1e, hw1]; simp,
      ⟨vc, vt ++ (w1 ++ [']']), by simp [hvcons], hvws, hvnb⟩,
      getLast?_append_right _ _ _ (getLast?_append_right _ _ _ rfl),
      CapTrans_append hvcap (CapTrans_plain hpl1), ?_, ?_⟩
    · intro fl x hfl
      obtain ⟨f3, rfl⟩ : ∃ f3, fl = f3 + 1 := ⟨fl - 1, by omega⟩
      have hL := hfl
      simp only [List.length_append, List.length_cons, List.length_nil] at hL
      apply parseElems_of
      rw [show (p1 ++ (w1 ++ [']'])) ++ x = p1 ++ (w1 ++ (']' :: x)) from by simp]
      exact elems_mk1
        (parseVal_inv (hvrep f3 (w1 ++ (']' :: x)) (by omega)
          (headSafe_ws_append hw1ws (by decide) x)))
        (skipWs_append hw1ws (by decide) x)
    · intro hall
      obtain ⟨hhead1, hobjtr⟩ := hvobj (hall v1 (by simp))
      refine ⟨[p1], by simp, List.Forall₂.cons ⟨hhead1, hvrep⟩ List.Forall₂.nil, ?_⟩
      intro x acc
      rw [show (p1 ++ (w1 ++ [']'])) ++ x = p1 ++ ((w1 ++ [']']) ++ x) from by simp]
      rw [hobjtr]
      rw [splitGo_plain0 (w1 ++ [']']) hpl1 x (acc ++ [p1])]
  · obtain ⟨w1, hw1, hw1ws⟩ := skipWs_decomp r1 _ hsw
    obtain ⟨w2, hw2, hw2ws⟩ := skipWs_decomp r2 _ rfl
    obtain ⟨qe, hqee, ⟨ec, et2, hecons, hecws, hecnb⟩, hqlast, hqcap, hqrep, hqsplit⟩ :=
      ihE _ vs' r he2
    have hpl1 : ∀ c ∈ w1 ++ [','], plainChar c = true := by
      intro c hc
      rcases List.mem_append.mp hc with hc | hc
      · exact jsonWs_plain (hw1ws c hc)
      · rcases List.mem_cons.mp hc with rfl | hc
        · decide
        · simp at hc
    have hpl2 : ∀ c ∈ w2, plainChar c = true := fun c hc => jsonWs_plain (hw2ws c hc)
    have hsw2x : ∀ x, skipWs (w2 ++ (qe ++ x)) = qe ++ x := by
      intro x
      rw [show w2 ++ (qe ++ x) = w2 ++ (ec :: (et2 ++ x)) from by simp [hecons],
        skipWs_append hw2ws hecws]
      simp [hecons]
    refine ⟨p1 ++ ((w1 ++ [',']) ++ (w2 ++ qe)),
      by rw [hp1e, hw1, hw2, hqee]; simp,
      ⟨vc, vt ++ ((w1 ++ [',']) ++ (w2 ++ qe)), by simp [hvcons], hvws, hvnb⟩,
      getLast?_append_right _ _ _ (getLast?_append_right _ _ _ (getLast?_append_right _ _ _ hqlast)),
      CapTrans_append hvcap (CapTrans_append (CapTrans_plain hpl1)
        (CapTrans_append (CapTrans_plain hpl2) hqcap)), ?_, ?_⟩
    · intro fl x hfl
      obtain ⟨f3, rfl⟩ : ∃ f3, fl = f3 + 1 := ⟨fl - 1, by omega⟩
      have hL := hfl
      simp only [List.length_append, List.length_cons, List.length_nil] at hL
      apply parseElems_of
      rw [show (p1 ++ ((w1 ++ [',']) ++ (w2 ++ qe))) ++ x =
          p1 ++ (w1 ++ (',' :: (w2 ++ (qe ++ x)))) from by simp]
      refine elems_mk2
        (parseVal_inv (hvrep f3 (w1 ++ (',' :: (w2 ++ (qe ++ x)))) (by omega)
          (headSafe_ws_append hw1ws (by decide) _)))
        (skipWs_append hw1ws (by decide) _) ?_
      rw [hsw2x x]
      exact parseElems_inv (hqrep f3 x (by omega))
    · intro hall
      obtain ⟨hhead1, hobjtr⟩ := hvobj (hall v1 (by simp))
      obtain ⟨parts2, hlen2, hF2, htr2⟩ := hqsplit (fun v hv => hall v (by simp [hv]))
      refine ⟨p1 :: parts2, by simp [hlen2],
        List.Forall₂.cons ⟨hhead1, hvrep⟩ hF2, ?_⟩
      intro x acc
      rw [show (p1 ++ ((w1 ++ [',']) ++ (w2 ++ qe))) ++ x =
          p1 ++ (((w1 ++ [',']) ++ w2) ++ (qe ++ x)) from by simp]
      rw [hobjtr]
      rw [splitGo_plain0 ((w1 ++ [',']) ++ w2)
        (fun c hc => by
          rcases List.mem_append.mp hc with hc | hc
          · exact hpl1 c hc
          · exact hpl2 c hc) (qe ++ x) (acc ++ [p1])]
      rw [htr2 x (acc ++ [p1])]
      simp

/-- One fuel step of the correspondence in members mode. -/
theorem members_step (f2 : Nat)
    (ihV : ∀ cs v r, parseAny f2 .val cs = some (PRes.v v, r) → ∃ p, cs = p ++ r ∧ ValP v p)
    (ihM : ∀ cs kvs r, parseAny f2 .members cs = some (PRes.kvs kvs, r) →
      ∃ p, cs = p ++ r ∧ MembersP kvs p) :
    ∀ cs kvs r, parseAny (f2+1) .members cs = some (PRes.kvs kvs, r) →
      ∃ p, cs = p ++ r ∧ MembersP kvs p := by
  intro cs kvs r h
  obtain ⟨rest, k, r1, r2, v1, r3, rfl, hsb, hsw1, hval, hrest⟩ := members_inv h
  obtain ⟨qk, hqke, hkrep, hktr⟩ := strBody_main [] rest k r1 hsb
  obtain ⟨w1, hw1, hw1ws⟩ := skipWs_decomp r1 _ hsw1
  obtain ⟨w2, hw2, hw2ws⟩ := skipWs_decomp r2 _ rfl
  obtain ⟨p1, hp1e, ⟨vc, vt, hvcons, hvws, hvnb⟩, hvcap, hvrep, hvobj, hvarr⟩ :=
    ihV _ v1 r3 hval
  have hplColon : ∀ c ∈ w1 ++ (':' :: w2), plainChar c = true := by
    intro c hc
    rcases List.mem_append.mp hc with hc | hc
    · exact jsonWs_plain (hw1ws c hc)
    · rcases List.mem_cons.mp hc with rfl | hc
      · decide
      · exact jsonWs_plain (hw2ws c hc)
  have hcapF : CapTrans ((w1 ++ (':' :: w2)) ++ p1) :=
    CapTrans_append (CapTrans_plain hplColon) hvcap
  have hskip2 : ∀ W, skipWs (w2 ++ (p1 ++ W)) = p1 ++ W := by
    intro W
    rw [show w2 ++ (p1 ++ W) = w2 ++ (vc :: (vt ++ W)) from by simp [hvcons],
      skipWs_append hw2ws hvws]
    simp [hvcons]
  rcases hrest with ⟨r4, hsw3, rfl, rfl⟩ | ⟨r4, kvs', hsw3, hm2, rfl⟩
  · obtain ⟨w3, hw3, hw3ws⟩ := skipWs_decomp r3 _ hsw3
    have hpl3 : ∀ c ∈ w3, plainChar c = true := fun c hc => jsonWs_plain (hw3ws c hc)
    refine ⟨'"' :: (qk ++ (w1 ++ (':' :: (w2 ++ (p1 ++ (w3 ++ ['\x7d'])))))),
      by rw [hqke, hw1, hw2, hp1e, hw3]; simp, ⟨_, rfl⟩, ?_, ?_⟩
    · intro x d cur acc hd
      rw [List.cons_append, splitGo, splitStep_quote_enter]
      dsimp only
      simp only [Option.map_some']
      rw [show (qk ++ (w1 ++ (':' :: (w2 ++ (p1 ++ (w3 ++ ['\x7d'])))))) ++ x =
          qk ++ (((w1 ++ (':' :: w2)) ++ p1) ++ (w3 ++ ('\x7d' :: x))) from by simp]
      rw [hktr]
      rw [hcapF _ d _ acc hd]
      rw [show w3 ++ ('\x7d' :: x) = w3 ++ ('\x7d' :: x) from rfl]
      rw [splitGo_plain w3 hpl3 ('\x7d' :: x) d _ acc]
      by_cases hd1 : d = 1
      · subst hd1
        rw [if_pos rfl]
        rw [splitGo, splitStep_rbrace_emit (by norm_num)]
        dsimp only
        rw [show (1 : Int) - 1 = 0 from by norm_num]
        simp [List.append_assoc]
      · rw [if_neg hd1]
        rw [splitGo, splitStep_rbrace_desc (show ¬((d : Int) - 1 = 0) from by omega)]
        dsimp only
        simp only [Option.map_some']
        simp [List.append_assoc]
    · intro fl x hfl
      obtain ⟨f3, rfl⟩ : ∃ f3, fl = f3 + 1 := ⟨fl - 1, by omega⟩
      have hL := hfl
      simp only [List.length_append, List.length_cons, List.length_nil] at hL
      apply parseMembers_of
      rw [show ('"' :: (qk ++ (w1 ++ (':' :: (w2 ++ (p1 ++ (w3 ++ ['\x7d']))))))) ++ x =
          '"' :: (qk ++ (w1 ++ (':' :: (w2 ++ (p1 ++ (w3 ++ ('\x7d' :: x))))))) from by simp]
      refine members_mk1 (hkrep _) (skipWs_append hw1ws (by decide) _) ?_
        (skipWs_append hw3ws (by decide) x)
      rw [hskip2 (w3 ++ ('\x7d' :: x))]
      exact parseVal_inv (hvrep f3 _ (by omega) (headSafe_ws_append hw3ws (by decide) x))
  · obtain ⟨w3, hw3, hw3ws⟩ := skipWs_decomp r3 _ hsw3
    obtain ⟨w4, hw4, hw4ws⟩ := skipWs_decomp r4 _ rfl
    obtain ⟨qm, hqme, ⟨mt, hqmcons⟩, hmT, hmR⟩ := ihM _ kvs' r hm2
    have hplComma : ∀ c ∈ w3 ++ (',' :: w4), plainChar c = true := by
      intro c hc
      rcases List.mem_append.mp hc with hc | hc
      · exact jsonWs_plain (hw3ws c hc)
      · rcases List.mem_cons.mp hc with rfl | hc
        · decide
        · exact jsonWs_plain (hw4ws c hc)
    have hskip4 : ∀ x, skipWs (w4 ++ (qm ++ x)) = qm ++ x := by
      intro x
      rw [show w4 ++ (qm ++ x) = w4 ++ ('"' :: (mt ++ x)) from by simp [hqmcons],
        skipWs_append hw4ws (by decide)]
      simp [hqmcons]
    refine ⟨'"' :: (qk ++ (w1 ++ (':' :: (w2 ++ (p1 ++ (w3 ++ (',' :: (w4 ++ qm)))))))),
      by rw [hqke, hw1, hw2, hp1e, hw3, hw4, hqme]; simp, ⟨_, rfl⟩, ?_, ?_⟩
    · intro x d cur acc hd
      rw [List.cons_append, splitGo, splitStep_quote_enter]
      dsimp only
      simp only [Option.map_some']
      rw [show (qk ++ (w1 ++ (':' :: (w2 ++ (p1 ++ (w3 ++ (',' :: (w4 ++ qm)))))))) ++ x =
          qk ++ ((((w1 ++ (':' :: w2)) ++ p1) ++ (w3 ++ (',' :: w4))) ++ (qm ++ x)) from by
        simp]
      rw [hktr]
      rw [show (((w1 ++ (':' :: w2)) ++ p1) ++ (w3 ++ (',' :: w4))) ++ (qm ++ x) =
          ((w1 ++ (':' :: w2)) ++ p1) ++ ((w3 ++ (',' :: w4)) ++ (qm ++ x)) from by simp]
      rw [hcapF _ d _ acc hd]
      rw [show (w3 ++ (',' :: w4)) ++ (qm ++ x) = (w3 ++ (',' :: w4)) ++ (qm ++ x) from rfl]
      rw [splitGo_plain (w3 ++ (',' :: w4)) hplComma (qm ++ x) d _ acc]
      rw [hmT x d _ acc hd]
      by_cases hd1 : d = 1
      · rw [if_pos hd1, if_pos hd1]
        simp [List.append_assoc]
      · rw [if_neg hd1, if_neg hd1]
        simp [List.append_assoc]
    · intro fl x hfl
      obtain ⟨f3, rfl⟩ : ∃ f3, fl = f3 + 1 := ⟨fl - 1, by omega⟩
      have hL := hfl
      simp only [List.length_append, List.length_cons, List.length_nil] at hL
      apply parseMembers_of
      rw [show ('"' :: (qk ++ (w1 ++ (':' :: (w2 ++ (p1 ++ (w3 ++ (',' :: (w4 ++ qm))))))))) ++ x =
          '"' :: (qk ++ (w1 ++ (':' :: (w2 ++ (p1 ++ (w3 ++ (',' :: (w4 ++ (qm ++ x)))))))))
        from by simp]
      refine members_mk2 (hkrep _) (skipWs_append hw1ws (by decide) _) ?_
        (skipWs_append hw3ws (by decide) (w4 ++ (qm ++ x))) ?_
      · rw [hskip2 (w3 ++ (',' :: (w4 ++ (qm ++ x))))]
        exact parseVal_inv (hvrep f3 _ (by omega) (headSafe_ws_append hw3ws (by decide) _))
      · rw [hskip4 x]
        exact parseMembers_inv (hmR f3 x (by omega))

/-- Value-mode dispatch for a head that opens no string, object or array:
the keyword and number token chain. -/
theorem val_default (f : Nat) {c0 : Char} (h1 : ¬ c0 = '"') (h2 : ¬ c0 = '\x7b')
    (h3 : ¬ c0 = '[') (rest : List Char) :
    parseAny (f+1) .val (c0 :: rest) =
      (if strStarts ("null".toList) (c0 :: rest) = true then
        some (PRes.v PyJson.null, (c0 :: rest).drop 4)
      else if strStarts ("true".toList) (c0 :: rest) = true then
        some (PRes.v (PyJson.bool true), (c0 :: rest).drop 4)
      else if strStarts ("false".toList) (c0 :: rest) = true then
        some (PRes.v (PyJson.bool false), (c0 :: rest).drop 5)
      else
        match parseNum (c0 :: rest) with
        | some (n, r) => some (PRes.v (PyJson.num n), r)
        | none =>
          if strStarts ("NaN".toList) (c0 :: rest) = true then
            some (PRes.v (PyJson.num PyNum.nan), (c0 :: rest).drop 3)
          else if strStarts ("Infinity".toList) (c0 :: rest) = true then
            some (PRes.v (PyJson.num (PyNum.inf false)), (c0 :: rest).drop 8)
          else if strStarts ("-Infinity".toList) (c0 :: rest) = true then
            some (PRes.v (PyJson.num (PyNum.inf true)), (c0 :: rest).drop 9)
          else none) := by
  simp only [parseAny]
  split
  · next heq => exact absurd heq (by simp)
  · next heq => injection heq with i1 _; exact absurd i1 h1
  · next heq => injection heq with i1 _; exact absurd i1 h2
  · next heq => injection heq with i1 _; exact absurd i1 h3
  · next => rfl

/-- A prefix test fails on a mismatched head. -/
theorem strStarts_false_of_head {kc : Char} (kt : List Char) {c : Char}
    (hne : ¬ kc = c) (y : List Char) : strStarts (kc :: kt) (c :: y) = false := by
  simp [strStarts, hne]

/-- One fuel step of the correspondence in value mode. -/
theorem val_step (f2 : Nat)
    (ihE : ∀ cs vs r, parseAny f2 .elems cs = some (PRes.vs vs, r) → ∃ p, cs = p ++ r ∧ ElemsP vs p)
    (ihM : ∀ cs kvs r, parseAny f2 .members cs = some (PRes.kvs kvs, r) →
      ∃ p, cs = p ++ r ∧ MembersP kvs p) :
    ∀ cs v r, parseAny (f2+1) .val cs = some (PRes.v v, r) →
      ∃ p, cs = p ++ r ∧ ValP v p := by
  intro cs v r h
  rcases cs with _ | ⟨c0, rest⟩
  · rw [val_nil] at h
    exact Option.noConfusion h
  by_cases hq : c0 = '"'
  · subst hq
    simp only [parseAny] at h
    cases hsb : parseStrBody [] rest with
    | none => rw [hsb] at h; exact Option.noConfusion h
    | some sr =>
      obtain ⟨s, r1⟩ := sr
      rw [hsb] at h
      simp only [Option.map_some'] at h
      cases h
      obtain ⟨qb, hqe, hrep, htr⟩ := strBody_main [] rest s _ hsb
      refine ⟨'"' :: qb, by simp [hqe], ⟨'"', qb, rfl, by decide, by decide⟩, ?_, ?_, ?_, ?_⟩
      · intro x d cur acc hd
        rw [List.cons_append, splitGo, splitStep_quote_enter]
        dsimp only
        simp only [Option.map_some']
        rw [htr x d _ acc]
        simp [List.append_assoc]
      · intro fl x hfl hx
        obtain ⟨f3, rfl⟩ : ∃ f3, fl = f3 + 1 := ⟨fl - 1, by omega⟩
        apply parseVal_of
        rw [List.cons_append]
        exact val_mk_str (hrep x)
      · intro hobj
        simp [PyJson.isObjB] at hobj
      · intro vs hv
        exact PyJson.noConfusion hv
  by_cases hbr : c0 = '\x7b'
  · subst hbr
    rcases val_inv_brace h with ⟨r2, hsw, rfl, rfl⟩ | ⟨d0, rr, kvs, hsw, hdne, hm, rfl⟩
    · obtain ⟨w, hw, hwws⟩ := skipWs_decomp rest _ hsw
      have hplw : ∀ c ∈ w, plainChar c = true := fun c hc => jsonWs_plain (hwws c hc)
      refine ⟨'\x7b' :: (w ++ ['\x7d']), by rw [hw]; simp,
        ⟨_, _, rfl, by decide, by decide⟩, ?_, ?_, ?_, ?_⟩
      · intro x d cur acc hd
        rw [List.cons_append, splitGo,
          splitStep_lbrace_pos (show ¬(d = 0) from by omega)]
        dsimp only
        simp only [Option.map_some']
        rw [show (w ++ ['\x7d']) ++ x = w ++ ('\x7d' :: x) from by simp]
        rw [splitGo_plain w hplw ('\x7d' :: x) (d+1) _ acc]
        rw [splitGo, splitStep_rbrace_desc (show ¬((d : Int) + 1 - 1 = 0) from by omega)]
        dsimp only
        simp only [Option.map_some']
        rw [show (d : Int) + 1 - 1 = d from by ring]
        simp [List.append_assoc]
      · intro fl x hfl hx
        obtain ⟨f3, rfl⟩ : ∃ f3, fl = f3 + 1 := ⟨fl - 1, by omega⟩
        apply parseVal_of
        rw [show ('\x7b' :: (w ++ ['\x7d'])) ++ x = '\x7b' :: (w ++ ('\x7d' :: x)) from by simp]
        exact val_mk_objE (skipWs_append hwws (by decide) x)
      · intro _
        refine ⟨rfl, ?_⟩
        intro x acc
        rw [show ('\x7b' :: (w ++ ['\x7d'])) ++ x = '\x7b' :: (w ++ ('\x7d' :: x)) from by simp]
        rw [splitGo, splitStep_lbrace0]
        dsimp only
        rw [splitGo_plain w hplw ('\x7d' :: x) 1 _ acc]
        rw [splitGo, splitStep_rbrace_emit (by norm_num)]
        dsimp only
        rw [show (1 : Int) - 1 = 0 from by norm_num]
        simp [List.append_assoc]
      · intro vs hv
        exact PyJson.noConfusion hv
    · obtain ⟨w, hw, hwws⟩ := skipWs_decomp rest _ hsw
      have hplw : ∀ c ∈ w, plainChar c = true := fun c hc => jsonWs_plain (hwws c hc)
      obtain ⟨qm, hqme, ⟨mt, hqmcons⟩, hmT, hmR⟩ := ihM _ kvs r hm
      have hskipq : ∀ x, skipWs (w ++ (qm ++ x)) = '"' :: (mt ++ x) := by
        intro x
        rw [show w ++ (qm ++ x) = w ++ ('"' :: (mt ++ x)) from by simp [hqmcons],
          skipWs_append hwws (by decide)]
      refine ⟨'\x7b' :: (w ++ qm), by rw [hw, hqme]; simp,
        ⟨_, _, rfl, by decide, by decide⟩, ?_, ?_, ?_, ?_⟩
      · intro x d cur acc hd
        rw [List.cons_append, splitGo,
          splitStep_lbrace_pos (show ¬(d = 0) from by omega)]
        dsimp only
        simp only [Option.map_some']
        rw [show (w ++ qm) ++ x = w ++ (qm ++ x) from by simp]
        rw [splitGo_plain w hplw (qm ++ x) (d+1) _ acc]
        rw [hmT x (d+1) _ acc (by omega)]
        rw [if_neg (show ¬((d : Int) + 1 = 1) from by omega)]
        rw [show (d : Int) + 1 - 1 = d from by ring]
        simp [List.append_assoc]
      · intro fl x hfl hx
        obtain ⟨f3, rfl⟩ : ∃ f3, fl = f3 + 1 := ⟨fl - 1, by omega⟩
        have hL := hfl
        simp only [List.length_append, List.length_cons, List.length_nil] at hL
        apply parseVal_of
        rw [show ('\x7b' :: (w ++ qm)) ++ x = '\x7b' :: (w ++ (qm ++ x)) from by simp]
        refine val_mk_obj (hskipq x) (by decide) ?_
        rw [show '"' :: (mt ++ x) = qm ++ x from by simp [hqmcons]]
        exact parseMembers_inv (hmR f3 x (by omega))
      · intro _
        refine ⟨rfl, ?_⟩
        intro x acc
        rw [show ('\x7b' :: (w ++ qm)) ++ x = '\x7b' :: (w ++ (qm ++ x)) from by simp]
        rw [splitGo, splitStep_lbrace0]
        dsimp only
        rw [splitGo_plain w hplw (qm ++ x) 1 _ acc]
        rw [hmT x 1 _ acc (by norm_num)]
        rw [if_pos rfl]
        simp [List.append_assoc]
      · intro vs hv
        exact PyJson.noConfusion hv
  by_cases hbk : c0 = '['
  · subst hbk
    rcases val_inv_brack h with ⟨r2, hsw, rfl, rfl⟩ | ⟨d0, rr, vs0, hsw, hdne, he, rfl⟩
    · obtain ⟨w, hw, hwws⟩ := skipWs_decomp rest _ hsw
      have hplw : ∀ c ∈ w, plainChar c = true := fun c hc => jsonWs_plain (hwws c hc)
      have hplp : ∀ c ∈ '[' :: (w ++ [']']), plainChar c = true := by
        intro c hc
        rcases List.mem_cons.mp hc with rfl | hc
        · decide
        rcases List.mem_append.mp hc with hc | hc
        · exact hplw c hc
        · rcases List.mem_cons.mp hc with rfl | hc
          · decide
          · simp at hc
      refine ⟨'[' :: (w ++ [']']), by rw [hw]; simp,
        ⟨_, _, rfl, by decide, by decide⟩, CapTrans_plain hplp, ?_, ?_, ?_⟩
      · intro fl x hfl hx
        obtain ⟨f3, rfl⟩ : ∃ f3, fl = f3 + 1 := ⟨fl - 1, by omega⟩
        apply parseVal_of
        rw [show ('[' :: (w ++ [']'])) ++ x = '[' :: (w ++ (']' :: x)) from by simp]
        exact val_mk_arrE (skipWs_append hwws (by decide) x)
      · intro hobj
        simp [PyJson.isObjB] at hobj
      · intro vs hv
        injection hv with hv2
        subst hv2
        refine ⟨w ++ [']'], rfl, getLast?_append_right _ _ _ rfl, ?_⟩
        intro _
        refine ⟨[], rfl, List.Forall₂.nil, ?_⟩
        intro x acc
        rw [splitGo_plain0 (w ++ [']'])
          (fun c hc => hplp c (by simp [hc])) x acc]
        simp
    · obtain ⟨w, hw, hwws⟩ := skipWs_decomp rest _ hsw
      have hplw : ∀ c ∈ w, plainChar c = true := fun c hc => jsonWs_plain (hwws c hc)
      obtain ⟨qe, hqee, ⟨ec, et2, hecons, hecws, hecnb⟩, hqlast, hqcap, hqrep, hqsplit⟩ :=
        ihE _ vs0 r he
      have hskipq : ∀ x, skipWs (w ++ (qe ++ x)) = ec :: (et2 ++ x) := by
        intro x
        rw [show w ++ (qe ++ x) = w ++ (ec :: (et2 ++ x)) from by simp [hecons],
          skipWs_append hwws hecws]
      refine ⟨'[' :: (w ++ qe), by rw [hw, hqee]; simp,
        ⟨_, _, rfl, by decide, by decide⟩, ?_, ?_, ?_, ?_⟩
      · have h1 : CapTrans ('[' :: w) := CapTrans_plain (by
          intro c hc
          rcases List.mem_cons.mp hc with rfl | hc
          · decide
          · exact hplw c hc)
        exact (show ('[' :: w) ++ qe = '[' :: (w ++ qe) from rfl) ▸ CapTrans_append h1 hqcap
      · intro fl x hfl hx
        obtain ⟨f3, rfl⟩ : ∃ f3, fl = f3 + 1 := ⟨fl - 1, by omega⟩
        have hL := hfl
        simp only [List.length_append, List.length_cons, List.length_nil] at hL
        apply parseVal_of
        rw [show ('[' :: (w ++ qe)) ++ x = '[' :: (w ++ (qe ++ x)) from by simp]
        refine val_mk_arr (hskipq x) hecnb ?_
        rw [show ec :: (et2 ++ x) = qe ++ x from by simp [hecons]]
        exact parseElems_inv (hqrep f3 x (by omega))
      · intro hobj
        simp [PyJson.isObjB] at hobj
      · intro vs hv
        injection hv with hv2
        subst hv2
        refine ⟨w ++ qe, rfl, getLast?_append_right _ _ _ hqlast, ?_⟩
        intro hall
        obtain ⟨parts, hlen, hF2, htr⟩ := hqsplit hall
        refine ⟨parts, hlen, hF2, ?_⟩
        intro x acc
        rw [show (w ++ qe) ++ x = w ++ (qe ++ x) from by simp]
        rw [splitGo_plain0 w hplw (qe ++ x) acc]
        exact htr x acc
  rw [val_default f2 hq hbr hbk rest] at h
  by_cases hnull : strStarts ("null".toList) (c0 :: rest) = true
  · rw [if_pos hnull] at h
    cases h
    refine ⟨['n', 'u', 'l', 'l'], strStarts_decomp _ _ hnull,
      ⟨'n', _, rfl, by decide, by decide⟩, CapTrans_plain (by decide), ?_, ?_, ?_⟩
    · intro fl x hfl hx
      obtain ⟨f3, rfl⟩ : ∃ f3, fl = f3 + 1 := ⟨fl - 1, by omega⟩
      rfl
    · intro hobj
      exact absurd hobj (by decide)
    · intro vs hv
      exact PyJson.noConfusion hv
  rw [if_neg hnull] at h
  by_cases htrue : strStarts ("true".toList) (c0 :: rest) = true
  · rw [if_pos htrue] at h
    cases h
    refine ⟨['t', 'r', 'u', 'e'], strStarts_decomp _ _ htrue,
      ⟨'t', _, rfl, by decide, by decide⟩, CapTrans_plain (by decide), ?_, ?_, ?_⟩
    · intro fl x hfl hx
      obtain ⟨f3, rfl⟩ : ∃ f3, fl = f3 + 1 := ⟨fl - 1, by omega⟩
      rfl
    · intro hobj
      exact absurd hobj (by decide)
    · intro vs hv
      exact PyJson.noConfusion hv
  rw [if_neg htrue] at h
  by_cases hfalse : strStarts ("false".toList) (c0 :: rest) = true
  · rw [if_pos hfalse] at h
    cases h
    refine ⟨['f', 'a', 'l', 's', 'e'], strStarts_decomp _ _ hfalse,
      ⟨'f', _, rfl, by decide, by decide⟩, CapTrans_plain (by decide), ?_, ?_, ?_⟩
    · intro fl x hfl hx
      obtain ⟨f3, rfl⟩ : ∃ f3, fl = f3 + 1 := ⟨fl - 1, by omega⟩
      rfl
    · intro hobj
      exact absurd hobj (by decide)
    · intro vs hv
      exact PyJson.noConfusion hv
  rw [if_neg hfalse] at h
  cases hpn : parseNum (c0 :: rest) with
  | some nr =>
    obtain ⟨n, rn⟩ := nr
    rw [hpn] at h
    cases h
    obtain ⟨pn, hpdec, ⟨nc, nt, hnp, hnhead⟩, hpplain, hprep⟩ := parseNum_main _ _ _ hpn
    have hfacts : (¬ nc = '"') ∧ (¬ nc = '\x7b') ∧ (¬ nc = '[') ∧ jsonWs nc = false ∧
        (¬ nc = ']') ∧ (¬ 'n' = nc) ∧ (¬ 't' = nc) ∧ (¬ 'f' = nc) := by
      rcases hnhead with hd | rfl
      · refine ⟨?_, ?_, ?_, isDig_not_ws hd, ?_, ?_, ?_, ?_⟩ <;>
          first
          | (intro he; rw [he] at hd; exact absurd hd (by decide))
          | (intro he; rw [← he] at hd; exact absurd hd (by decide))
      · exact ⟨by decide, by decide, by decide, by decide, by decide,
          by decide, by decide, by decide⟩
    obtain ⟨hf1, hf2, hf3, hf4, hf5, hf6, hf7, hf8⟩ := hfacts
    refine ⟨pn, hpdec, ⟨nc, nt, hnp, hf4, hf5⟩, CapTrans_plain hpplain, ?_, ?_, ?_⟩
    · intro fl x hfl hx
      obtain ⟨f3, rfl⟩ : ∃ f3, fl = f3 + 1 := ⟨fl - 1, by omega⟩
      apply parseVal_of
      rw [show pn ++ x = nc :: (nt ++ x) from by simp [hnp]]
      rw [val_default f3 hf1 hf2 hf3]
      rw [show ("null".toList) = ['n', 'u', 'l', 'l'] from rfl,
        show ("true".toList) = ['t', 'r', 'u', 'e'] from rfl,
        show ("false".toList) = ['f', 'a', 'l', 's', 'e'] from rfl]
      rw [if_neg (by rw [strStarts_false_of_head _ hf6 _]; simp)]
      rw [if_neg (by rw [strStarts_false_of_head _ hf7 _]; simp)]
      rw [if_neg (by rw [strStarts_false_of_head _ hf8 _]; simp)]
      rw [show nc :: (nt ++ x) = pn ++ x from by simp [hnp]]
      simp only [hprep x hx]
    · intro hobj
      simp [PyJson.isObjB] at hobj
    · intro vs hv
      exact PyJson.noConfusion hv
  | none =>
    simp only [hpn] at h
    by_cases hnan : strStarts ("NaN".toList) (c0 :: rest) = true
    · rw [if_pos hnan] at h
      cases h
      refine ⟨['N', 'a', 'N'], strStarts_decomp _ _ hnan,
        ⟨'N', _, rfl, by decide, by decide⟩, CapTrans_plain (by decide), ?_, ?_, ?_⟩
      · intro fl x hfl hx
        obtain ⟨f3, rfl⟩ : ∃ f3, fl = f3 + 1 := ⟨fl - 1, by omega⟩
        rfl
      · intro hobj
        exact absurd hobj (by decide)
      · intro vs hv
        exact PyJson.noConfusion hv
    rw [if_neg hnan] at h
    by_cases hinf : strStarts ("Infinity".toList) (c0 :: rest) = true
    · rw [if_pos hinf] at h
      cases h
      refine ⟨['I', 'n', 'f', 'i', 'n', 'i', 't', 'y'], strStarts_decomp _ _ hinf,
        ⟨'I', _, rfl, by decide, by decide⟩, CapTrans_plain (by decide), ?_, ?_, ?_⟩
      · intro fl x hfl hx
        obtain ⟨f3, rfl⟩ : ∃ f3, fl = f3 + 1 := ⟨fl - 1, by omega⟩
        rfl
      · intro hobj
        exact absurd hobj (by decide)
      · intro vs hv
        exact PyJson.noConfusion hv
    rw [if_neg hinf] at h
    by_cases hninf : strStarts ("-Infinity".toList) (c0 :: rest) = true
    · rw [if_pos hninf] at h
      cases h
      refine ⟨['-', 'I', 'n', 'f', 'i', 'n', 'i', 't', 'y'], strStarts_decomp _ _ hninf,
        ⟨'-', _, rfl, by decide, by decide⟩, CapTrans_plain (by decide), ?_, ?_, ?_⟩
      · intro fl x hfl hx
        obtain ⟨f3, rfl⟩ : ∃ f3, fl = f3 + 1 := ⟨fl - 1, by omega⟩
        rfl
      · intro hobj
        exact absurd hobj (by decide)
      · intro vs hv
        exact PyJson.noConfusion hv
    rw [if_neg hninf] at h
    exact Option.noConfusion h

/-- The scan/parse correspondence, by induction on fuel. -/
theorem parse_main : ∀ f,
    (∀ cs v r, parseAny f .val cs = some (PRes.v v, r) → ∃ p, cs = p ++ r ∧ ValP v p) ∧
    (∀ cs vs r, parseAny f .elems cs = some (PRes.vs vs, r) → ∃ p, cs = p ++ r ∧ ElemsP vs p) ∧
    (∀ cs kvs r, parseAny f .members cs = some (PRes.kvs kvs, r) →
      ∃ p, cs = p ++ r ∧ MembersP kvs p) := by
  intro f
  induction f with
  | zero =>
    refine ⟨?_, ?_, ?_⟩ <;> intro cs a r h <;> exact Option.noConfusion h
  | succ f2 ih =>
    obtain ⟨ihV, ihE, ihM⟩ := ih
    exact ⟨val_step f2 ihE ihM, elems_step f2 ihV ihE, members_step f2 ihV ihM⟩

/-- Dropping a whitespace prefix stops at a non-whitespace head. -/
theorem dropWhile_ws_append : ∀ (w : List Char), (∀ c ∈ w, pyWs c = true) →
    ∀ (c : Char) (t : List Char), pyWs c = false →
    List.dropWhile pyWs (w ++ (c :: t)) = c :: t := by
  intro w
  induction w with
  | nil =>
    intro _ c t hc
    rw [List.nil_append, List.dropWhile_cons, if_neg (by simp [hc])]
  | cons a w' ih =>
    intro hw c t hc
    rw [List.cons_append, List.dropWhile_cons, if_pos (by simp [hw a (by simp)])]
    exact ih (fun b hb => hw b (by simp [hb])) c t hc

/-- A list whose last element is known is a concatenation onto it. -/
theorem eq_concat_of_getLast? : ∀ (l : List Char) (a : Char),
    l.getLast? = some a → ∃ l2, l = l2 ++ [a] := by
  intro l
  induction l with
  | nil => intro a h; simp at h
  | cons c t ih =>
    intro a h
    rcases t with _ | ⟨b, t2⟩
    · simp at h
      exact ⟨[], by simp [h]⟩
    · rw [List.getLast?_cons_cons] at h
      obtain ⟨l2, hl2⟩ := ih a h
      exact ⟨c :: l2, by simp [hl2]⟩

/-- Python `strip` of a whitespace-padded token returns exactly the token. -/
theorem pyStripL_sandwich {w0 p w1 : List Char}
    (h0 : ∀ c ∈ w0, pyWs c = true) (h1 : ∀ c ∈ w1, pyWs c = true)
    {c : Char} {ct : List Char} (hp : p = c :: ct) (hc : pyWs c = false)
    {d : Char} (hd : p.getLast? = some d) (hdw : pyWs d = false) :
    pyStripL (w0 ++ (p ++ w1)) = p := by
  obtain ⟨l2, hl2⟩ := eq_concat_of_getLast? p d hd
  unfold pyStripL
  rw [show w0 ++ (p ++ w1) = w0 ++ (c :: (ct ++ w1)) from by simp [hp]]
  rw [dropWhile_ws_append w0 h0 c _ hc]
  rw [show c :: (ct ++ w1) = (p ++ w1) from by simp [hp]]
  rw [show p ++ w1 = (l2 ++ [d]) ++ w1 from by rw [hl2]]
  rw [show ((l2 ++ [d]) ++ w1).reverse = w1.reverse ++ (d :: l2.reverse) from by simp]
  rw [dropWhile_ws_append w1.reverse (fun b hb => h1 b (List.mem_reverse.mp hb)) d _ hdw]
  rw [show (d :: l2.reverse).reverse = l2 ++ [d] from by simp]
  exact hl2.symm

/-- Inversion of a successful top-level `json.loads`. -/
theorem pyLoads_inv {cs : List Char} {v : PyJson}
    (h : pyJsonLoadsL cs = some v) :
    ∃ w0 p w1,
      cs = w0 ++ (p ++ w1) ∧
      (∀ c ∈ w0, jsonWs c = true) ∧ (∀ c ∈ w1, jsonWs c = true) ∧
      ValP v p := by
  unfold pyJsonLoadsL at h
  cases hpv : parseVal (2 * cs.length + 2) (skipWs cs) with
  | none => rw [hpv] at h; exact Option.noConfusion h
  | some vr =>
    obtain ⟨v1, rest⟩ := vr
    rw [hpv] at h
    rcases hswr : skipWs rest with _ | ⟨c1, t1⟩
    · simp only [hswr] at h
      cases h
      obtain ⟨p, hdec, hvp⟩ :=
        (parse_main (2 * cs.length + 2)).1 _ _ _ (parseVal_inv hpv)
      obtain ⟨w0, hw0, hw0ws⟩ := skipWs_decomp cs _ rfl
      obtain ⟨w1, hw1, hw1ws⟩ := skipWs_decomp rest _ hswr
      refine ⟨w0, p, rest, ?_, hw0ws, ?_, hvp⟩
      · rw [hw0, hdec]
      · intro b hb
        rw [hw1] at hb
        simp at hb
        exact hw1ws b hb
    · simp only [hswr] at h
      exact Option.noConfusion h

/-- A string whose characters form a cons is not empty. -/
theorem isEmpty_false_of_cons {c : Char} {t : List Char} {s : String}
    (h : s.toList = c :: t) : s.isEmpty = false := by
  cases s with
  | mk data =>
    simp [String.toList] at h
    subst h
    have h2 := Char.utf8Size_pos c
    simp [String.isEmpty, String.endPos, String.utf8ByteSize, String.utf8ByteSize.go,
      String.Pos.ext_iff]
    omega

/-- An emitted object span parses on its own under `json.loads`. -/
theorem part_loads {q : List Char} {v : PyJson}
    (hh : q.head? = some '\x7b') (hr : Replay q v) :
    pyJsonLoadsL q = some v := by
  rcases q with _ | ⟨c, qt⟩
  · simp at hh
  · injection hh with hh1
    subst hh1
    unfold pyJsonLoadsL
    have hsw : skipWs ('\x7b' :: qt) = '\x7b' :: qt := by
      rw [skipWs, if_neg (by decide)]
    rw [hsw]
    have hv := hr (2 * ('\x7b' :: qt).length + 2) [] (by simp; omega) (Or.inl rfl)
    rw [List.append_nil] at hv
    rw [hv]
    rfl

/-- A comma-join of spans whose first opens an object also opens an object. -/
theorem joinCommaL_head {q qt : List Char} (hq : q = '\x7b' :: qt)
    (rest : List (List Char)) : ∃ t, joinCommaL (q :: rest) = '\x7b' :: t := by
  rcases rest with _ | ⟨q2, rest2⟩
  · exact ⟨qt, by rw [show joinCommaL [q] = q from rfl, hq]⟩
  · exact ⟨qt ++ (',' :: joinCommaL (q2 :: rest2)), by
      rw [show joinCommaL (q :: q2 :: rest2) = q ++ (',' :: joinCommaL (q2 :: rest2)) from rfl,
        hq]
      rfl⟩

/-- Rejoining the splitter parts with commas parses back in elements mode. -/
theorem rebuild_elems : ∀ (partsL : List (List Char)) (vs : List PyJson),
    List.Forall₂ (fun q v => q.head? = some '\x7b' ∧ Replay q v) partsL vs →
    partsL ≠ [] →
    ∀ f x, (joinCommaL partsL).length + 2 ≤ f →
      parseAny f .elems (joinCommaL partsL ++ (']' :: x)) = some (PRes.vs vs, x) := by
  intro partsL
  induction partsL with
  | nil => intro vs _ hne; exact absurd rfl hne
  | cons q rest ih =>
    intro vs hF _ f x hf
    rcases hF with _ | ⟨⟨hh, hr⟩, hF'⟩
    rcases rest with _ | ⟨q2, rest2⟩
    · cases hF'
      obtain ⟨f3, rfl⟩ : ∃ f3, f = f3 + 1 := ⟨f - 1, by omega⟩
      rw [show joinCommaL [q] = q from rfl] at hf ⊢
      refine elems_mk1 (parseVal_inv (hr f3 (']' :: x) (by omega)
        (Or.inr ⟨']', x, rfl, by decide⟩))) ?_
      rw [skipWs, if_neg (by decide)]
    · obtain ⟨f3, rfl⟩ : ∃ f3, f = f3 + 1 := ⟨f - 1, by omega⟩
      rw [show joinCommaL (q :: q2 :: rest2) = q ++ (',' :: joinCommaL (q2 :: rest2)) from rfl]
        at hf ⊢
      have hLf := hf
      simp only [List.length_append, List.length_cons] at hLf
      rw [show (q ++ (',' :: joinCommaL (q2 :: rest2))) ++ (']' :: x) =
          q ++ (',' :: (joinCommaL (q2 :: rest2) ++ (']' :: x))) from by simp]
      have hh2 : ∃ q2t, q2 = '\x7b' :: q2t := by
        rcases hF' with _ | ⟨⟨hh2, _⟩, _⟩
        rcases q2 with _ | ⟨c2, q2t⟩
        · simp at hh2
        · injection hh2 with hh3
          exact ⟨q2t, by rw [hh3]⟩
      obtain ⟨q2t, hq2⟩ := hh2
      obtain ⟨t2, ht2⟩ := joinCommaL_head hq2 rest2
      have h1x : skipWs (',' :: (joinCommaL (q2 :: rest2) ++ (']' :: x))) =
          ',' :: (joinCommaL (q2 :: rest2) ++ (']' :: x)) := by
        rw [skipWs, if_neg (by decide)]
      refine elems_mk2 (parseVal_inv (hr f3 _ (by omega)
        (Or.inr ⟨',', _, rfl, by decide⟩))) h1x ?_
      · rw [show joinCommaL (q2 :: rest2) ++ (']' :: x) = '\x7b' :: (t2 ++ (']' :: x)) from by
          rw [ht2]; rfl]
        rw [skipWs, if_neg (by decide)]
        rw [show '\x7b' :: (t2 ++ (']' :: x)) = joinCommaL (q2 :: rest2) ++ (']' :: x) from by
          rw [ht2]; rfl]
        exact ih _ hF' (by simp) f3 x (by omega)

/-- The character list of an intercalation accumulator run. -/
theorem go_toList : ∀ (as : List String) (acc : String),
    (String.intercalate.go acc "," as).toList =
      acc.toList ++ (as.map (fun b => ',' :: b.toList)).flatten := by
  intro as
  induction as with
  | nil => intro acc; simp [String.intercalate.go]
  | cons b bs ih =>
    intro acc
    rw [String.intercalate.go, ih]
    simp [toList_append]

/-- The comma join in char-list form. -/
theorem joinCommaL_join : ∀ (rest : List (List Char)) (p : List Char),
    p ++ (rest.map (fun l => ',' :: l)).flatten = joinCommaL (p :: rest) := by
  intro rest
  induction rest with
  | nil => intro p; simp [joinCommaL]
  | cons q rest2 ih =>
    intro p
    rw [show joinCommaL (p :: q :: rest2) = p ++ (',' :: joinCommaL (q :: rest2)) from rfl]
    rw [← ih q]
    simp

/-- The character list of the comma intercalation of made strings. -/
theorem intercalate_toList : ∀ (partsL : List (List Char)),
    (String.intercalate "," (partsL.map String.mk)).toList = joinCommaL partsL := by
  intro partsL
  rcases partsL with _ | ⟨p, rest⟩
  · rfl
  · rw [show (p :: rest).map String.mk = String.mk p :: rest.map String.mk from rfl]
    rw [show String.intercalate "," (String.mk p :: rest.map String.mk) =
        String.intercalate.go (String.mk p) "," (rest.map String.mk) from rfl]
    rw [go_toList]
    rw [show (String.mk p).toList = p from rfl]
    rw [List.map_map]
    rw [show ((fun b => ',' :: String.toList b) ∘ String.mk) = (fun l => ',' :: l) from
      funext (fun l => rfl)]
    exact joinCommaL_join rest p

/-- The rejoined parts parse back to the same array. -/
theorem rebuild_loads {q : List Char} {rest : List (List Char)} {vs : List PyJson}
    (hF : List.Forall₂ (fun q v => q.head? = some '\x7b' ∧ Replay q v) (q :: rest) vs) :
    pyJsonLoadsL ('[' :: (joinCommaL (q :: rest) ++ [']'])) = some (PyJson.arr vs) := by
  have hq : ∃ qt, q = '\x7b' :: qt := by
    rcases hF with _ | ⟨⟨hh, _⟩, _⟩
    rcases q with _ | ⟨c, qt⟩
    · simp at hh
    · injection hh with hh1
      exact ⟨qt, by rw [hh1]⟩
  obtain ⟨qt, hqe⟩ := hq
  obtain ⟨t, ht⟩ := joinCommaL_head hqe rest
  unfold pyJsonLoadsL
  rw [show skipWs ('[' :: (joinCommaL (q :: rest) ++ [']'])) =
      '[' :: (joinCommaL (q :: rest) ++ [']']) from by rw [skipWs, if_neg (by decide)]]
  have hv : parseVal (2 * ('[' :: (joinCommaL (q :: rest) ++ [']'])).length + 2)
      ('[' :: (joinCommaL (q :: rest) ++ [']'])) = some (PyJson.arr vs, []) := by
    obtain ⟨f3, hfe⟩ :
        ∃ f3, 2 * ('[' :: (joinCommaL (q :: rest) ++ [']'])).length + 2 = f3 + 1 :=
      ⟨2 * ('[' :: (joinCommaL (q :: rest) ++ [']'])).length + 1, by omega⟩
    have hfL := hfe
    simp only [List.length_append, List.length_cons, List.length_nil] at hfL
    rw [hfe]
    apply parseVal_of
    refine val_mk_arr (show skipWs (joinCommaL (q :: rest) ++ [']']) =
        '\x7b' :: (t ++ [']']) from by
      rw [ht, List.cons_append, skipWs, if_neg (by decide)]) (by decide) ?_
    rw [show '\x7b' :: (t ++ [']']) = joinCommaL (q :: rest) ++ (']' :: []) from by
      rw [ht]; rfl]
    exact rebuild_elems _ _ hF (by simp) f3 [] (by omega)
  rw [hv]
  rfl

/-- CLAIM C7 (amended): on a well-formed JSON array text all of whose
top-level elements are objects, `_split_json_array_objects` returns exactly
one substring per element, each parsing under `json.loads` to its element,
and rejoining them with commas inside brackets parses to the same array
value; commas and braces inside string literals create no spurious
boundaries. -/
theorem c7_split_amended : ∀ (s : String) (vs : List PyJson),
    pyJsonLoads s = some (PyJson.arr vs) →
    (∀ v ∈ vs, PyJson.isObjB v = true) →
    (split_json_array_objects s).length = vs.length ∧
    List.Forall₂ (fun q v => pyJsonLoads q = some v) (split_json_array_objects s) vs ∧
    pyJsonLoads (rebuildArr (split_json_array_objects s)) = some (PyJson.arr vs) := by
  intro s vs hp hobj
  obtain ⟨w0, p, w1, hsl, hw0, hw1, hvp⟩ := pyLoads_inv hp
  obtain ⟨hhead, hcap, hrep, hobjc, harrc⟩ := hvp
  obtain ⟨p2, hp2, hlast2, hsplit⟩ := harrc vs rfl
  obtain ⟨partsL, hlen, hF2, htr⟩ := hsplit hobj
  have hstrip : pyStripL s.toList = '[' :: p2 := by
    rw [hsl, hp2]
    exact pyStripL_sandwich (fun c hc => jsonWs_pyWs (hw0 c hc))
      (fun c hc => jsonWs_pyWs (hw1 c hc)) rfl (by decide)
      (getLast?_append_right ['['] p2 ']' hlast2) (by decide)
  have hne : s.isEmpty = false := by
    obtain ⟨c, t, hct⟩ : ∃ c t, s.toList = c :: t := by
      rcases w0 with _ | ⟨a, w0t⟩
      · exact ⟨'[', p2 ++ w1, by rw [hsl, hp2]; simp⟩
      · exact ⟨a, w0t ++ (p ++ w1), by rw [hsl]; simp⟩
    exact isEmpty_false_of_cons hct
  have hsplit_eq : split_json_array_objects s = partsL.map String.mk := by
    unfold split_json_array_objects
    rw [if_neg (by simp [hne])]
    rw [hstrip]
    rw [if_pos (by simp [strStarts])]
    rw [show ('[' :: p2).drop 1 = p2 from rfl]
    rw [show p2 = p2 ++ [] from by simp]
    rw [htr [] []]
    rfl
  refine ⟨?_, ?_, ?_⟩
  · rw [hsplit_eq]
    simp [hlen]
  · rw [hsplit_eq]
    rw [List.forall₂_map_left_iff]
    exact hF2.imp (fun a b hab => part_loads hab.1 hab.2)
  · rcases hPL : partsL with _ | ⟨q, rest⟩
    · have hvs : vs = [] := by
        rw [hPL] at hlen
        cases vs
        · rfl
        · simp at hlen
      subst hvs
      rw [hsplit_eq, hPL]
      rfl
    · rw [hsplit_eq, hPL]
      show pyJsonLoadsL (rebuildArr ((q :: rest).map String.mk)).toList = some (PyJson.arr vs)
      rw [show (rebuildArr ((q :: rest).map String.mk)).toList =
          '[' :: (joinCommaL (q :: rest) ++ [']']) from by
        unfold rebuildArr
        rw [toList_append, toList_append, intercalate_toList]
        simp]
      exact rebuild_loads (hPL ▸ hF2)

/-- CLAIM C7 (counterexample): the well-formed array text `[[{"a":1}]]`
contains zero top-level objects (its only element is an array), yet
`_split_json_array_objects` returns one substring: the brace scan captures
the inner object regardless of array nesting, so the part count is not the
top-level object count. -/
theorem c7_nested_array_cex :
    pyJsonLoads "[[\x7b\"a\":1\x7d]]" =
      some (PyJson.arr [PyJson.arr [PyJson.obj [("a", PyJson.num (PyNum.I 1))]]]) ∧
    countTopObjs (PyJson.arr [PyJson.arr [PyJson.obj [("a", PyJson.num (PyNum.I 1))]]]) = 0 ∧
    (split_json_array_objects "[[\x7b\"a\":1\x7d]]").length = 1 := by
  exact ⟨rfl, rfl, rfl⟩

/-- CLAIM C7 (witness): the amended splitter correctness at the concrete
two-object array text. -/
theorem c7_witness :
    pyJsonLoads "[\x7b\"a\":1\x7d,\x7b\"b\":2\x7d]" =
      some (PyJson.arr [PyJson.obj [("a", PyJson.num (PyNum.I 1))],
        PyJson.obj [("b", PyJson.num (PyNum.I 2))]]) ∧
    (∀ v ∈ [PyJson.obj [("a", PyJson.num (PyNum.I 1))],
        PyJson.obj [("b", PyJson.num (PyNum.I 2))]], PyJson.isObjB v = true) ∧
    ((split_json_array_objects "[\x7b\"a\":1\x7d,\x7b\"b\":2\x7d]").length =
      [PyJson.obj [("a", PyJson.num (PyNum.I 1))],
        PyJson.obj [("b", PyJson.num (PyNum.I 2))]].length ∧
     List.Forall₂ (fun q v => pyJsonLoads q = some v)
       (split_json_array_objects "[\x7b\"a\":1\x7d,\x7b\"b\":2\x7d]")
       [PyJson.obj [("a", PyJson.num (PyNum.I 1))],
        PyJson.obj [("b", PyJson.num (PyNum.I 2))]] ∧
     pyJsonLoads (rebuildArr (split_json_array_objects "[\x7b\"a\":1\x7d,\x7b\"b\":2\x7d]")) =
       some (PyJson.arr [PyJson.obj [("a", PyJson.num (PyNum.I 1))],
        PyJson.obj [("b", PyJson.num (PyNum.I 2))]])) :=
  ⟨rfl, by decide,
    c7_split_amended "[\x7b\"a\":1\x7d,\x7b\"b\":2\x7d]"
      [PyJson.obj [("a", PyJson.num (PyNum.I 1))],
        PyJson.obj [("b", PyJson.num (PyNum.I 2))]] rfl (by decide)⟩

end GluCoPilot
